import Mathlib

/-!
# dtrace_hash.c: the probe hash table of the DTrace kernel module

A shallow embedding of `kernel/dtrace/dtrace_hash.c` and a verification of
its behaviour.

Modelling conventions.

* A C string is the list of the `char` values found from the pointer on; the
  terminating NUL may be left out (reading past the end of the list yields 0)
  and everything behind the first 0 is never looked at.
* Probes live in caller-owned memory `mem : Nat → dtrace_probe_t`; a pointer to
  a probe is `some a`, the null pointer is `none`.
* Hash buckets are private to the table (allocated in `dtrace_hash_add`, freed
  in `dtrace_hash_remove`), so the singly linked list threaded through
  `dthb_next` is a Lean list: `dth_tab` is the list of the slot chains. A
  pointer into a chain is the triple (buckets before, bucket, buckets after).
* `BUG_ON`, a NULL dereference and an out-of-range table index stop the
  kernel; they are the `Fault` results.
* The `int` fields `dth_size`, `dth_mask`, `dth_nbuckets` and `dthb_len` are
  natural numbers (they would need 2^31 live buckets to wrap); `uint_t`
  arithmetic in `dtrace_hash_str` is taken modulo 2^32.
-/

set_option autoImplicit false

namespace DtraceHash

/-! ## Data model -/

/-- The ways an operation can stop the kernel instead of returning. -/
inductive Fault where
  | bug_on
  | bad_access
  | no_fuel
  deriving DecidableEq, Repr

/-- Modelled from the spec: `dtrace_probe_t` is declared in `dtrace.h`, which is
not part of the sources; the table reads a probe only through the three
offsets given to `dtrace_hash_create`: the record's string key and its
`next` and `prev` links. -/
structure dtrace_probe_t where
  str : List Int
  next : Option Nat
  prev : Option Nat
  deriving DecidableEq, Repr

/-- Modelled from the spec: `dtrace_hashbucket_t` is declared in `dtrace.h`,
which is not part of the sources; it holds `dthb_next` (here: the position
in the slot chain), the head `dthb_chain` of the record list and the count
`dthb_len`. -/
structure dtrace_hashbucket_t where
  dthb_chain : Option Nat
  dthb_len : Nat
  deriving DecidableEq, Repr

/-- Modelled from the spec: `dtrace_hash_t` is declared in `dtrace.h`, which is
not part of the sources; it holds the slot array, its size and mask, the
number of live buckets and the three field offsets. -/
structure dtrace_hash_t where
  dth_tab : List (List dtrace_hashbucket_t)
  dth_size : Nat
  dth_mask : Nat
  dth_nbuckets : Nat
  dth_nextoffs : Nat
  dth_prevoffs : Nat
  dth_stroffs : Nat
  deriving DecidableEq, Repr

/-- The table together with the probe memory it points into. -/
structure State where
  hash : dtrace_hash_t
  mem : Nat → dtrace_probe_t

/-- Modelled from the spec: the macro `DTRACE_HASHNEXT` is defined in `dtrace.h`,
which is not part of the sources; it addresses the `next` link of a record.
This is the store `*(DTRACE_HASHNEXT(hash, a)) = v`. -/
def set_next (mem : Nat → dtrace_probe_t) (a : Nat) (v : Option Nat) :
    Nat → dtrace_probe_t :=
  fun x => if x = a then { mem a with next := v } else mem x

/-- Modelled from the spec: the macro `DTRACE_HASHPREV` is defined in `dtrace.h`,
which is not part of the sources; it addresses the `prev` link of a record.
This is the store `*(DTRACE_HASHPREV(hash, a)) = v`. -/
def set_prev (mem : Nat → dtrace_probe_t) (a : Nat) (v : Option Nat) :
    Nat → dtrace_probe_t :=
  fun x => if x = a then { mem a with prev := v } else mem x

/-! ## Hashing and key comparison -/

/-- One round of the loop of `dtrace_hash_str` on the character `c`. -/
def hash_step (hval : Nat) (c : Int) : Nat :=
  let hval1 := ((hval <<< 4) % 2 ^ 32 + (c % 2 ^ 32).toNat) % 2 ^ 32
  let g := hval1 &&& 0xf0000000
  let hval2 := if g ≠ 0 then hval1 ^^^ (g >>> 24) else hval1
  hval2 &&& (0xffffffff ^^^ g)

/-- The loop `while (*p)` of `dtrace_hash_str`, started with `hval`. -/
def dtrace_hash_str_loop : Nat → List Int → Nat
  | hval, [] => hval
  | hval, c :: p => if c = 0 then hval else dtrace_hash_str_loop (hash_step hval c) p

/-- The function `dtrace_hash_str`: the loop started with `hval = 0`. -/
def dtrace_hash_str (p : List Int) : Nat :=
  dtrace_hash_str_loop 0 p

/-- The C library `strcmp`: the difference of the first pair of characters
that differ, 0 when both strings end together. -/
def strcmp : List Int → List Int → Int
  | [], [] => 0
  | [], d :: _ => 0 - d
  | c :: _, [] => c
  | c :: s, d :: t => if c ≠ d then c - d else if c = 0 then 0 else strcmp s t

/-- The macro `DTRACE_HASHSTR(hash, probe)`, on the probe the pointer refers to. -/
def DTRACE_HASHSTR (probe : dtrace_probe_t) : Nat :=
  dtrace_hash_str probe.str

/-- The macro `DTRACE_HASHEQ(hash, lhs, rhs)`, on the probes the pointers refer to. -/
def DTRACE_HASHEQ (lhs rhs : dtrace_probe_t) : Bool :=
  strcmp lhs.str rhs.str == 0

/-! ## Operations -/

/-- The function `dtrace_hash_create`: one empty slot, mask `size - 1`, and no
buckets (the table comes from `kzalloc`). -/
def dtrace_hash_create (stroffs nextoffs prevoffs : Nat) : dtrace_hash_t :=
  { dth_tab := List.replicate 1 []
    dth_size := 1
    dth_mask := 1 - 1
    dth_nbuckets := 0
    dth_nextoffs := nextoffs
    dth_prevoffs := prevoffs
    dth_stroffs := stroffs }

/-- The walk `for (; bucket != NULL; bucket = bucket->dthb_next)` that is
shared by add, lookup, collisions and remove: it stops at the first bucket
whose head record has a key equal to that of `probe`, and yields the place
of that bucket in the chain. -/
def bucket_search (mem : Nat → dtrace_probe_t) (probe : dtrace_probe_t) :
    List dtrace_hashbucket_t →
    Except Fault (Option (List dtrace_hashbucket_t × dtrace_hashbucket_t × List dtrace_hashbucket_t))
  | [] => .ok none
  | bucket :: rest =>
    match bucket.dthb_chain with
    | none => .error .bad_access
    | some c =>
      if DTRACE_HASHEQ (mem c) probe then .ok (some ([], bucket, rest))
      else
        match bucket_search mem probe rest with
        | .error e => .error e
        | .ok none => .ok none
        | .ok (some (pre, b, post)) => .ok (some (bucket :: pre, b, post))

/-- The inner loop of `dtrace_hash_resize`: every bucket of one old chain is
pushed on the front of the chain of its new slot. -/
def resize_chain (mem : Nat → dtrace_probe_t) (new_mask : Nat) :
    List dtrace_hashbucket_t → List (List dtrace_hashbucket_t) →
    Except Fault (List (List dtrace_hashbucket_t))
  | [], new_tab => .ok new_tab
  | bucket :: next, new_tab =>
    match bucket.dthb_chain with
    | none => .error .bug_on
    | some probe =>
      let ndx := DTRACE_HASHSTR (mem probe) &&& new_mask
      match new_tab[ndx]? with
      | none => .error .bad_access
      | some head => resize_chain mem new_mask next (new_tab.set ndx (bucket :: head))

/-- The outer loop `for (i = 0; i < size; i++)` of `dtrace_hash_resize`, with
`n` slots still to go from slot `i` on. -/
def resize_loop (mem : Nat → dtrace_probe_t) (tab : List (List dtrace_hashbucket_t))
    (new_mask : Nat) : Nat → Nat → List (List dtrace_hashbucket_t) →
    Except Fault (List (List dtrace_hashbucket_t))
  | 0, _, new_tab => .ok new_tab
  | n + 1, i, new_tab =>
    match tab[i]? with
    | none => .error .bad_access
    | some chain =>
      match resize_chain mem new_mask chain new_tab with
      | .error e => .error e
      | .ok new_tab1 => resize_loop mem tab new_mask n (i + 1) new_tab1

/-- The function `dtrace_hash_resize`. -/
def dtrace_hash_resize (s : State) : Except Fault State :=
  let size := s.hash.dth_size
  let new_size := s.hash.dth_size <<< 1
  let new_mask := new_size - 1
  if new_size &&& new_mask ≠ 0 then .error .bug_on
  else
    match resize_loop s.mem s.hash.dth_tab new_mask size 0 (List.replicate new_size []) with
    | .error e => .error e
    | .ok new_tab =>
      .ok { s with hash := { s.hash with dth_tab := new_tab, dth_size := new_size, dth_mask := new_mask } }

/-- The part of `dtrace_hash_add` behind the label `add:`; `bucket` is the
bucket at position `pre.length` of the chain of slot `ndx`. -/
def hash_add_link (s : State) (ndx : Nat) (pre : List dtrace_hashbucket_t)
    (bucket : dtrace_hashbucket_t) (post : List dtrace_hashbucket_t) (new : Nat) :
    Except Fault State :=
  if (s.mem new).next ≠ none ∨ (s.mem new).prev ≠ none then .error .bug_on
  else
    let mem1 := set_next s.mem new bucket.dthb_chain
    let bucket1 : dtrace_hashbucket_t :=
      { dthb_chain := some new, dthb_len := bucket.dthb_len + 1 }
    let hash1 := { s.hash with dth_tab := s.hash.dth_tab.set ndx (pre ++ bucket1 :: post) }
    match bucket.dthb_chain with
    | none => .ok { hash := hash1, mem := mem1 }
    | some c =>
      if (mem1 c).prev ≠ none then .error .bug_on
      else .ok { hash := hash1, mem := set_prev mem1 c (some new) }

/-- The function `dtrace_hash_add`, with a bound `fuel` on the depth of its
recursion. -/
def dtrace_hash_add_aux : Nat → State → Nat → Except Fault State
  | 0, _, _ => .error .no_fuel
  | fuel + 1, s, new =>
    let hashval := DTRACE_HASHSTR (s.mem new)
    let ndx := hashval &&& s.hash.dth_mask
    match s.hash.dth_tab[ndx]? with
    | none => .error .bad_access
    | some chain =>
      match bucket_search s.mem (s.mem new) chain with
      | .error e => .error e
      | .ok (some (pre, bucket, post)) => hash_add_link s ndx pre bucket post new
      | .ok none =>
        if (s.hash.dth_nbuckets >>> 1) > s.hash.dth_size then
          match dtrace_hash_resize s with
          | .error e => .error e
          | .ok s1 => dtrace_hash_add_aux fuel s1 new
        else
          let bucket : dtrace_hashbucket_t := { dthb_chain := none, dthb_len := 0 }
          let s1 : State :=
            { s with hash := { s.hash with
                dth_tab := s.hash.dth_tab.set ndx (bucket :: chain)
                dth_nbuckets := s.hash.dth_nbuckets + 1 } }
          hash_add_link s1 ndx [] bucket chain new

/-- The function `dtrace_hash_add`. Every retry follows a doubling of `dth_size`, so on a
table with at least one slot fewer than `dth_nbuckets + 2` calls are nested. -/
def dtrace_hash_add (s : State) (new : Nat) : Except Fault State :=
  dtrace_hash_add_aux (s.hash.dth_nbuckets + 2) s new

/-- The function `dtrace_hash_lookup`. -/
def dtrace_hash_lookup (s : State) (template : dtrace_probe_t) : Except Fault (Option Nat) :=
  let hashval := DTRACE_HASHSTR template
  let ndx := hashval &&& s.hash.dth_mask
  match s.hash.dth_tab[ndx]? with
  | none => .error .bad_access
  | some chain =>
    match bucket_search s.mem template chain with
    | .error e => .error e
    | .ok none => .ok none
    | .ok (some (_, bucket, _)) => .ok bucket.dthb_chain

/-- The function `dtrace_hash_collisions`. -/
def dtrace_hash_collisions (s : State) (template : dtrace_probe_t) : Except Fault Nat :=
  let hashval := DTRACE_HASHSTR template
  let ndx := hashval &&& s.hash.dth_mask
  match s.hash.dth_tab[ndx]? with
  | none => .error .bad_access
  | some chain =>
    match bucket_search s.mem template chain with
    | .error e => .error e
    | .ok none => .ok 0
    | .ok (some (_, bucket, _)) => .ok bucket.dthb_len

/-- The last statement of `dtrace_hash_remove`:
`if (*nextp != NULL) *(DTRACE_HASHPREV(hash, *nextp)) = *prevp;`. -/
def remove_fix_prev (hash : dtrace_hash_t) (mem : Nat → dtrace_probe_t) (probe : Nat) : State :=
  match (mem probe).next with
  | none => { hash := hash, mem := mem }
  | some n => { hash := hash, mem := set_prev mem n (mem probe).prev }

/-- The function `dtrace_hash_remove`. Unlinking the bucket from its slot chain (either
`dth_tab[ndx] = bucket->dthb_next` or the scan for the bucket before it)
leaves the buckets before and after it. -/
def dtrace_hash_remove (s : State) (probe : Nat) : Except Fault State :=
  let ndx := DTRACE_HASHSTR (s.mem probe) &&& s.hash.dth_mask
  match s.hash.dth_tab[ndx]? with
  | none => .error .bad_access
  | some chain =>
    match bucket_search s.mem (s.mem probe) chain with
    | .error e => .error e
    | .ok none => .error .bug_on
    | .ok (some (pre, bucket, post)) =>
      match (s.mem probe).prev with
      | none =>
        match (s.mem probe).next with
        | none =>
          if bucket.dthb_chain ≠ some probe then .error .bug_on
          else if s.hash.dth_nbuckets ≤ 0 then .error .bug_on
          else
            .ok { s with hash := { s.hash with
                    dth_tab := s.hash.dth_tab.set ndx (pre ++ post)
                    dth_nbuckets := s.hash.dth_nbuckets - 1 } }
        | some n =>
          let bucket1 : dtrace_hashbucket_t := { bucket with dthb_chain := some n }
          let hash1 := { s.hash with dth_tab := s.hash.dth_tab.set ndx (pre ++ bucket1 :: post) }
          .ok (remove_fix_prev hash1 s.mem probe)
      | some p =>
        .ok (remove_fix_prev s.hash (set_next s.mem p (s.mem probe).next) probe)

/-! ## Specification vocabulary -/

/-- The key of a C string: its characters before the terminating NUL. -/
def cstr : List Int → List Int
  | [] => []
  | c :: p => if c = 0 then [] else c :: cstr p

/-- Walking from pointer `p` through the `next` links visits exactly the
records `l` and then reaches NULL. -/
def IsList (mem : Nat → dtrace_probe_t) : Option Nat → List Nat → Prop
  | p, [] => p = none
  | p, a :: l => p = some a ∧ IsList mem (mem a).next l

/-- As `IsList`, and the `prev` link of every record points to the record
before it (`q` for the first one). -/
def DList (mem : Nat → dtrace_probe_t) : Option Nat → Option Nat → List Nat → Prop
  | _, p, [] => p = none
  | q, p, a :: l => p = some a ∧ (mem a).prev = q ∧ DList mem (some a) (mem a).next l

/-- All buckets of the table, slot by slot. -/
def all_buckets (s : State) : List dtrace_hashbucket_t :=
  s.hash.dth_tab.flatten

/-- Record `r` is on the record list of some bucket of the table. -/
def Linked (s : State) (r : Nat) : Prop :=
  ∃ b ∈ all_buckets s, ∃ l, IsList s.mem b.dthb_chain l ∧ r ∈ l

/-- Record `r` is not in the table and both its links are NULL. -/
def Unlinked (s : State) (r : Nat) : Prop :=
  (s.mem r).next = none ∧ (s.mem r).prev = none ∧ ¬ Linked s r

/-- The states the table can be in: created by `dtrace_hash_create` over any
probe memory, then changed by inserts of unlinked records, removes of linked
records and (as part of an insert or on its own) resizes. -/
inductive Reachable : State → Prop
  | create (stroffs nextoffs prevoffs : Nat) (mem : Nat → dtrace_probe_t) :
      Reachable { hash := dtrace_hash_create stroffs nextoffs prevoffs, mem := mem }
  | add {s s1 : State} {r : Nat} :
      Reachable s → Unlinked s r → dtrace_hash_add s r = .ok s1 → Reachable s1
  | remove {s s1 : State} {r : Nat} :
      Reachable s → Linked s r → dtrace_hash_remove s r = .ok s1 → Reachable s1
  | resize {s s1 : State} :
      Reachable s → dtrace_hash_resize s = .ok s1 → Reachable s1

/-- The key of the head record of a bucket. -/
def bucket_key (mem : Nat → dtrace_probe_t) (b : dtrace_hashbucket_t) : Option (List Int) :=
  b.dthb_chain.map (fun a => cstr (mem a).str)

/-- Bucket `b` owns exactly the records `l`. -/
structure BucketOK (mem : Nat → dtrace_probe_t) (b : dtrace_hashbucket_t) (l : List Nat) :
    Prop where
  ne : l ≠ []
  dl : DList mem none b.dthb_chain l
  nodup : l.Nodup
  keys : ∀ x ∈ l, some (cstr (mem x).str) = bucket_key mem b
  len : l.length ≤ b.dthb_len

/-- Every bucket of every slot chain hashes to that slot. -/
def SlotOK (mem : Nat → dtrace_probe_t) (mask : Nat) (tab : List (List dtrace_hashbucket_t)) :
    Prop :=
  ∀ i chain, tab[i]? = some chain → ∀ b ∈ chain, ∀ a, b.dthb_chain = some a →
    dtrace_hash_str (mem a).str &&& mask = i

/-- The invariant of the table. -/
structure Inv (s : State) : Prop where
  size_pow : ∃ k, s.hash.dth_size = 2 ^ k
  mask_eq : s.hash.dth_mask = s.hash.dth_size - 1
  tab_len : s.hash.dth_tab.length = s.hash.dth_size
  nb_eq : s.hash.dth_nbuckets = (all_buckets s).length
  nb_le : s.hash.dth_nbuckets ≤ 2 * s.hash.dth_size + 2
  ok : ∀ b ∈ all_buckets s, ∃ l, BucketOK s.mem b l
  slot : SlotOK s.mem s.hash.dth_mask s.hash.dth_tab
  keys_nodup : ((all_buckets s).map (bucket_key s.mem)).Nodup

/-- Record `x` is owned by a bucket of the list `L`. -/
def LinkedIn (mem : Nat → dtrace_probe_t) (L : List dtrace_hashbucket_t) (x : Nat) : Prop :=
  ∃ b ∈ L, ∃ l, BucketOK mem b l ∧ x ∈ l

/-- The memory `mem1` coincides with `mem` on the links of every record owned
by a bucket of `R`. -/
def FrameOn (mem mem1 : Nat → dtrace_probe_t) (R : List dtrace_hashbucket_t) : Prop :=
  ∀ x, LinkedIn mem R x → (mem1 x).next = (mem x).next ∧ (mem1 x).prev = (mem x).prev

/-- The memory after the statements behind the label `add:`. -/
def link_mem (mem : Nat → dtrace_probe_t) (r : Nat) (chain : Option Nat) :
    Nat → dtrace_probe_t :=
  match chain with
  | none => set_next mem r none
  | some c => set_prev (set_next mem r (some c)) c (some r)

/-- What an insert of `r` does to the memory and to the set of linked records. -/
structure AddFrame (s : State) (r : Nat) (s1 : State) : Prop where
  inv : Inv s1
  str : ∀ x, (s1.mem x).str = (s.mem x).str
  next_other : ∀ x, x ≠ r → (s1.mem x).next = (s.mem x).next
  prev_other : ∀ x, ¬ Linked s x → (s1.mem x).prev = (s.mem x).prev
  linked : ∀ x, Linked s1 x ↔ x = r ∨ Linked s x

/-- What an insert of `r` does: to the memory, to the linked records and to the
buckets (either the bucket of the key of `r` gets a new head, or a bucket with
`r` alone is added, after a doubling of the table when it is due). -/
structure AddPost (s : State) (r : Nat) (s1 : State) : Prop where
  frame : AddFrame s r s1
  buckets :
    (∃ b R, (all_buckets s).Perm (b :: R) ∧
        bucket_key s.mem b = some (cstr (s.mem r).str) ∧
        (all_buckets s1).Perm (⟨some r, b.dthb_len + 1⟩ :: R) ∧
        s1.hash.dth_nbuckets = s.hash.dth_nbuckets ∧
        s1.hash.dth_size = s.hash.dth_size) ∨
    ((∀ b ∈ all_buckets s, bucket_key s.mem b ≠ some (cstr (s.mem r).str)) ∧
        (all_buckets s1).Perm (⟨some r, 1⟩ :: all_buckets s) ∧
        s1.hash.dth_nbuckets = s.hash.dth_nbuckets + 1 ∧
        s1.hash.dth_size =
          if s.hash.dth_nbuckets >>> 1 > s.hash.dth_size then 2 * s.hash.dth_size
          else s.hash.dth_size)

/-- The pointer to the last record of `l`, and `q` when `l` is empty. -/
def last_ptr : Option Nat → List Nat → Option Nat
  | q, [] => q
  | _, a :: l => last_ptr (some a) l

/-- What a remove of `r` does: to the memory, to the linked records and to the
buckets (the bucket that owned `r` loses it, and is freed when `r` was alone). -/
structure RemovePost (s : State) (r : Nat) (s1 : State) : Prop where
  inv : Inv s1
  str : ∀ x, (s1.mem x).str = (s.mem x).str
  mem_next : ∀ x, (s1.mem x).next =
    if some x = (s.mem r).prev then (s.mem r).next else (s.mem x).next
  mem_prev : ∀ x, (s1.mem x).prev =
    if some x = (s.mem r).next then (s.mem r).prev else (s.mem x).prev
  linked : ∀ x, Linked s1 x ↔ x ≠ r ∧ Linked s x
  size : s1.hash.dth_size = s.hash.dth_size
  buckets : ∃ b R l1 l2, (all_buckets s).Perm (b :: R) ∧ BucketOK s.mem b (l1 ++ r :: l2) ∧
    ((l1 ++ l2 = [] ∧ (all_buckets s1).Perm R ∧
        s1.hash.dth_nbuckets + 1 = s.hash.dth_nbuckets) ∨
     (l1 ++ l2 ≠ [] ∧ ∃ b1, b1.dthb_len = b.dthb_len ∧ BucketOK s1.mem b1 (l1 ++ l2) ∧
        (all_buckets s1).Perm (b1 :: R) ∧ s1.hash.dth_nbuckets = s.hash.dth_nbuckets))

/-- The first bucket of `L` whose key is `k`. -/
def find_key (mem : Nat → dtrace_probe_t) (L : List dtrace_hashbucket_t) (k : List Int) :
    Option dtrace_hashbucket_t :=
  L.find? (fun b => decide (bucket_key mem b = some k))

/-- The head record of the bucket of `L` with key `k`. -/
def lookup_in (mem : Nat → dtrace_probe_t) (L : List dtrace_hashbucket_t) (k : List Int) :
    Option Nat :=
  match find_key mem L k with
  | some b => b.dthb_chain
  | none => none

/-- The `dthb_len` of the bucket of `L` with key `k`, 0 when there is none. -/
def collisions_in (mem : Nat → dtrace_probe_t) (L : List dtrace_hashbucket_t) (k : List Int) :
    Nat :=
  match find_key mem L k with
  | some b => b.dthb_len
  | none => 0

/-- Inserts, removes of records other than `r`, and resizes. -/
inductive StepsKeeping (r : Nat) : State → State → Prop
  | refl (s : State) : StepsKeeping r s s
  | add {s s1 s2 : State} {x : Nat} :
      StepsKeeping r s s1 → Unlinked s1 x → dtrace_hash_add s1 x = .ok s2 → StepsKeeping r s s2
  | remove {s s1 s2 : State} {x : Nat} :
      StepsKeeping r s s1 → Linked s1 x → x ≠ r → dtrace_hash_remove s1 x = .ok s2 →
      StepsKeeping r s s2
  | resize {s s1 s2 : State} :
      StepsKeeping r s s1 → dtrace_hash_resize s1 = .ok s2 → StepsKeeping r s s2

/-- The records `rs` inserted one after the other. -/
def add_all : State → List Nat → Except Fault State
  | s, [] => .ok s
  | s, r :: rs =>
    match dtrace_hash_add s r with
    | .error e => .error e
    | .ok s1 => add_all s1 rs

/-- The records `rs` removed one after the other. -/
def remove_all : State → List Nat → Except Fault State
  | s, [] => .ok s
  | s, r :: rs =>
    match dtrace_hash_remove s r with
    | .error e => .error e
    | .ok s1 => remove_all s1 rs

/-- The table holds a bucket whose head record has a key equal to that of `p`. -/
def HasBucket (s : State) (p : dtrace_probe_t) : Prop :=
  ∃ b ∈ all_buckets s, ∃ a, b.dthb_chain = some a ∧ DTRACE_HASHEQ (s.mem a) p = true

/-- What one insert of a key without bucket does to `(dth_nbuckets, dth_size)`. -/
def grow_step (p : Nat × Nat) : Nat × Nat :=
  (p.1 + 1, if p.1 >>> 1 > p.2 then 2 * p.2 else p.2)

/-- A probe memory in which record `a` has the one-letter key `'a' + a` ("a",
"b", "c", ...) and no links. -/
def abc_mem : Nat → dtrace_probe_t :=
  fun a => { str := [97 + (a : Int)], next := none, prev := none }

/-- A probe memory in which every record has the key "x" and no links. -/
def xx_mem : Nat → dtrace_probe_t :=
  fun _ => { str := [120], next := none, prev := none }

/-- One round of the hash as the specification words it, on the character value
`c` taken as an unsigned 32-bit number: `h := (h << 4) + c`,
`g := h & 0xf0000000`, `if g != 0 then h := h ^ (g >> 24)`, `h := h & ~g`,
all in 32-bit unsigned arithmetic. -/
def spec_hash_round (h c : Nat) : Nat :=
  let h1 := ((h <<< 4) + c) % 2 ^ 32
  let g := h1 &&& 0xf0000000
  let h2 := if g ≠ 0 then h1 ^^^ (g >>> 24) else h1
  h2 &&& (0xffffffff ^^^ g)

/-- The hash as the specification words it: the rounds over the characters of
the key in order, starting from 0. -/
def spec_hash (key : List Nat) : Nat :=
  key.foldl spec_hash_round 0

/-- The scan `while (b->dthb_next != bucket) b = b->dthb_next` of
`dtrace_hash_remove`, with `b` at the head of the given chain and the bucket
`d` places behind `b`: the number of steps it takes. Walking off the end of the
chain is a NULL dereference. -/
def pred_scan : List dtrace_hashbucket_t → Nat → Except Fault Nat
  | [], _ => .error .bad_access
  | _ :: rest, d =>
    if d = 1 then .ok 0
    else
      match pred_scan rest (d - 1) with
      | .error e => .error e
      | .ok k => .ok (k + 1)

/-- The unlinking of the bucket at place `idx` of a slot chain as
`dtrace_hash_remove` does it: `BUG_ON(b == NULL)`, then either the slot gets
`bucket->dthb_next` (the bucket is the head) or the bucket found by the scan
gets it. -/
def unlink_bucket (chain : List dtrace_hashbucket_t) (idx : Nat) :
    Except Fault (List dtrace_hashbucket_t) :=
  match chain with
  | [] => .error .bug_on
  | _ :: rest =>
    if idx = 0 then .ok rest
    else
      match pred_scan chain idx with
      | .error e => .error e
      | .ok k => .ok (chain.take (k + 1) ++ chain.drop (k + 2))

/-- The function `dtrace_hash_remove` once more, statement by statement, together
with the state the call has reached when it ends: every store is made in the
order of the source, the bucket is taken off its slot chain by `unlink_bucket`
(`BUG_ON(b == NULL)`, then the head case or the scan for the bucket before
it), `BUG_ON(hash->dth_nbuckets <= 0)` comes after that store, and a fault is
returned with the state at the time it fires. -/
def dtrace_hash_remove_run (s : State) (probe : Nat) : State × Option Fault :=
  let ndx := DTRACE_HASHSTR (s.mem probe) &&& s.hash.dth_mask
  match s.hash.dth_tab[ndx]? with
  | none => (s, some .bad_access)
  | some chain =>
    match bucket_search s.mem (s.mem probe) chain with
    | .error e => (s, some e)
    | .ok none => (s, some .bug_on)
    | .ok (some (pre, bucket, post)) =>
      match (s.mem probe).prev with
      | none =>
        match (s.mem probe).next with
        | none =>
          if bucket.dthb_chain ≠ some probe then (s, some .bug_on)
          else
            match unlink_bucket chain pre.length with
            | .error e => (s, some e)
            | .ok chain1 =>
              let s1 : State :=
                { s with hash := { s.hash with dth_tab := s.hash.dth_tab.set ndx chain1 } }
              if s1.hash.dth_nbuckets ≤ 0 then (s1, some .bug_on)
              else
                ({ s1 with hash := { s1.hash with
                    dth_nbuckets := s1.hash.dth_nbuckets - 1 } }, none)
        | some n =>
          let bucket1 : dtrace_hashbucket_t := { bucket with dthb_chain := some n }
          let hash1 := { s.hash with dth_tab := s.hash.dth_tab.set ndx (pre ++ bucket1 :: post) }
          (remove_fix_prev hash1 s.mem probe, none)
      | some p =>
        (remove_fix_prev s.hash (set_next s.mem p (s.mem probe).next) probe, none)

/-- The byte that holds the `char` value `c`: the value itself for a
non-negative `char`, and `c + 256` for a negative one (a byte from 0x80 on
where `char` is signed). -/
def char_byte (c : Int) : Nat :=
  (c % 256).toNat

/-- The records of key `k` in the table, from the head of their list on: `l` is
the record list of the bucket of `k`, or empty when `k` has no bucket. -/
def KeyList (s : State) (k : List Int) (l : List Nat) : Prop :=
  (l = [] ∧ ∀ b ∈ all_buckets s, bucket_key s.mem b ≠ some k) ∨
  (∃ b ∈ all_buckets s, bucket_key s.mem b = some k ∧ BucketOK s.mem b l)

/-- A run of the table together with its log: the linked records, the most
recently inserted first. An insert puts the record in front, a remove takes
it out. -/
inductive History : State → List Nat → Prop
  | create (stroffs nextoffs prevoffs : Nat) (mem : Nat → dtrace_probe_t) :
      History { hash := dtrace_hash_create stroffs nextoffs prevoffs, mem := mem } []
  | add {s s1 : State} {log : List Nat} {r : Nat} :
      History s log → Unlinked s r → dtrace_hash_add s r = .ok s1 → History s1 (r :: log)
  | remove {s s1 : State} {log : List Nat} {r : Nat} :
      History s log → Linked s r → dtrace_hash_remove s r = .ok s1 →
      History s1 (log.erase r)
  | resize {s s1 : State} {log : List Nat} :
      History s log → dtrace_hash_resize s = .ok s1 → History s1 log

/-! ## Strings -/

theorem strcmp_eq_zero_iff (p q : List Int) : strcmp p q = 0 ↔ cstr p = cstr q := by
  induction p generalizing q with
  | nil =>
    cases q with
    | nil => simp [strcmp, cstr]
    | cons d t =>
      by_cases hd : d = 0
      · simp [strcmp, cstr, hd]
      · simp [strcmp, cstr, hd]
  | cons c s ih =>
    cases q with
    | nil =>
      by_cases hc : c = 0
      · simp [strcmp, cstr, hc]
      · simp [strcmp, cstr, hc]
    | cons d t =>
      by_cases hcd : c = d
      · subst hcd
        by_cases hc : c = 0
        · simp [strcmp, cstr, hc]
        · simp [strcmp, cstr, hc, ih]
      · by_cases hc : c = 0
        · have hd : ¬ d = 0 := fun h => hcd (by rw [hc, h])
          have hd1 : ¬ 0 = d := fun h => hd h.symm
          subst hc
          simp [strcmp, cstr, hd, hd1]
        · by_cases hd : d = 0
          · have : c - d ≠ 0 := by omega
            simp [strcmp, cstr, hc, hd, hcd, this]
          · have : c - d ≠ 0 := by omega
            simp [strcmp, cstr, hc, hd, hcd, this]

theorem hash_loop_cstr (p : List Int) (hval : Nat) :
    dtrace_hash_str_loop hval (cstr p) = dtrace_hash_str_loop hval p := by
  induction p generalizing hval with
  | nil => rfl
  | cons c p ih =>
    by_cases hc : c = 0
    · simp [cstr, dtrace_hash_str_loop, hc]
    · simp [cstr, dtrace_hash_str_loop, hc, ih]

theorem hash_str_congr {p q : List Int} (h : cstr p = cstr q) :
    dtrace_hash_str p = dtrace_hash_str q := by
  unfold dtrace_hash_str
  rw [← hash_loop_cstr p, ← hash_loop_cstr q, h]

theorem hasheq_iff (a b : dtrace_probe_t) :
    DTRACE_HASHEQ a b = true ↔ cstr a.str = cstr b.str := by
  simp [DTRACE_HASHEQ, strcmp_eq_zero_iff]

/-! ## Record lists -/

theorem DList.isList {mem : Nat → dtrace_probe_t} {l : List Nat} :
    ∀ {q p : Option Nat}, DList mem q p l → IsList mem p l := by
  induction l with
  | nil => intro q p h; exact h
  | cons a l ih => intro q p h; exact ⟨h.1, ih h.2.2⟩

theorem IsList.unique_list {mem : Nat → dtrace_probe_t} {l1 : List Nat} :
    ∀ {l2 : List Nat} {p : Option Nat}, IsList mem p l1 → IsList mem p l2 → l1 = l2 := by
  induction l1 with
  | nil =>
    intro l2 p h1 h2
    cases l2 with
    | nil => rfl
    | cons b l2 =>
      have h1p : p = none := h1
      have := h2.1
      rw [h1p] at this
      cases this
  | cons a l1 ih =>
    intro l2 p h1 h2
    cases l2 with
    | nil =>
      have h2p : p = none := h2
      have := h1.1
      rw [h2p] at this
      cases this
    | cons b l2 =>
      have e : some a = some b := h1.1.symm.trans h2.1
      cases e
      rw [ih h1.2 h2.2]

theorem DList.frame_links {mem mem1 : Nat → dtrace_probe_t} {l : List Nat}
    (h : ∀ x ∈ l, (mem1 x).next = (mem x).next ∧ (mem1 x).prev = (mem x).prev) :
    ∀ {q p : Option Nat}, DList mem q p l → DList mem1 q p l := by
  induction l with
  | nil => intro q p hd; exact hd
  | cons a l ih =>
    intro q p hd
    have ha := h a (List.mem_cons_self a l)
    refine ⟨hd.1, ha.2.trans hd.2.1, ?_⟩
    rw [ha.1]
    exact ih (fun x hx => h x (List.mem_cons_of_mem a hx)) hd.2.2

theorem bucket_key_frame {mem mem1 : Nat → dtrace_probe_t}
    (h : ∀ x, (mem1 x).str = (mem x).str) (b : dtrace_hashbucket_t) :
    bucket_key mem1 b = bucket_key mem b := by
  unfold bucket_key
  cases b.dthb_chain with
  | none => rfl
  | some a => simp [h a]

theorem BucketOK.frame_mem {mem mem1 : Nat → dtrace_probe_t} {b : dtrace_hashbucket_t}
    {l : List Nat} (hb : BucketOK mem b l) (hs : ∀ x, (mem1 x).str = (mem x).str)
    (h : ∀ x ∈ l, (mem1 x).next = (mem x).next ∧ (mem1 x).prev = (mem x).prev) :
    BucketOK mem1 b l where
  ne := hb.ne
  dl := DList.frame_links h hb.dl
  nodup := hb.nodup
  keys := fun x hx => by rw [hs x, bucket_key_frame hs]; exact hb.keys x hx
  len := hb.len

theorem BucketOK.head {mem : Nat → dtrace_probe_t} {b : dtrace_hashbucket_t}
    {l : List Nat} (hb : BucketOK mem b l) :
    ∃ a t, l = a :: t ∧ b.dthb_chain = some a := by
  cases l with
  | nil => exact absurd rfl hb.ne
  | cons a t => exact ⟨a, t, rfl, hb.dl.1⟩

theorem BucketOK.key_some {mem : Nat → dtrace_probe_t} {b : dtrace_hashbucket_t}
    {l : List Nat} (hb : BucketOK mem b l) {x : Nat} (hx : x ∈ l) :
    bucket_key mem b = some (cstr (mem x).str) :=
  (hb.keys x hx).symm

theorem BucketOK.unique_records {mem : Nat → dtrace_probe_t} {b : dtrace_hashbucket_t}
    {l l1 : List Nat} (hb : BucketOK mem b l) (h1 : IsList mem b.dthb_chain l1) : l1 = l :=
  IsList.unique_list h1 hb.dl.isList

/-! ## Slot chains -/

theorem tab_split {α : Type} {tab : List α} {c : α} :
    ∀ {i : Nat}, tab[i]? = some c → ∃ A B, tab = A ++ c :: B ∧ A.length = i := by
  induction tab with
  | nil => intro i h; simp at h
  | cons x tab ih =>
    intro i h
    cases i with
    | zero =>
      simp at h
      exact ⟨[], tab, by simp [h], rfl⟩
    | succ i =>
      simp at h
      obtain ⟨A, B, hAB, hlen⟩ := ih h
      exact ⟨x :: A, B, by simp [hAB], by simp [hlen]⟩

theorem set_split {α : Type} (A B : List α) (c c1 : α) :
    (A ++ c :: B).set A.length c1 = A ++ c1 :: B := by
  induction A with
  | nil => rfl
  | cons x A ih => simp [List.set, ih]

/-- Replacing the chain of one slot: the buckets of the other slots stay. -/
theorem flatten_set {α : Type} {tab : List (List α)} {i : Nat} {chain : List α}
    (h : tab[i]? = some chain) :
    ∃ X, tab.flatten.Perm (chain ++ X) ∧ ∀ c1, (tab.set i c1).flatten.Perm (c1 ++ X) := by
  obtain ⟨A, B, hAB, hlen⟩ := tab_split h
  subst hAB
  subst hlen
  refine ⟨A.flatten ++ B.flatten, ?_, ?_⟩
  · simp only [List.flatten_append, List.flatten_cons]
    rw [← List.append_assoc, ← List.append_assoc]
    exact List.Perm.append_right _ List.perm_append_comm
  · intro c1
    rw [set_split]
    simp only [List.flatten_append, List.flatten_cons]
    rw [← List.append_assoc, ← List.append_assoc]
    exact List.Perm.append_right _ List.perm_append_comm

theorem SlotOK.frame_str {mem mem1 : Nat → dtrace_probe_t} {mask : Nat}
    {tab : List (List dtrace_hashbucket_t)} (h : SlotOK mem mask tab)
    (hs : ∀ x, (mem1 x).str = (mem x).str) : SlotOK mem1 mask tab := by
  intro i chain hi b hb a ha
  rw [hs a]
  exact h i chain hi b hb a ha

theorem SlotOK.set {mem : Nat → dtrace_probe_t} {mask : Nat}
    {tab : List (List dtrace_hashbucket_t)} (h : SlotOK mem mask tab) (i : Nat)
    (c1 : List dtrace_hashbucket_t)
    (h1 : ∀ b ∈ c1, ∀ a, b.dthb_chain = some a → dtrace_hash_str (mem a).str &&& mask = i) :
    SlotOK mem mask (tab.set i c1) := by
  intro j chain hj b hb a ha
  rw [List.getElem?_set] at hj
  by_cases hij : i = j
  · subst hij
    rw [if_pos rfl] at hj
    by_cases hlt : i < tab.length
    · rw [if_pos hlt] at hj
      cases hj
      exact h1 b hb a ha
    · rw [if_neg hlt] at hj
      cases hj
  · rw [if_neg hij] at hj
    exact h j chain hj b hb a ha

/-! ## The bucket walk -/

theorem bucket_search_spec (mem : Nat → dtrace_probe_t) (t : dtrace_probe_t)
    (chain : List dtrace_hashbucket_t) (h : ∀ b ∈ chain, b.dthb_chain ≠ none) :
    (bucket_search mem t chain = .ok none ∧
      ∀ b ∈ chain, bucket_key mem b ≠ some (cstr t.str)) ∨
    (∃ pre b post, bucket_search mem t chain = .ok (some (pre, b, post)) ∧
      chain = pre ++ b :: post ∧ bucket_key mem b = some (cstr t.str)) := by
  induction chain with
  | nil => left; exact ⟨rfl, fun b hb => by simp at hb⟩
  | cons x chain ih =>
    have hx := h x (List.mem_cons_self x chain)
    obtain ⟨c, hc⟩ := Option.ne_none_iff_exists'.mp hx
    by_cases heq : DTRACE_HASHEQ (mem c) t = true
    · right
      refine ⟨[], x, chain, ?_, rfl, ?_⟩
      · simp [bucket_search, hc, heq]
      · simp [bucket_key, hc, (hasheq_iff _ _).mp heq]
    · have hkx : bucket_key mem x ≠ some (cstr t.str) := by
        intro hk
        apply heq
        rw [hasheq_iff]
        simpa [bucket_key, hc] using hk
      rcases ih (fun b hb => h b (List.mem_cons_of_mem x hb)) with ⟨hn, hall⟩ | ⟨pre, b, post, hf, hch, hk⟩
      · left
        refine ⟨by simp [bucket_search, hc, heq, hn], ?_⟩
        intro b hb
        rcases List.mem_cons.mp hb with rfl | hb
        · exact hkx
        · exact hall b hb
      · right
        exact ⟨x :: pre, b, post, by simp [bucket_search, hc, heq, hf], by simp [hch], hk⟩

/-! ## Consequences of the invariant -/

theorem mem_all_buckets {s : State} {b : dtrace_hashbucket_t} :
    b ∈ all_buckets s ↔
      ∃ (i : Nat) (chain : List dtrace_hashbucket_t),
        s.hash.dth_tab[i]? = some chain ∧ b ∈ chain := by
  unfold all_buckets
  rw [List.mem_flatten]
  constructor
  · rintro ⟨chain, hc, hb⟩
    obtain ⟨i, hi, hget⟩ := List.mem_iff_getElem.mp hc
    exact ⟨i, chain, by rw [List.getElem?_eq_getElem hi, hget], hb⟩
  · rintro ⟨i, chain, hi, hb⟩
    exact ⟨chain, List.getElem?_mem hi, hb⟩

theorem Inv.index_lt {s : State} (hs : Inv s) (x : Nat) :
    x &&& s.hash.dth_mask < s.hash.dth_tab.length := by
  obtain ⟨k, hk⟩ := hs.size_pow
  rw [hs.tab_len, hs.mask_eq, hk, Nat.and_pow_two_sub_one_eq_mod]
  exact Nat.mod_lt _ (Nat.pos_pow_of_pos k (by decide))

theorem Inv.slot_get {s : State} (hs : Inv s) (x : Nat) :
    ∃ chain, s.hash.dth_tab[x &&& s.hash.dth_mask]? = some chain :=
  ⟨_, List.getElem?_eq_getElem (hs.index_lt x)⟩

theorem Inv.chain_ne {s : State} (hs : Inv s) {b : dtrace_hashbucket_t}
    (hb : b ∈ all_buckets s) : b.dthb_chain ≠ none := by
  obtain ⟨l, hl⟩ := hs.ok b hb
  obtain ⟨a, t, _, ha⟩ := hl.head
  rw [ha]
  exact Option.some_ne_none a

theorem Inv.key_inj {s : State} (hs : Inv s) {b1 b2 : dtrace_hashbucket_t}
    (h1 : b1 ∈ all_buckets s) (h2 : b2 ∈ all_buckets s)
    (hk : bucket_key s.mem b1 = bucket_key s.mem b2) : b1 = b2 :=
  List.inj_on_of_nodup_map hs.keys_nodup h1 h2 hk

theorem Inv.mem_chain_of_key {s : State} (hs : Inv s) {b : dtrace_hashbucket_t}
    (hb : b ∈ all_buckets s) {t : dtrace_probe_t}
    (hk : bucket_key s.mem b = some (cstr t.str)) {chain : List dtrace_hashbucket_t}
    (hc : s.hash.dth_tab[DTRACE_HASHSTR t &&& s.hash.dth_mask]? = some chain) : b ∈ chain := by
  obtain ⟨i, chain1, hi, hb1⟩ := mem_all_buckets.mp hb
  obtain ⟨l, hl⟩ := hs.ok b hb
  obtain ⟨a, t1, _, ha⟩ := hl.head
  have hslot := hs.slot i chain1 hi b hb1 a ha
  have hka : cstr (s.mem a).str = cstr t.str := by
    simpa [bucket_key, ha] using hk
  rw [hash_str_congr hka] at hslot
  unfold DTRACE_HASHSTR at hc
  rw [hslot, hi] at hc
  cases hc
  exact hb1

/-- The walk of the slot of `t` finds the one bucket that holds the key of `t`. -/
theorem Inv.search_found {s : State} (hs : Inv s) (t : dtrace_probe_t)
    {b : dtrace_hashbucket_t} (hb : b ∈ all_buckets s)
    (hk : bucket_key s.mem b = some (cstr t.str)) :
    ∃ chain pre post, s.hash.dth_tab[DTRACE_HASHSTR t &&& s.hash.dth_mask]? = some chain ∧
      bucket_search s.mem t chain = .ok (some (pre, b, post)) ∧ chain = pre ++ b :: post := by
  obtain ⟨chain, hc⟩ := hs.slot_get (DTRACE_HASHSTR t)
  have hbc := hs.mem_chain_of_key hb hk hc
  have hall : ∀ x ∈ chain, x.dthb_chain ≠ none := fun x hx =>
    hs.chain_ne (mem_all_buckets.mpr ⟨_, chain, hc, hx⟩)
  rcases bucket_search_spec s.mem t chain hall with ⟨_, hnone⟩ | ⟨pre, b1, post, hf, hch, hk1⟩
  · exact absurd hk (hnone b hbc)
  · have hb1 : b1 ∈ all_buckets s :=
      mem_all_buckets.mpr ⟨_, chain, hc, by rw [hch]; simp⟩
    have : b1 = b := hs.key_inj hb1 hb (hk1.trans hk.symm)
    subst this
    exact ⟨chain, pre, post, hc, hf, hch⟩

/-- The walk of the slot of `t` finds nothing when no bucket holds the key of `t`. -/
theorem Inv.search_none {s : State} (hs : Inv s) (t : dtrace_probe_t)
    (hno : ∀ b ∈ all_buckets s, bucket_key s.mem b ≠ some (cstr t.str)) :
    ∃ chain, s.hash.dth_tab[DTRACE_HASHSTR t &&& s.hash.dth_mask]? = some chain ∧
      bucket_search s.mem t chain = .ok none := by
  obtain ⟨chain, hc⟩ := hs.slot_get (DTRACE_HASHSTR t)
  have hall : ∀ x ∈ chain, x.dthb_chain ≠ none := fun x hx =>
    hs.chain_ne (mem_all_buckets.mpr ⟨_, chain, hc, hx⟩)
  rcases bucket_search_spec s.mem t chain hall with ⟨hn, _⟩ | ⟨pre, b1, post, hf, hch, hk1⟩
  · exact ⟨chain, hc, hn⟩
  · have hb1 : b1 ∈ all_buckets s :=
      mem_all_buckets.mpr ⟨_, chain, hc, by rw [hch]; simp⟩
    exact absurd hk1 (hno b1 hb1)

theorem Inv.lookup_found {s : State} (hs : Inv s) (t : dtrace_probe_t)
    {b : dtrace_hashbucket_t} (hb : b ∈ all_buckets s)
    (hk : bucket_key s.mem b = some (cstr t.str)) :
    dtrace_hash_lookup s t = .ok b.dthb_chain := by
  obtain ⟨chain, pre, post, hc, hf, _⟩ := hs.search_found t hb hk
  simp [dtrace_hash_lookup, hc, hf]

theorem Inv.lookup_none {s : State} (hs : Inv s) (t : dtrace_probe_t)
    (hno : ∀ b ∈ all_buckets s, bucket_key s.mem b ≠ some (cstr t.str)) :
    dtrace_hash_lookup s t = .ok none := by
  obtain ⟨chain, hc, hf⟩ := hs.search_none t hno
  simp [dtrace_hash_lookup, hc, hf]

theorem Inv.collisions_found {s : State} (hs : Inv s) (t : dtrace_probe_t)
    {b : dtrace_hashbucket_t} (hb : b ∈ all_buckets s)
    (hk : bucket_key s.mem b = some (cstr t.str)) :
    dtrace_hash_collisions s t = .ok b.dthb_len := by
  obtain ⟨chain, pre, post, hc, hf, _⟩ := hs.search_found t hb hk
  simp [dtrace_hash_collisions, hc, hf]

theorem Inv.collisions_none {s : State} (hs : Inv s) (t : dtrace_probe_t)
    (hno : ∀ b ∈ all_buckets s, bucket_key s.mem b ≠ some (cstr t.str)) :
    dtrace_hash_collisions s t = .ok 0 := by
  obtain ⟨chain, hc, hf⟩ := hs.search_none t hno
  simp [dtrace_hash_collisions, hc, hf]

/-! ## Resize -/

theorem flatten_replicate_nil {α : Type} (n : Nat) :
    (List.replicate n ([] : List α)).flatten = [] := by
  induction n with
  | zero => rfl
  | succ n ih => simp [List.replicate_succ, ih]

theorem SlotOK.replicate (mem : Nat → dtrace_probe_t) (mask n : Nat) :
    SlotOK mem mask (List.replicate n []) := by
  intro i chain hi b hb
  have hc : chain ∈ List.replicate n ([] : List dtrace_hashbucket_t) := List.getElem?_mem hi
  rw [List.eq_of_mem_replicate hc] at hb
  simp at hb

theorem resize_chain_spec (mem : Nat → dtrace_probe_t) (new_mask : Nat)
    (chain : List dtrace_hashbucket_t) :
    ∀ (nt : List (List dtrace_hashbucket_t)), (∀ b ∈ chain, b.dthb_chain ≠ none) →
      (∀ x, x &&& new_mask < nt.length) → SlotOK mem new_mask nt →
      ∃ nt1, resize_chain mem new_mask chain nt = .ok nt1 ∧ nt1.length = nt.length ∧
        nt1.flatten.Perm (chain ++ nt.flatten) ∧ SlotOK mem new_mask nt1 := by
  induction chain with
  | nil =>
    intro nt _ _ hslot
    exact ⟨nt, rfl, rfl, List.Perm.refl _, hslot⟩
  | cons x chain ih =>
    intro nt hne hlt hslot
    obtain ⟨probe, hp⟩ := Option.ne_none_iff_exists'.mp (hne x (List.mem_cons_self x chain))
    obtain ⟨head, hget⟩ : ∃ head, nt[DTRACE_HASHSTR (mem probe) &&& new_mask]? = some head :=
      ⟨_, List.getElem?_eq_getElem (hlt _)⟩
    obtain ⟨X, hX, hXset⟩ := flatten_set hget
    have hslot2 : SlotOK mem new_mask
        (nt.set (DTRACE_HASHSTR (mem probe) &&& new_mask) (x :: head)) := by
      apply hslot.set
      intro b hb a ha
      rcases List.mem_cons.mp hb with rfl | hb
      · rw [hp] at ha
        cases ha
        rfl
      · exact hslot _ _ hget b hb a ha
    obtain ⟨nt1, hres, hlen, hperm, hslot1⟩ :=
      ih (nt.set (DTRACE_HASHSTR (mem probe) &&& new_mask) (x :: head))
        (fun b hb => hne b (List.mem_cons_of_mem x hb))
        (fun y => by rw [List.length_set]; exact hlt y) hslot2
    refine ⟨nt1, ?_, ?_, ?_, hslot1⟩
    · simp only [resize_chain, hp, hget]
      exact hres
    · rw [hlen, List.length_set]
    · have h2 : (nt.set (DTRACE_HASHSTR (mem probe) &&& new_mask)
          (x :: head)).flatten.Perm (x :: nt.flatten) :=
        (hXset _).trans (List.Perm.cons x hX.symm)
      exact (hperm.trans (List.Perm.append_left chain h2)).trans List.perm_middle

theorem resize_loop_spec (mem : Nat → dtrace_probe_t) (new_mask : Nat)
    (rest : List (List dtrace_hashbucket_t)) :
    ∀ (pre nt : List (List dtrace_hashbucket_t)), (∀ b ∈ rest.flatten, b.dthb_chain ≠ none) →
      (∀ x, x &&& new_mask < nt.length) → SlotOK mem new_mask nt →
      ∃ nt1, resize_loop mem (pre ++ rest) new_mask rest.length pre.length nt = .ok nt1 ∧
        nt1.length = nt.length ∧ nt1.flatten.Perm (rest.flatten ++ nt.flatten) ∧
        SlotOK mem new_mask nt1 := by
  induction rest with
  | nil =>
    intro pre nt _ _ hslot
    exact ⟨nt, rfl, rfl, List.Perm.refl _, hslot⟩
  | cons c rest ih =>
    intro pre nt hne hlt hslot
    have hget : (pre ++ c :: rest)[pre.length]? = some c := by
      rw [List.getElem?_append_right (Nat.le_refl _)]
      simp
    obtain ⟨nt2, hres2, hlen2, hperm2, hslot2⟩ :=
      resize_chain_spec mem new_mask c nt
        (fun b hb => hne b (by simp [hb])) hlt hslot
    obtain ⟨nt1, hres, hlen, hperm, hslot1⟩ :=
      ih (pre ++ [c]) nt2 (fun b hb => hne b (by simp [hb]))
        (fun y => by rw [hlen2]; exact hlt y) hslot2
    refine ⟨nt1, ?_, hlen.trans hlen2, ?_, hslot1⟩
    · simp only [List.length_cons, resize_loop, hget, hres2]
      simpa using hres
    · refine hperm.trans ?_
      refine (List.Perm.append_left rest.flatten hperm2).trans ?_
      simp only [List.flatten_cons]
      rw [← List.append_assoc]
      exact List.Perm.append_right _ List.perm_append_comm

theorem two_pow_and_pred (k x : Nat) : x &&& (2 ^ k - 1) < 2 ^ k := by
  rw [Nat.and_pow_two_sub_one_eq_mod]
  exact Nat.mod_lt _ (Nat.pos_pow_of_pos k (by decide))

/-- On a table that satisfies the invariant `dtrace_hash_resize` returns: the
size is doubled, the memory and the buckets are the same, the invariant holds. -/
theorem Inv.resize {s : State} (hs : Inv s) :
    ∃ s1, dtrace_hash_resize s = .ok s1 ∧ s1.mem = s.mem ∧
      s1.hash.dth_size = 2 * s.hash.dth_size ∧
      s1.hash.dth_nbuckets = s.hash.dth_nbuckets ∧
      (all_buckets s1).Perm (all_buckets s) ∧ Inv s1 := by
  obtain ⟨k, hk⟩ := hs.size_pow
  have hsz : s.hash.dth_size <<< 1 = 2 ^ (k + 1) := by
    rw [Nat.shiftLeft_eq, hk]
    exact (pow_succ 2 k).symm
  have hbug : ¬ (s.hash.dth_size <<< 1 &&& (s.hash.dth_size <<< 1 - 1) ≠ 0) := by
    rw [hsz, Nat.and_pow_two_sub_one_eq_mod, Nat.mod_self]
    simp
  obtain ⟨nt1, hres, hlen, hperm, hslot1⟩ :=
    resize_loop_spec s.mem (s.hash.dth_size <<< 1 - 1) s.hash.dth_tab []
      (List.replicate (s.hash.dth_size <<< 1) [])
      (fun b hb => hs.chain_ne hb)
      (fun x => by rw [List.length_replicate, hsz]; exact two_pow_and_pred (k + 1) x)
      (SlotOK.replicate _ _ _)
  rw [flatten_replicate_nil, List.append_nil] at hperm
  rw [List.length_replicate] at hlen
  simp only [List.nil_append, List.length_nil, hs.tab_len] at hres
  refine ⟨{ s with hash := { s.hash with
              dth_tab := nt1, dth_size := s.hash.dth_size <<< 1,
              dth_mask := s.hash.dth_size <<< 1 - 1 } }, ?_, rfl, ?_, rfl, hperm, ?_⟩
  · simp only [dtrace_hash_resize, hbug, if_false, hres]
  · show s.hash.dth_size <<< 1 = 2 * s.hash.dth_size
    rw [Nat.shiftLeft_eq]; omega
  · refine ⟨⟨k + 1, hsz⟩, rfl, hlen, ?_, ?_, ?_, hslot1, ?_⟩
    · show s.hash.dth_nbuckets = nt1.flatten.length
      rw [hperm.length_eq]; exact hs.nb_eq
    · show s.hash.dth_nbuckets ≤ 2 * (s.hash.dth_size <<< 1) + 2
      have := hs.nb_le
      rw [Nat.shiftLeft_eq]; omega
    · intro b hb
      exact hs.ok b (hperm.mem_iff.mp hb)
    · exact ((hperm.map _).nodup_iff).mpr hs.keys_nodup

/-! ## Memory writes -/

@[simp]
theorem set_next_str (mem : Nat → dtrace_probe_t) (a : Nat) (v : Option Nat) (x : Nat) :
    (set_next mem a v x).str = (mem x).str := by
  unfold set_next; split <;> simp_all

@[simp]
theorem set_next_prev (mem : Nat → dtrace_probe_t) (a : Nat) (v : Option Nat) (x : Nat) :
    (set_next mem a v x).prev = (mem x).prev := by
  unfold set_next; split <;> simp_all

theorem set_next_next (mem : Nat → dtrace_probe_t) (a : Nat) (v : Option Nat) (x : Nat) :
    (set_next mem a v x).next = if x = a then v else (mem x).next := by
  unfold set_next; split <;> simp_all

@[simp]
theorem set_prev_str (mem : Nat → dtrace_probe_t) (a : Nat) (v : Option Nat) (x : Nat) :
    (set_prev mem a v x).str = (mem x).str := by
  unfold set_prev; split <;> simp_all

@[simp]
theorem set_prev_next (mem : Nat → dtrace_probe_t) (a : Nat) (v : Option Nat) (x : Nat) :
    (set_prev mem a v x).next = (mem x).next := by
  unfold set_prev; split <;> simp_all

theorem set_prev_prev (mem : Nat → dtrace_probe_t) (a : Nat) (v : Option Nat) (x : Nat) :
    (set_prev mem a v x).prev = if x = a then v else (mem x).prev := by
  unfold set_prev; split <;> simp_all

/-! ## Buckets and the records they own -/

theorem Inv.linked_iff {s : State} (hs : Inv s) (x : Nat) :
    Linked s x ↔ LinkedIn s.mem (all_buckets s) x := by
  constructor
  · rintro ⟨b, hb, l1, hl1, hx⟩
    obtain ⟨l, hl⟩ := hs.ok b hb
    rw [hl.unique_records hl1] at hx
    exact ⟨b, hb, l, hl, hx⟩
  · rintro ⟨b, hb, l, hl, hx⟩
    exact ⟨b, hb, l, hl.dl.isList, hx⟩

theorem LinkedIn.perm {mem : Nat → dtrace_probe_t} {L L1 : List dtrace_hashbucket_t}
    (h : L.Perm L1) (x : Nat) : LinkedIn mem L x ↔ LinkedIn mem L1 x := by
  constructor
  · rintro ⟨b, hb, l, hl, hx⟩
    exact ⟨b, h.mem_iff.mp hb, l, hl, hx⟩
  · rintro ⟨b, hb, l, hl, hx⟩
    exact ⟨b, h.mem_iff.mpr hb, l, hl, hx⟩

theorem LinkedIn.cons {mem : Nat → dtrace_probe_t} {b : dtrace_hashbucket_t}
    {l : List Nat} (hb : BucketOK mem b l) (R : List dtrace_hashbucket_t) (x : Nat) :
    LinkedIn mem (b :: R) x ↔ x ∈ l ∨ LinkedIn mem R x := by
  constructor
  · rintro ⟨b1, hb1, l1, hl1, hx⟩
    rcases List.mem_cons.mp hb1 with rfl | hb1
    · left
      rw [← hb.unique_records hl1.dl.isList]
      exact hx
    · right
      exact ⟨b1, hb1, l1, hl1, hx⟩
  · rintro (hx | ⟨b1, hb1, l1, hl1, hx⟩)
    · exact ⟨b, List.mem_cons_self b R, l, hb, hx⟩
    · exact ⟨b1, List.mem_cons_of_mem b hb1, l1, hl1, hx⟩

theorem buckets_frame {mem mem1 : Nat → dtrace_probe_t} {R : List dtrace_hashbucket_t}
    (hok : ∀ b ∈ R, ∃ l, BucketOK mem b l)
    (hstr : ∀ x, (mem1 x).str = (mem x).str) (hframe : FrameOn mem mem1 R) :
    (∀ b ∈ R, ∃ l, BucketOK mem1 b l) ∧
      R.map (bucket_key mem1) = R.map (bucket_key mem) ∧
      ∀ x, LinkedIn mem1 R x ↔ LinkedIn mem R x := by
  have hfr : ∀ b ∈ R, ∀ l, BucketOK mem b l → BucketOK mem1 b l := fun b hb l hl =>
    hl.frame_mem hstr (fun x hx => hframe x ⟨b, hb, l, hl, hx⟩)
  refine ⟨fun b hb => ?_, ?_, fun x => ⟨?_, ?_⟩⟩
  · obtain ⟨l, hl⟩ := hok b hb
    exact ⟨l, hfr b hb l hl⟩
  · exact List.map_congr_left (fun b _ => bucket_key_frame hstr b)
  · rintro ⟨b, hb, l1, hl1, hx⟩
    obtain ⟨l, hl⟩ := hok b hb
    rw [(hfr b hb l hl).unique_records hl1.dl.isList] at hx
    exact ⟨b, hb, l, hl, hx⟩
  · rintro ⟨b, hb, l, hl, hx⟩
    exact ⟨b, hb, l, hfr b hb l hl, hx⟩

/-- Records owned by buckets with different keys are different. -/
theorem BucketOK.not_mem_of_key_ne {mem : Nat → dtrace_probe_t}
    {b b2 : dtrace_hashbucket_t} {l l2 : List Nat} (hb : BucketOK mem b l)
    (hb2 : BucketOK mem b2 l2) (hne : bucket_key mem b2 ≠ bucket_key mem b)
    {x : Nat} (hx : x ∈ l2) : x ∉ l := by
  intro hx1
  apply hne
  rw [hb.key_some hx1, hb2.key_some hx]

theorem LinkedIn.not_mem {mem : Nat → dtrace_probe_t} {b : dtrace_hashbucket_t}
    {l : List Nat} {R : List dtrace_hashbucket_t} (hb : BucketOK mem b l)
    (hnd : ((b :: R).map (bucket_key mem)).Nodup) {x : Nat} (hx : LinkedIn mem R x) :
    x ∉ l := by
  obtain ⟨b2, hb2, l2, hl2, hx2⟩ := hx
  refine hb.not_mem_of_key_ne hl2 ?_ hx2
  intro hk
  rw [List.map_cons, List.nodup_cons] at hnd
  apply hnd.1
  rw [← hk]
  exact List.mem_map_of_mem _ hb2

/-! ## Linking a record at the head of a bucket -/

theorem link_mem_str (mem : Nat → dtrace_probe_t) (r : Nat) (chain : Option Nat) (x : Nat) :
    (link_mem mem r chain x).str = (mem x).str := by
  cases chain <;> simp [link_mem]

theorem link_mem_next (mem : Nat → dtrace_probe_t) (r : Nat) (chain : Option Nat) (x : Nat) :
    (link_mem mem r chain x).next = if x = r then chain else (mem x).next := by
  cases chain <;> simp [link_mem, set_next_next]

theorem link_mem_prev (mem : Nat → dtrace_probe_t) (r : Nat) (chain : Option Nat) (x : Nat) :
    (link_mem mem r chain x).prev = if some x = chain then some r else (mem x).prev := by
  cases chain with
  | none => simp [link_mem]
  | some c => simp [link_mem, set_prev_prev]

theorem hash_add_link_ok (s : State) (ndx : Nat) (pre post : List dtrace_hashbucket_t)
    (b : dtrace_hashbucket_t) (r : Nat) (hrn : (s.mem r).next = none)
    (hrp : (s.mem r).prev = none) (hhead : ∀ c, b.dthb_chain = some c → (s.mem c).prev = none) :
    hash_add_link s ndx pre b post r =
      .ok ⟨{ s.hash with dth_tab := s.hash.dth_tab.set ndx (pre ++ ⟨some r, b.dthb_len + 1⟩ :: post) },
        link_mem s.mem r b.dthb_chain⟩ := by
  unfold hash_add_link
  cases hc : b.dthb_chain with
  | none => simp [hrn, hrp, link_mem]
  | some c => simp [hrn, hrp, link_mem, hhead c hc]

/-- Linking `r` in front of the records `l` of a bucket (none for a bucket that
was just allocated) gives a bucket that owns `r :: l`. -/
theorem link_bucket {mem : Nat → dtrace_probe_t} {r : Nat} {b : dtrace_hashbucket_t}
    {l : List Nat} (hdl : DList mem none b.dthb_chain l) (hnd : l.Nodup) (hr : r ∉ l)
    (hkeys : ∀ x ∈ l, cstr (mem x).str = cstr (mem r).str) (hlen : l.length ≤ b.dthb_len)
    (hrp : (mem r).prev = none) :
    BucketOK (link_mem mem r b.dthb_chain)
      { dthb_chain := some r, dthb_len := b.dthb_len + 1 } (r :: l) where
  ne := List.cons_ne_nil r l
  nodup := List.nodup_cons.mpr ⟨hr, hnd⟩
  len := by simp; exact hlen
  keys := by
    intro x hx
    simp only [bucket_key, Option.map_some', link_mem_str]
    rcases List.mem_cons.mp hx with rfl | hx
    · rfl
    · rw [hkeys x hx]
  dl := by
    refine ⟨rfl, ?_, ?_⟩
    · rw [link_mem_prev]
      split
      · next h =>
        cases l with
        | nil => have : b.dthb_chain = none := hdl; rw [this] at h; cases h
        | cons c t =>
          have : b.dthb_chain = some c := hdl.1
          rw [this] at h
          cases h
          exact absurd (List.mem_cons_self r t) hr
      · exact hrp
    · rw [link_mem_next, if_pos rfl]
      cases l with
      | nil => exact hdl
      | cons c t =>
        have hc : b.dthb_chain = some c := hdl.1
        have hcr : c ≠ r := fun h => hr (by rw [h]; exact List.mem_cons_self r t)
        refine ⟨hc, ?_, ?_⟩
        · rw [link_mem_prev, hc, if_pos rfl]
        · rw [link_mem_next, if_neg hcr]
          refine DList.frame_links ?_ hdl.2.2
          intro x hx
          have hxr : x ≠ r := fun h => hr (by rw [← h]; exact List.mem_cons_of_mem c hx)
          have hxc : x ≠ c := fun h => (List.nodup_cons.mp hnd).1 (by rw [← h]; exact hx)
          rw [link_mem_next, link_mem_prev, if_neg hxr, hc, if_neg (fun h => hxc (by cases h; rfl))]
          exact ⟨rfl, rfl⟩

/-! ## Insert -/

theorem DList.head_mem {mem : Nat → dtrace_probe_t} {q : Option Nat} {c : Nat} {l : List Nat}
    (h : DList mem q (some c) l) : c ∈ l := by
  cases l with
  | nil => cases (h : some c = none)
  | cons a t =>
    have : some c = some a := h.1
    cases this
    exact List.mem_cons_self c t

theorem add_core {s : State} (hs : Inv s) {r : Nat} (hr : Unlinked s r)
    {chain : List dtrace_hashbucket_t} (chain1 : List dtrace_hashbucket_t)
    {b : dtrace_hashbucket_t} {l : List Nat}
    {R : List dtrace_hashbucket_t} (nb1 : Nat)
    (hc : s.hash.dth_tab[DTRACE_HASHSTR (s.mem r) &&& s.hash.dth_mask]? = some chain)
    (hdl : DList s.mem none b.dthb_chain l) (hnd : l.Nodup)
    (hkeys : ∀ x ∈ l, cstr (s.mem x).str = cstr (s.mem r).str)
    (hlen : l.length ≤ b.dthb_len)
    (hlinked : ∀ x, Linked s x ↔ x ∈ l ∨ LinkedIn s.mem R x)
    (hRok : ∀ b2 ∈ R, ∃ l2, BucketOK s.mem b2 l2)
    (hRk : ∀ b2 ∈ R, bucket_key s.mem b2 ≠ some (cstr (s.mem r).str))
    (hRnd : (R.map (bucket_key s.mem)).Nodup)
    (hperm1 : (s.hash.dth_tab.set (DTRACE_HASHSTR (s.mem r) &&& s.hash.dth_mask)
        chain1).flatten.Perm (⟨some r, b.dthb_len + 1⟩ :: R))
    (hchain1 : ∀ b2 ∈ chain1, b2 = ⟨some r, b.dthb_len + 1⟩ ∨ b2 ∈ chain)
    (hnb1 : nb1 = R.length + 1) (hnble : nb1 ≤ 2 * s.hash.dth_size + 2) :
    AddFrame s r
      ⟨{ s.hash with
          dth_tab := s.hash.dth_tab.set (DTRACE_HASHSTR (s.mem r) &&& s.hash.dth_mask) chain1
          dth_nbuckets := nb1 },
        link_mem s.mem r b.dthb_chain⟩ := by
  have hrl : r ∉ l := fun h => hr.2.2 ((hlinked r).mpr (Or.inl h))
  have hb1 := link_bucket hdl hnd hrl hkeys hlen hr.2.1
  have hstr : ∀ x, (link_mem s.mem r b.dthb_chain x).str = (s.mem x).str :=
    link_mem_str s.mem r b.dthb_chain
  have hprev : ∀ x, ¬ x ∈ l → (link_mem s.mem r b.dthb_chain x).prev = (s.mem x).prev := by
    intro x hx
    rw [link_mem_prev, if_neg]
    intro h
    rw [← h] at hdl
    exact hx hdl.head_mem
  have hframe : FrameOn s.mem (link_mem s.mem r b.dthb_chain) R := by
    intro x hx
    have hxr : x ≠ r := fun h => hr.2.2 (by rw [← h]; exact (hlinked x).mpr (Or.inr hx))
    refine ⟨by rw [link_mem_next, if_neg hxr], hprev x ?_⟩
    intro hxl
    obtain ⟨b2, hb2, l2, hl2, hx2⟩ := hx
    apply hRk b2 hb2
    rw [hl2.key_some hx2, hkeys x hxl]
  obtain ⟨hok1, hmap1, hlinked1⟩ := buckets_frame hRok hstr hframe
  have hinv : Inv ⟨{ s.hash with
          dth_tab := s.hash.dth_tab.set (DTRACE_HASHSTR (s.mem r) &&& s.hash.dth_mask) chain1
          dth_nbuckets := nb1 },
        link_mem s.mem r b.dthb_chain⟩ := by
    refine ⟨hs.size_pow, hs.mask_eq, ?_, ?_, hnble, ?_, ?_, ?_⟩
    · show (s.hash.dth_tab.set _ chain1).length = s.hash.dth_size
      rw [List.length_set]; exact hs.tab_len
    · show nb1 = (s.hash.dth_tab.set _ chain1).flatten.length
      rw [hperm1.length_eq, hnb1]; rfl
    · intro b2 hb2
      rcases List.mem_cons.mp (hperm1.mem_iff.mp hb2) with rfl | hb2
      · exact ⟨_, hb1⟩
      · exact hok1 b2 hb2
    · refine SlotOK.frame_str (hs.slot.set _ chain1 ?_) hstr
      intro b2 hb2 a ha
      rcases hchain1 b2 hb2 with rfl | hb2
      · cases ha
        rfl
      · exact hs.slot _ chain hc b2 hb2 a ha
    · show ((s.hash.dth_tab.set _ chain1).flatten.map _).Nodup
      rw [((hperm1.map _).nodup_iff)]
      rw [List.map_cons, hmap1, List.nodup_cons]
      refine ⟨?_, hRnd⟩
      intro hmem
      obtain ⟨b2, hb2, hk2⟩ := List.mem_map.mp hmem
      apply hRk b2 hb2
      rw [hk2]
      simp [bucket_key, hstr]
  refine ⟨hinv, hstr, ?_, ?_, ?_⟩
  · intro x hx
    show (link_mem s.mem r b.dthb_chain x).next = _
    rw [link_mem_next, if_neg hx]
  · intro x hx
    exact hprev x (fun h => hx ((hlinked x).mpr (Or.inl h)))
  · intro x
    rw [hinv.linked_iff, hlinked]
    show LinkedIn (link_mem s.mem r b.dthb_chain) (s.hash.dth_tab.set _ chain1).flatten x ↔ _
    rw [LinkedIn.perm hperm1, LinkedIn.cons hb1, hlinked1, List.mem_cons, or_assoc]

theorem perm_middle_append {α : Type} (pre post X : List α) (b : α) :
    ((pre ++ b :: post) ++ X).Perm (b :: (pre ++ (post ++ X))) := by
  rw [List.append_assoc, List.cons_append]
  exact List.perm_middle

/-- Insert into the bucket that already holds the key of `r`. -/
theorem Inv.add_found {s : State} (hs : Inv s) {r : Nat} (hr : Unlinked s r) (fuel : Nat)
    {b : dtrace_hashbucket_t} (hb : b ∈ all_buckets s)
    (hk : bucket_key s.mem b = some (cstr (s.mem r).str)) :
    ∃ s1, dtrace_hash_add_aux (fuel + 1) s r = .ok s1 ∧ AddPost s r s1 := by
  obtain ⟨chain, pre, post, hc, hf, hch⟩ := hs.search_found (s.mem r) hb hk
  obtain ⟨l, hl⟩ := hs.ok b hb
  obtain ⟨X, hX, hXset⟩ := flatten_set hc
  subst hch
  have hpermOld : (all_buckets s).Perm (b :: (pre ++ (post ++ X))) :=
    hX.trans (perm_middle_append pre post X b)
  have hperm1 : (s.hash.dth_tab.set (DTRACE_HASHSTR (s.mem r) &&& s.hash.dth_mask)
      (pre ++ ⟨some r, b.dthb_len + 1⟩ :: post)).flatten.Perm
      (⟨some r, b.dthb_len + 1⟩ :: (pre ++ (post ++ X))) :=
    (hXset _).trans (perm_middle_append pre post X _)
  have hndOld : ((b :: (pre ++ (post ++ X))).map (bucket_key s.mem)).Nodup :=
    ((hpermOld.map _).nodup_iff).mp hs.keys_nodup
  have hRk : ∀ b2 ∈ pre ++ (post ++ X), bucket_key s.mem b2 ≠ some (cstr (s.mem r).str) := by
    intro b2 hb2 hk2
    rw [List.map_cons, List.nodup_cons] at hndOld
    apply hndOld.1
    rw [hk, ← hk2]
    exact List.mem_map_of_mem _ hb2
  have hhead : ∀ c, b.dthb_chain = some c → (s.mem c).prev = none := by
    intro c hc1
    obtain ⟨a, t, hlt, ha⟩ := hl.head
    have hd := hl.dl
    rw [hlt] at hd
    rw [hc1] at ha
    cases ha
    exact hd.2.1
  have hcore := add_core hs hr (pre ++ ⟨some r, b.dthb_len + 1⟩ :: post)
    s.hash.dth_nbuckets hc hl.dl hl.nodup
    (fun x hx => by
      have := hl.keys x hx
      rw [hk] at this
      exact Option.some.inj this)
    hl.len
    (fun x => by rw [hs.linked_iff, LinkedIn.perm hpermOld, LinkedIn.cons hl])
    (fun b2 hb2 => hs.ok b2 (hpermOld.mem_iff.mpr (List.mem_cons_of_mem b hb2)))
    hRk (List.nodup_cons.mp (by simpa using hndOld)).2 hperm1
    (fun b2 hb2 => by
      rcases List.mem_append.mp hb2 with h | h
      · exact Or.inr (List.mem_append_left _ h)
      · rcases List.mem_cons.mp h with h | h
        · exact Or.inl h
        · exact Or.inr (List.mem_append_right _ (List.mem_cons_of_mem b h)))
    (by rw [hs.nb_eq, hpermOld.length_eq]; rfl) hs.nb_le
  refine ⟨_, ?_, ⟨hcore, Or.inl ⟨b, pre ++ (post ++ X), hpermOld, hk, hperm1, rfl, rfl⟩⟩⟩
  simp only [dtrace_hash_add_aux, hc, hf]
  rw [hash_add_link_ok s _ pre post b r hr.1 hr.2.1 hhead]

/-- Insert of a key that has no bucket, into a table that is not due to grow. -/
theorem Inv.add_fresh {s : State} (hs : Inv s) {r : Nat} (hr : Unlinked s r) (fuel : Nat)
    (hno : ∀ b ∈ all_buckets s, bucket_key s.mem b ≠ some (cstr (s.mem r).str))
    (hsz : ¬ (s.hash.dth_nbuckets >>> 1 > s.hash.dth_size)) :
    ∃ s1, dtrace_hash_add_aux (fuel + 1) s r = .ok s1 ∧ AddPost s r s1 := by
  obtain ⟨chain, hc, hf⟩ := hs.search_none (s.mem r) hno
  obtain ⟨X, hX, hXset⟩ := flatten_set hc
  have hperm1 : (s.hash.dth_tab.set (DTRACE_HASHSTR (s.mem r) &&& s.hash.dth_mask)
      (⟨some r, 0 + 1⟩ :: chain)).flatten.Perm (⟨some r, 0 + 1⟩ :: all_buckets s) :=
    (hXset _).trans (List.Perm.cons _ hX.symm)
  have hle : s.hash.dth_nbuckets + 1 ≤ 2 * s.hash.dth_size + 2 := by
    rw [Nat.shiftRight_eq_div_pow] at hsz
    omega
  have hcore := add_core hs hr (⟨some r, 0 + 1⟩ :: chain) (b := ⟨none, 0⟩) (l := [])
    (s.hash.dth_nbuckets + 1) hc rfl List.nodup_nil
    (fun x hx => by simp at hx) (Nat.zero_le _)
    (fun x => by rw [hs.linked_iff]; simp)
    hs.ok hno hs.keys_nodup hperm1
    (fun b2 hb2 => by
      rcases List.mem_cons.mp hb2 with h | h
      · exact Or.inl h
      · exact Or.inr h)
    (by rw [hs.nb_eq]) hle
  refine ⟨_, ?_, ⟨hcore, Or.inr ⟨hno, hperm1, rfl, by rw [if_neg hsz]⟩⟩⟩
  simp only [dtrace_hash_add_aux, hc, hf, if_neg hsz]
  refine (hash_add_link_ok _ _ [] chain ⟨none, 0⟩ r ?_ ?_ (fun c h => by cases h)).trans ?_
  · exact hr.1
  · exact hr.2.1
  · simp [List.set_set]

theorem linked_congr {s s1 : State} (hmem : s1.mem = s.mem)
    (hperm : (all_buckets s1).Perm (all_buckets s)) (x : Nat) : Linked s1 x ↔ Linked s x := by
  unfold Linked
  rw [hmem]
  constructor
  · rintro ⟨b, hb, h⟩
    exact ⟨b, hperm.mem_iff.mp hb, h⟩
  · rintro ⟨b, hb, h⟩
    exact ⟨b, hperm.mem_iff.mpr hb, h⟩

theorem Inv.size_pos {s : State} (hs : Inv s) : 0 < s.hash.dth_size := by
  obtain ⟨k, hk⟩ := hs.size_pow
  rw [hk]
  exact Nat.pos_pow_of_pos k (by decide)

/-- Insert of a key that has no bucket, into a table that is due to grow: one
resize, then the retry links the record. -/
theorem Inv.add_grow {s : State} (hs : Inv s) {r : Nat} (hr : Unlinked s r) (fuel : Nat)
    (hno : ∀ b ∈ all_buckets s, bucket_key s.mem b ≠ some (cstr (s.mem r).str))
    (hsz : s.hash.dth_nbuckets >>> 1 > s.hash.dth_size) :
    ∃ s1, dtrace_hash_add_aux (fuel + 1 + 1) s r = .ok s1 ∧ AddPost s r s1 := by
  obtain ⟨chain, hc, hf⟩ := hs.search_none (s.mem r) hno
  obtain ⟨s2, hres, hmem, hsize, hnb, hperm, hinv2⟩ := hs.resize
  have hstep : dtrace_hash_add_aux (fuel + 1 + 1) s r = dtrace_hash_add_aux (fuel + 1) s2 r := by
    rw [dtrace_hash_add_aux]
    simp only [hc, hf, if_pos hsz, hres]
  have hr2 : Unlinked s2 r := by
    refine ⟨?_, ?_, ?_⟩
    · rw [hmem]; exact hr.1
    · rw [hmem]; exact hr.2.1
    · rw [linked_congr hmem hperm]; exact hr.2.2
  have hno2 : ∀ b ∈ all_buckets s2, bucket_key s2.mem b ≠ some (cstr (s2.mem r).str) := by
    intro b hb
    rw [hmem]
    exact hno b (hperm.mem_iff.mp hb)
  have hsz2 : ¬ (s2.hash.dth_nbuckets >>> 1 > s2.hash.dth_size) := by
    have h1 := hs.nb_le
    have h2 := hs.size_pos
    rw [hnb, hsize, Nat.shiftRight_eq_div_pow]
    omega
  obtain ⟨s1, hadd, hpost⟩ := hinv2.add_fresh hr2 fuel hno2 hsz2
  refine ⟨s1, hstep.trans hadd, ⟨⟨hpost.frame.inv, ?_, ?_, ?_, ?_⟩, Or.inr ⟨hno, ?_, ?_, ?_⟩⟩⟩
  · intro x; rw [hpost.frame.str x, hmem]
  · intro x hx; rw [hpost.frame.next_other x hx, hmem]
  · intro x hx
    rw [hpost.frame.prev_other x (by rw [linked_congr hmem hperm]; exact hx), hmem]
  · intro x; rw [hpost.frame.linked x, linked_congr hmem hperm]
  · rcases hpost.buckets with ⟨b, R, hp, hk, _⟩ | ⟨_, hp, _, _⟩
    · exact absurd hk (hno2 b (hp.mem_iff.mpr (List.mem_cons_self b R)))
    · exact hp.trans (List.Perm.cons _ hperm)
  · rcases hpost.buckets with ⟨b, R, hp, hk, _⟩ | ⟨_, _, hn, _⟩
    · exact absurd hk (hno2 b (hp.mem_iff.mpr (List.mem_cons_self b R)))
    · rw [hn, hnb]
  · rcases hpost.buckets with ⟨b, R, hp, hk, _⟩ | ⟨_, _, _, hsz1⟩
    · exact absurd hk (hno2 b (hp.mem_iff.mpr (List.mem_cons_self b R)))
    · rw [hsz1, if_neg hsz2, if_pos hsz, hsize]

/-- On a table that satisfies the invariant, `dtrace_hash_add` of an unlinked
record returns, and the result is described by `AddPost`. -/
theorem Inv.add {s : State} (hs : Inv s) {r : Nat} (hr : Unlinked s r) :
    ∃ s1, dtrace_hash_add s r = .ok s1 ∧ AddPost s r s1 := by
  unfold dtrace_hash_add
  by_cases hex : ∃ b ∈ all_buckets s, bucket_key s.mem b = some (cstr (s.mem r).str)
  · obtain ⟨b, hb, hk⟩ := hex
    exact hs.add_found hr _ hb hk
  · have hno : ∀ b ∈ all_buckets s, bucket_key s.mem b ≠ some (cstr (s.mem r).str) :=
      fun b hb hk => hex ⟨b, hb, hk⟩
    by_cases hsz : s.hash.dth_nbuckets >>> 1 > s.hash.dth_size
    · exact hs.add_grow hr _ hno hsz
    · exact hs.add_fresh hr _ hno hsz

theorem Inv.create (stroffs nextoffs prevoffs : Nat) (mem : Nat → dtrace_probe_t) :
    Inv { hash := dtrace_hash_create stroffs nextoffs prevoffs, mem := mem } where
  size_pow := ⟨0, rfl⟩
  mask_eq := rfl
  tab_len := rfl
  nb_eq := rfl
  nb_le := Nat.zero_le _
  ok := fun b hb => by simp [all_buckets, dtrace_hash_create] at hb
  slot := SlotOK.replicate _ _ _
  keys_nodup := by simp [all_buckets, dtrace_hash_create]

/-! ## Unlinking a record from its list -/

theorem last_ptr_cons_mem (l : List Nat) :
    ∀ (q : Option Nat) (a : Nat), ∃ x ∈ a :: l, last_ptr q (a :: l) = some x := by
  induction l with
  | nil => intro q a; exact ⟨a, List.mem_cons_self a [], rfl⟩
  | cons c l ih =>
    intro q a
    obtain ⟨x, hx, hlast⟩ := ih (some a) c
    exact ⟨x, List.mem_cons_of_mem a hx, hlast⟩

theorem DList.ptr_eq_head {mem : Nat → dtrace_probe_t} {q p : Option Nat} {l : List Nat}
    (h : DList mem q p l) : p = l.head? := by
  cases l with
  | nil => exact h
  | cons a t => exact h.1

theorem DList.split {mem : Nat → dtrace_probe_t} {r : Nat} {l2 : List Nat} (l1 : List Nat) :
    ∀ {q p : Option Nat}, DList mem q p (l1 ++ r :: l2) →
      (mem r).prev = last_ptr q l1 ∧ (mem r).next = l2.head? := by
  induction l1 with
  | nil =>
    intro q p h
    exact ⟨h.2.1, h.2.2.ptr_eq_head⟩
  | cons a l1 ih =>
    intro q p h
    exact ih h.2.2

/-- The record list without `r`, in the memory in which the neighbours of `r`
point to each other. -/
theorem unlink_dlist {mem mem1 : Nat → dtrace_probe_t} {r : Nat} {l2 : List Nat}
    (hnext : ∀ x, (mem1 x).next =
      if some x = (mem r).prev then (mem r).next else (mem x).next)
    (hprev : ∀ x, (mem1 x).prev =
      if some x = (mem r).next then (mem r).prev else (mem x).prev)
    (l1 : List Nat) :
    ∀ {q p : Option Nat}, DList mem q p (l1 ++ r :: l2) → (l1 ++ r :: l2).Nodup →
      (∀ a, q = some a → a ∉ l1 ++ r :: l2) →
      DList mem1 q (if l1 = [] then (mem r).next else p) (l1 ++ l2) := by
  induction l1 with
  | nil =>
    intro q p h hnd hq
    simp only [List.nil_append, if_true] at h hnd hq ⊢
    have hrq : (mem r).prev = q := h.2.1
    cases l2 with
    | nil => exact h.2.2
    | cons n t =>
      have hn : (mem r).next = some n := h.2.2.1
      have hnr : n ≠ r := fun e => (List.nodup_cons.mp hnd).1 (by rw [e]; exact List.mem_cons_self r t)
      have hqn : ¬ some n = q := fun e => hq n e.symm (List.mem_cons_of_mem r (List.mem_cons_self n t))
      refine ⟨hn, ?_, ?_⟩
      · rw [hprev, hn, if_pos rfl, hrq]
      · rw [hnext, hrq, if_neg hqn]
        refine DList.frame_links ?_ h.2.2.2.2
        intro x hx
        have hxq : ¬ some x = q := fun e =>
          hq x e.symm (List.mem_cons_of_mem r (List.mem_cons_of_mem n hx))
        have hxn : ¬ some x = some n := fun e => by
          cases e
          exact (List.nodup_cons.mp (List.nodup_cons.mp hnd).2).1 hx
        rw [hnext, hprev, hrq, hn, if_neg hxq, if_neg hxn]
        exact ⟨rfl, rfl⟩
  | cons a l1 ih =>
    intro q p h hnd hq
    have hnd1 : (l1 ++ r :: l2).Nodup := (List.nodup_cons.mp hnd).2
    have ha : a ∉ l1 ++ r :: l2 := (List.nodup_cons.mp hnd).1
    have hsp := DList.split l1 h.2.2
    have hih := ih h.2.2 hnd1 (fun c hc => by cases hc; exact ha)
    simp only [List.cons_append, if_neg (List.cons_ne_nil a l1)]
    refine ⟨h.1, ?_, ?_⟩
    · rw [hprev, if_neg, h.2.1]
      rw [hsp.2]
      intro e
      apply ha
      have : a ∈ l2 := List.mem_of_mem_head? e.symm
      exact List.mem_append_right _ (List.mem_cons_of_mem r this)
    · rw [hnext, hsp.1]
      cases l1 with
      | nil =>
        simp only [last_ptr, if_true]
        simpa using hih
      | cons c l1 =>
        obtain ⟨x, hx, hlast⟩ := last_ptr_cons_mem l1 (some a) c
        rw [hlast, if_neg]
        · simpa using hih
        · intro e
          cases e
          exact ha (List.mem_append_left _ hx)

/-! ## Remove -/

theorem remove_fix_prev_hash (hash : dtrace_hash_t) (mem : Nat → dtrace_probe_t) (r : Nat) :
    (remove_fix_prev hash mem r).hash = hash := by
  unfold remove_fix_prev; split <;> rfl

theorem remove_fix_prev_str (hash : dtrace_hash_t) (mem : Nat → dtrace_probe_t) (r x : Nat) :
    ((remove_fix_prev hash mem r).mem x).str = (mem x).str := by
  unfold remove_fix_prev; split <;> simp

theorem remove_fix_prev_next (hash : dtrace_hash_t) (mem : Nat → dtrace_probe_t) (r x : Nat) :
    ((remove_fix_prev hash mem r).mem x).next = (mem x).next := by
  unfold remove_fix_prev; split <;> simp

theorem remove_fix_prev_prev (hash : dtrace_hash_t) (mem : Nat → dtrace_probe_t) (r x : Nat) :
    ((remove_fix_prev hash mem r).mem x).prev =
      if some x = (mem r).next then (mem r).prev else (mem x).prev := by
  unfold remove_fix_prev
  split
  · next h => simp [h]
  · next n h => simp [h, set_prev_prev]

theorem remove_core {s : State} (hs : Inv s) {r : Nat} {b : dtrace_hashbucket_t}
    {R : List dtrace_hashbucket_t} {l1 l2 : List Nat}
    (hperm : (all_buckets s).Perm (b :: R)) (hl : BucketOK s.mem b (l1 ++ r :: l2))
    (hash1 : dtrace_hash_t) (mem1 : Nat → dtrace_probe_t)
    (hsize : hash1.dth_size = s.hash.dth_size) (hmask : hash1.dth_mask = s.hash.dth_mask)
    (hlen : hash1.dth_tab.length = s.hash.dth_tab.length)
    (hslot : SlotOK s.mem s.hash.dth_mask hash1.dth_tab)
    (hstr : ∀ x, (mem1 x).str = (s.mem x).str)
    (hnext : ∀ x, (mem1 x).next =
      if some x = (s.mem r).prev then (s.mem r).next else (s.mem x).next)
    (hprev : ∀ x, (mem1 x).prev =
      if some x = (s.mem r).next then (s.mem r).prev else (s.mem x).prev)
    (hcase : (l1 ++ l2 = [] ∧ hash1.dth_tab.flatten.Perm R ∧
          hash1.dth_nbuckets + 1 = s.hash.dth_nbuckets) ∨
        (l1 ++ l2 ≠ [] ∧
          hash1.dth_tab.flatten.Perm
            (⟨if l1 = [] then (s.mem r).next else b.dthb_chain, b.dthb_len⟩ :: R) ∧
          hash1.dth_nbuckets = s.hash.dth_nbuckets)) :
    RemovePost s r ⟨hash1, mem1⟩ := by
  have hndOld : ((b :: R).map (bucket_key s.mem)).Nodup :=
    ((hperm.map _).nodup_iff).mp hs.keys_nodup
  have hRnd : (R.map (bucket_key s.mem)).Nodup := (List.nodup_cons.mp (by simpa using hndOld)).2
  have hRok : ∀ b2 ∈ R, ∃ l, BucketOK s.mem b2 l := fun b2 hb2 =>
    hs.ok b2 (hperm.mem_iff.mpr (List.mem_cons_of_mem b hb2))
  have hsp := DList.split l1 hl.dl
  have hpl : ∀ x, some x = (s.mem r).prev → x ∈ l1 ++ r :: l2 := by
    intro x hx
    rw [hsp.1] at hx
    cases l1 with
    | nil => cases hx
    | cons c t =>
      obtain ⟨y, hy, hlast⟩ := last_ptr_cons_mem t none c
      rw [hlast] at hx
      cases hx
      exact List.mem_append_left _ hy
  have hnl : ∀ x, some x = (s.mem r).next → x ∈ l1 ++ r :: l2 := by
    intro x hx
    rw [hsp.2] at hx
    exact List.mem_append_right _ (List.mem_cons_of_mem r (List.mem_of_mem_head? hx.symm))
  have hframe : FrameOn s.mem mem1 R := by
    intro x hx
    have hxl := LinkedIn.not_mem hl hndOld hx
    rw [hnext, hprev, if_neg (fun e => hxl (hpl x e)), if_neg (fun e => hxl (hnl x e))]
    exact ⟨rfl, rfl⟩
  obtain ⟨hok1, hmap1, hlinked1⟩ := buckets_frame hRok hstr hframe
  have hlinkedOld : ∀ x, Linked s x ↔ x ∈ l1 ++ r :: l2 ∨ LinkedIn s.mem R x := fun x => by
    rw [hs.linked_iff, LinkedIn.perm hperm, LinkedIn.cons hl]
  have hrl : r ∉ l1 ++ l2 := by
    have := hl.nodup
    rw [List.nodup_append] at this
    intro h
    rcases List.mem_append.mp h with h1 | h2
    · exact this.2.2 h1 (List.mem_cons_self r l2)
    · exact (List.nodup_cons.mp this.2.1).1 h2
  have hsub : ∀ x, x ∈ l1 ++ l2 → x ∈ l1 ++ r :: l2 := by
    intro x hx
    rcases List.mem_append.mp hx with h | h
    · exact List.mem_append_left _ h
    · exact List.mem_append_right _ (List.mem_cons_of_mem r h)
  rcases hcase with ⟨hnil, hp1, hnb1⟩ | ⟨hne, hp1, hnb1⟩
  · have hinv : Inv ⟨hash1, mem1⟩ := by
      refine ⟨?_, ?_, ?_, ?_, ?_, ?_, ?_, ?_⟩
      · rw [hsize]; exact hs.size_pow
      · show hash1.dth_mask = hash1.dth_size - 1
        rw [hmask, hsize]; exact hs.mask_eq
      · show hash1.dth_tab.length = hash1.dth_size
        rw [hlen, hsize]; exact hs.tab_len
      · show hash1.dth_nbuckets = hash1.dth_tab.flatten.length
        have h1 := hs.nb_eq
        rw [hperm.length_eq, List.length_cons] at h1
        rw [hp1.length_eq]
        omega
      · show hash1.dth_nbuckets ≤ 2 * hash1.dth_size + 2
        have := hs.nb_le
        rw [hsize]; omega
      · intro b2 hb2
        exact hok1 b2 (hp1.mem_iff.mp hb2)
      · show SlotOK mem1 hash1.dth_mask hash1.dth_tab
        rw [hmask]
        exact hslot.frame_str hstr
      · show (hash1.dth_tab.flatten.map (bucket_key mem1)).Nodup
        rw [(hp1.map _).nodup_iff, hmap1]
        exact hRnd
    refine ⟨hinv, hstr, hnext, hprev, ?_, hsize, b, R, l1, l2, hperm, hl, Or.inl ⟨hnil, hp1, hnb1⟩⟩
    intro x
    rw [hinv.linked_iff, hlinkedOld]
    show LinkedIn mem1 hash1.dth_tab.flatten x ↔ _
    rw [LinkedIn.perm hp1, hlinked1]
    have h1 : l1 = [] := (List.append_eq_nil.mp hnil).1
    have h2 : l2 = [] := (List.append_eq_nil.mp hnil).2
    subst h1
    subst h2
    constructor
    · intro hx
      refine ⟨?_, Or.inr hx⟩
      intro e
      exact LinkedIn.not_mem hl hndOld hx (by simp [e])
    · rintro ⟨hxr, hx | hx⟩
      · simp at hx
        exact absurd hx hxr
      · exact hx
  · have hdl1 := unlink_dlist hnext hprev l1 hl.dl hl.nodup (fun a ha => by cases ha)
    have hb1 : BucketOK mem1 ⟨if l1 = [] then (s.mem r).next else b.dthb_chain, b.dthb_len⟩
        (l1 ++ l2) := by
      obtain ⟨h, hh⟩ : ∃ h, (if l1 = [] then (s.mem r).next else b.dthb_chain) = some h ∧
          h ∈ l1 ++ l2 := by
        have := hdl1.ptr_eq_head
        cases hl12 : l1 ++ l2 with
        | nil => exact absurd hl12 hne
        | cons h t =>
          rw [hl12] at this
          exact ⟨h, this, List.mem_cons_self h t⟩
      refine ⟨hne, hdl1, ?_, ?_, ?_⟩
      · have := hl.nodup
        rw [List.nodup_append] at this ⊢
        exact ⟨this.1, (List.nodup_cons.mp this.2.1).2,
          fun x hx1 hx2 => this.2.2 hx1 (List.mem_cons_of_mem r hx2)⟩
      · intro x hx
        simp only [bucket_key, hh.1, Option.map_some', hstr]
        have hkx := hl.keys x (hsub x hx)
        have hkh := hl.keys h (hsub h hh.2)
        rw [← hkh] at hkx
        exact hkx
      · have := hl.len
        simp only [List.length_append, List.length_cons] at this ⊢
        omega
    have hkey1 : bucket_key mem1 ⟨if l1 = [] then (s.mem r).next else b.dthb_chain, b.dthb_len⟩
        = bucket_key s.mem b := by
      obtain ⟨h, t, hht, _⟩ := hb1.head
      have hh : h ∈ l1 ++ l2 := by rw [hht]; exact List.mem_cons_self h t
      rw [hb1.key_some hh, hstr, hl.key_some (hsub h hh)]
    have hinv : Inv ⟨hash1, mem1⟩ := by
      refine ⟨?_, ?_, ?_, ?_, ?_, ?_, ?_, ?_⟩
      · rw [hsize]; exact hs.size_pow
      · show hash1.dth_mask = hash1.dth_size - 1
        rw [hmask, hsize]; exact hs.mask_eq
      · show hash1.dth_tab.length = hash1.dth_size
        rw [hlen, hsize]; exact hs.tab_len
      · show hash1.dth_nbuckets = hash1.dth_tab.flatten.length
        have h1 := hs.nb_eq
        rw [hperm.length_eq, List.length_cons] at h1
        rw [hp1.length_eq, List.length_cons]
        omega
      · show hash1.dth_nbuckets ≤ 2 * hash1.dth_size + 2
        have := hs.nb_le
        rw [hsize]; omega
      · intro b2 hb2
        rcases List.mem_cons.mp (hp1.mem_iff.mp hb2) with rfl | hb2
        · exact ⟨_, hb1⟩
        · exact hok1 b2 hb2
      · show SlotOK mem1 hash1.dth_mask hash1.dth_tab
        rw [hmask]
        exact hslot.frame_str hstr
      · show (hash1.dth_tab.flatten.map (bucket_key mem1)).Nodup
        rw [(hp1.map _).nodup_iff, List.map_cons, hmap1, hkey1]
        simpa using hndOld
    refine ⟨hinv, hstr, hnext, hprev, ?_, hsize, b, R, l1, l2, hperm, hl,
      Or.inr ⟨hne, ⟨if l1 = [] then (s.mem r).next else b.dthb_chain, b.dthb_len⟩, rfl, hb1,
        hp1, hnb1⟩⟩
    intro x
    rw [hinv.linked_iff, hlinkedOld]
    show LinkedIn mem1 hash1.dth_tab.flatten x ↔ _
    rw [LinkedIn.perm hp1, LinkedIn.cons hb1, hlinked1]
    constructor
    · rintro (hx | hx)
      · exact ⟨fun e => hrl (by rw [← e]; exact hx), Or.inl (hsub x hx)⟩
      · refine ⟨?_, Or.inr hx⟩
        intro e
        exact LinkedIn.not_mem hl hndOld hx (by rw [e]; simp)
    · rintro ⟨hxr, hx | hx⟩
      · left
        rcases List.mem_append.mp hx with h | h
        · exact List.mem_append_left _ h
        · rcases List.mem_cons.mp h with h | h
          · exact absurd h hxr
          · exact List.mem_append_right _ h
      · exact Or.inr hx

/-- On a table that satisfies the invariant, `dtrace_hash_remove` of a linked
record returns, and the result is described by `RemovePost`. -/
theorem Inv.remove {s : State} (hs : Inv s) {r : Nat} (hr : Linked s r) :
    ∃ s1, dtrace_hash_remove s r = .ok s1 ∧ RemovePost s r s1 := by
  obtain ⟨b, hb, l, hl, hrl⟩ := (hs.linked_iff r).mp hr
  have hk : bucket_key s.mem b = some (cstr (s.mem r).str) := hl.key_some hrl
  obtain ⟨chain, pre, post, hc, hf, hch⟩ := hs.search_found (s.mem r) hb hk
  obtain ⟨l1, l2, hsplit⟩ := List.append_of_mem hrl
  subst hsplit
  subst hch
  obtain ⟨X, hX, hXset⟩ := flatten_set hc
  have hpermOld : (all_buckets s).Perm (b :: (pre ++ (post ++ X))) :=
    hX.trans (perm_middle_append pre post X b)
  have hsp := DList.split l1 hl.dl
  have hnbpos : ¬ s.hash.dth_nbuckets ≤ 0 := by
    have := hs.nb_eq
    rw [hpermOld.length_eq, List.length_cons] at this
    omega
  cases hprev : (s.mem r).prev with
  | none =>
    have hl1 : l1 = [] := by
      cases l1 with
      | nil => rfl
      | cons c t =>
        obtain ⟨y, _, hlast⟩ := last_ptr_cons_mem t none c
        rw [hsp.1, hlast] at hprev
        cases hprev
    subst hl1
    cases hnext : (s.mem r).next with
    | none =>
      have hl2 : l2 = [] := by
        cases l2 with
        | nil => rfl
        | cons c t =>
          rw [hsp.2] at hnext
          cases hnext
      subst hl2
      have hchain : b.dthb_chain = some r := hl.dl.1
      refine ⟨⟨{ s.hash with
          dth_tab := s.hash.dth_tab.set (DTRACE_HASHSTR (s.mem r) &&& s.hash.dth_mask) (pre ++ post)
          dth_nbuckets := s.hash.dth_nbuckets - 1 }, s.mem⟩, ?_, ?_⟩
      · simp only [dtrace_hash_remove, hc, hf, hprev, hnext, hchain, hnbpos, if_false, ne_eq,
          not_true_eq_false]
      · refine remove_core hs hpermOld hl _ _ rfl rfl (List.length_set _ _ _) ?_ (fun x => rfl)
          ?_ ?_ (Or.inl ⟨rfl, ?_, ?_⟩)
        · apply hs.slot.set
          intro b2 hb2 a ha
          refine hs.slot _ _ hc b2 ?_ a ha
          rcases List.mem_append.mp hb2 with h | h
          · exact List.mem_append_left _ h
          · exact List.mem_append_right _ (List.mem_cons_of_mem b h)
        · intro x
          rw [hprev, if_neg (fun e => by cases e)]
        · intro x
          rw [hnext, if_neg (fun e => by cases e)]
        · have := hXset (pre ++ post)
          rw [List.append_assoc] at this
          exact this
        · show s.hash.dth_nbuckets - 1 + 1 = s.hash.dth_nbuckets
          omega
    | some n =>
      refine ⟨remove_fix_prev { s.hash with
          dth_tab := s.hash.dth_tab.set (DTRACE_HASHSTR (s.mem r) &&& s.hash.dth_mask)
            (pre ++ ⟨some n, b.dthb_len⟩ :: post) } s.mem r, ?_, ?_⟩
      · simp only [dtrace_hash_remove, hc, hf, hprev, hnext]
      · have hb1eq : (⟨if ([] : List Nat) = [] then (s.mem r).next else b.dthb_chain,
            b.dthb_len⟩ : dtrace_hashbucket_t) = ⟨some n, b.dthb_len⟩ := by
          simp [hnext]
        have hne : ([] : List Nat) ++ l2 ≠ [] := by
          intro e
          rw [hsp.2] at hnext
          simp at e
          rw [e] at hnext
          cases hnext
        have hcore := remove_core hs hpermOld hl
          (remove_fix_prev { s.hash with
            dth_tab := s.hash.dth_tab.set (DTRACE_HASHSTR (s.mem r) &&& s.hash.dth_mask)
              (pre ++ ⟨some n, b.dthb_len⟩ :: post) } s.mem r).hash
          (remove_fix_prev { s.hash with
            dth_tab := s.hash.dth_tab.set (DTRACE_HASHSTR (s.mem r) &&& s.hash.dth_mask)
              (pre ++ ⟨some n, b.dthb_len⟩ :: post) } s.mem r).mem
          (by rw [remove_fix_prev_hash]) (by rw [remove_fix_prev_hash])
          (by rw [remove_fix_prev_hash]; exact List.length_set _ _ _)
          (by
            rw [remove_fix_prev_hash]
            apply hs.slot.set
            intro b2 hb2 a ha
            rcases List.mem_append.mp hb2 with h | h
            · exact hs.slot _ _ hc b2 (List.mem_append_left _ h) a ha
            · rcases List.mem_cons.mp h with h | h
              · subst h
                have hn : (s.mem r).next = some a := by rw [hnext]; exact ha
                have han : a ∈ [] ++ r :: l2 := by
                  rw [hsp.2] at hn
                  exact List.mem_cons_of_mem r (List.mem_of_mem_head? hn)
                have hka := hl.keys a han
                obtain ⟨h0, t0, _, hh0⟩ := hl.head
                rw [bucket_key, hh0] at hka
                simp only [Option.map_some', Option.some.injEq] at hka
                rw [hash_str_congr hka]
                exact hs.slot _ _ hc b (by simp) h0 hh0
              · exact hs.slot _ _ hc b2
                  (List.mem_append_right _ (List.mem_cons_of_mem b h)) a ha)
          (fun x => remove_fix_prev_str _ _ _ _)
          (fun x => by
            rw [remove_fix_prev_next, hprev, if_neg (fun e => by cases e)])
          (fun x => remove_fix_prev_prev _ _ _ _)
          (Or.inr ⟨hne, by
            rw [remove_fix_prev_hash, hb1eq]
            exact (hXset _).trans (perm_middle_append pre post X _), by
            rw [remove_fix_prev_hash]⟩)
        exact hcore
  | some p =>
    have hl1 : l1 ≠ [] := by
      intro e
      subst e
      rw [hsp.1] at hprev
      cases hprev
    refine ⟨remove_fix_prev s.hash (set_next s.mem p (s.mem r).next) r, ?_, ?_⟩
    · simp only [dtrace_hash_remove, hc, hf, hprev]
    · have hrn : (set_next s.mem p (s.mem r).next r).next = (s.mem r).next := by
        rw [set_next_next]
        split <;> rfl
      have hcore := remove_core hs hpermOld hl
        (remove_fix_prev s.hash (set_next s.mem p (s.mem r).next) r).hash
        (remove_fix_prev s.hash (set_next s.mem p (s.mem r).next) r).mem
        (by rw [remove_fix_prev_hash]) (by rw [remove_fix_prev_hash])
        (by rw [remove_fix_prev_hash])
        (by rw [remove_fix_prev_hash]; exact hs.slot)
        (fun x => by rw [remove_fix_prev_str, set_next_str])
        (fun x => by
          rw [remove_fix_prev_next, set_next_next, hprev]
          by_cases hx : x = p
          · rw [if_pos hx, if_pos (by rw [hx])]
          · rw [if_neg hx, if_neg (fun e => hx (Option.some.inj e))])
        (fun x => by
          rw [remove_fix_prev_prev, hrn, set_next_prev, set_next_prev])
        (Or.inr ⟨by simp [hl1], by
          rw [remove_fix_prev_hash, if_neg hl1]
          exact hpermOld, by rw [remove_fix_prev_hash]⟩)
      exact hcore

/-- Every reachable state satisfies the invariant. -/
theorem Reachable.inv {s : State} (h : Reachable s) : Inv s := by
  induction h with
  | create stroffs nextoffs prevoffs mem => exact Inv.create _ _ _ _
  | add _ hr hadd ih =>
    obtain ⟨s1, h1, hpost⟩ := ih.add hr
    rw [hadd] at h1
    cases h1
    exact hpost.frame.inv
  | remove _ hr hrem ih =>
    obtain ⟨s1, h1, hpost⟩ := ih.remove hr
    rw [hrem] at h1
    cases h1
    exact hpost.inv
  | resize _ hres ih =>
    obtain ⟨s1, h1, _, _, _, _, hinv⟩ := ih.resize
    rw [hres] at h1
    cases h1
    exact hinv

/-! ## Lookups in terms of the set of buckets -/

theorem bucket_key_eq_iff (mem : Nat → dtrace_probe_t) (b : dtrace_hashbucket_t)
    (p : dtrace_probe_t) :
    bucket_key mem b = some (cstr p.str) ↔
      ∃ a, b.dthb_chain = some a ∧ DTRACE_HASHEQ (mem a) p = true := by
  unfold bucket_key
  cases b.dthb_chain with
  | none => simp
  | some a => simp [hasheq_iff]

theorem find_key_some {mem : Nat → dtrace_probe_t} {L : List dtrace_hashbucket_t}
    {k : List Int} {b : dtrace_hashbucket_t} (h : find_key mem L k = some b) :
    b ∈ L ∧ bucket_key mem b = some k := by
  unfold find_key at h
  exact ⟨List.mem_of_find?_eq_some h, by simpa using List.find?_some h⟩

theorem find_key_none {mem : Nat → dtrace_probe_t} {L : List dtrace_hashbucket_t}
    {k : List Int} (h : find_key mem L k = none) : ∀ b ∈ L, bucket_key mem b ≠ some k := by
  unfold find_key at h
  intro b hb
  simpa using List.find?_eq_none.mp h b hb

theorem find_key_cons (mem : Nat → dtrace_probe_t) (b : dtrace_hashbucket_t)
    (R : List dtrace_hashbucket_t) (k : List Int) :
    find_key mem (b :: R) k = if bucket_key mem b = some k then some b else find_key mem R k := by
  unfold find_key
  rw [List.find?_cons]
  by_cases h : bucket_key mem b = some k
  · simp [h]
  · simp [h]

theorem find_key_frame {mem mem1 : Nat → dtrace_probe_t}
    (hstr : ∀ x, (mem1 x).str = (mem x).str) (L : List dtrace_hashbucket_t) (k : List Int) :
    find_key mem1 L k = find_key mem L k := by
  unfold find_key
  congr 1
  funext b
  rw [bucket_key_frame hstr]

theorem Inv.lookup_eq {s : State} (hs : Inv s) {L : List dtrace_hashbucket_t}
    (hL : (all_buckets s).Perm L) (t : dtrace_probe_t) :
    dtrace_hash_lookup s t = .ok (lookup_in s.mem L (cstr t.str)) := by
  unfold lookup_in
  cases h : find_key s.mem L (cstr t.str) with
  | none => exact hs.lookup_none t (fun b hb => find_key_none h b (hL.mem_iff.mp hb))
  | some b =>
    obtain ⟨hb, hk⟩ := find_key_some h
    exact hs.lookup_found t (hL.mem_iff.mpr hb) hk

theorem Inv.collisions_eq {s : State} (hs : Inv s) {L : List dtrace_hashbucket_t}
    (hL : (all_buckets s).Perm L) (t : dtrace_probe_t) :
    dtrace_hash_collisions s t = .ok (collisions_in s.mem L (cstr t.str)) := by
  unfold collisions_in
  cases h : find_key s.mem L (cstr t.str) with
  | none => exact hs.collisions_none t (fun b hb => find_key_none h b (hL.mem_iff.mp hb))
  | some b =>
    obtain ⟨hb, hk⟩ := find_key_some h
    exact hs.collisions_found t (hL.mem_iff.mpr hb) hk

/-- The bucket that owns a linked record holds the key of that record. -/
theorem Inv.linked_bucket {s : State} (hs : Inv s) {x : Nat} (hx : Linked s x) :
    ∃ b ∈ all_buckets s, ∃ a, b.dthb_chain = some a ∧
      bucket_key s.mem b = some (cstr (s.mem x).str) := by
  obtain ⟨b, hb, l, hl, hxl⟩ := (hs.linked_iff x).mp hx
  obtain ⟨a, _, _, ha⟩ := hl.head
  exact ⟨b, hb, a, ha, hl.key_some hxl⟩

/-- The head record of a bucket is linked. -/
theorem Inv.bucket_linked {s : State} (hs : Inv s) {b : dtrace_hashbucket_t}
    (hb : b ∈ all_buckets s) :
    ∃ a, b.dthb_chain = some a ∧ Linked s a ∧
      bucket_key s.mem b = some (cstr (s.mem a).str) := by
  obtain ⟨l, hl⟩ := hs.ok b hb
  obtain ⟨a, t, hlt, ha⟩ := hl.head
  have hal : a ∈ l := by rw [hlt]; exact List.mem_cons_self a t
  exact ⟨a, ha, (hs.linked_iff a).mpr ⟨b, hb, l, hl, hal⟩, hl.key_some hal⟩

/-- No linked record with the key of `t`: no bucket with that key. -/
theorem Inv.no_bucket {s : State} (hs : Inv s) {t : dtrace_probe_t}
    (h : ∀ x, Linked s x → DTRACE_HASHEQ (s.mem x) t = false) :
    ∀ b ∈ all_buckets s, bucket_key s.mem b ≠ some (cstr t.str) := by
  intro b hb hk
  obtain ⟨a, _, hla, hka⟩ := hs.bucket_linked hb
  have h1 := h a hla
  rw [hka] at hk
  have : DTRACE_HASHEQ (s.mem a) t = true := (hasheq_iff _ _).mpr (Option.some.inj hk)
  rw [h1] at this
  cases this

/-! ## The recursion bound of the insert is never reached -/

theorem bucket_search_fuel (mem : Nat → dtrace_probe_t) (p : dtrace_probe_t)
    (chain : List dtrace_hashbucket_t) : bucket_search mem p chain ≠ .error .no_fuel := by
  induction chain with
  | nil => simp [bucket_search]
  | cons b chain ih =>
    unfold bucket_search
    split
    · simp
    · split
      · simp
      · split
        · next e he => intro h; cases h; exact ih he
        · simp
        · simp

theorem resize_chain_fuel (mem : Nat → dtrace_probe_t) (new_mask : Nat)
    (chain : List dtrace_hashbucket_t) :
    ∀ nt, resize_chain mem new_mask chain nt ≠ .error .no_fuel := by
  induction chain with
  | nil => intro nt; simp [resize_chain]
  | cons b chain ih =>
    intro nt
    unfold resize_chain
    split
    · simp
    · simp only
      split
      · simp
      · exact ih _

theorem resize_loop_fuel (mem : Nat → dtrace_probe_t) (tab : List (List dtrace_hashbucket_t))
    (new_mask : Nat) (n : Nat) :
    ∀ i nt, resize_loop mem tab new_mask n i nt ≠ .error .no_fuel := by
  induction n with
  | zero => intro i nt; simp [resize_loop]
  | succ n ih =>
    intro i nt
    unfold resize_loop
    split
    · simp
    · split
      · next e he => intro h; cases h; exact resize_chain_fuel _ _ _ _ he
      · exact ih _ _

theorem resize_result {s s1 : State} (h : dtrace_hash_resize s = .ok s1) :
    s1.hash.dth_nbuckets = s.hash.dth_nbuckets ∧ s1.hash.dth_size = s.hash.dth_size <<< 1 := by
  unfold dtrace_hash_resize at h
  simp only at h
  split at h
  · cases h
  · split at h
    · cases h
    · cases h
      exact ⟨rfl, rfl⟩

theorem resize_fuel (s : State) : dtrace_hash_resize s ≠ .error .no_fuel := by
  unfold dtrace_hash_resize
  simp only
  split
  · simp
  · split
    · next e he => intro h; cases h; exact resize_loop_fuel _ _ _ _ _ _ he
    · simp

theorem hash_add_link_fuel (s : State) (ndx : Nat) (pre post : List dtrace_hashbucket_t)
    (b : dtrace_hashbucket_t) (r : Nat) : hash_add_link s ndx pre b post r ≠ .error .no_fuel := by
  unfold hash_add_link
  simp only
  split
  · simp
  · split
    · simp
    · split <;> simp

theorem add_aux_fuel (new : Nat) :
    ∀ (fuel : Nat) (s : State), 1 ≤ s.hash.dth_size →
      (s.hash.dth_nbuckets >>> 1) ≤ s.hash.dth_size * 2 ^ fuel →
      dtrace_hash_add_aux (fuel + 1) s new ≠ .error .no_fuel := by
  intro fuel
  induction fuel with
  | zero =>
    intro s hsz hlt
    unfold dtrace_hash_add_aux
    simp only
    split
    · simp
    · split
      · next e he => intro h; cases h; exact bucket_search_fuel _ _ _ he
      · exact hash_add_link_fuel _ _ _ _ _ _
      · split
        · next hgt =>
          exfalso
          simp only [pow_zero, Nat.mul_one] at hlt
          omega
        · exact hash_add_link_fuel _ _ _ _ _ _
  | succ fuel ih =>
    intro s hsz hlt
    unfold dtrace_hash_add_aux
    simp only
    split
    · simp
    · split
      · next e he => intro h; cases h; exact bucket_search_fuel _ _ _ he
      · exact hash_add_link_fuel _ _ _ _ _ _
      · split
        · split
          · next e he => intro h; cases h; exact resize_fuel _ he
          · next s1 hres =>
            obtain ⟨hnb, hsize⟩ := resize_result hres
            apply ih
            · rw [hsize, Nat.shiftLeft_eq]; omega
            · rw [hnb, hsize, Nat.shiftLeft_eq]
              rw [pow_succ] at hlt
              calc s.hash.dth_nbuckets >>> 1 ≤ s.hash.dth_size * (2 ^ fuel * 2) := hlt
                _ = s.hash.dth_size * 2 ^ 1 * 2 ^ fuel := by ring
        · exact hash_add_link_fuel _ _ _ _ _ _

/-- On every table with at least one slot, reachable or not, the recursion of
`dtrace_hash_add` stays within the bound built into the model. -/
theorem dtrace_hash_add_fuel (s : State) (new : Nat) (hsz : 1 ≤ s.hash.dth_size) :
    dtrace_hash_add s new ≠ .error .no_fuel := by
  unfold dtrace_hash_add
  apply add_aux_fuel new (s.hash.dth_nbuckets + 1) s hsz
  have h1 : s.hash.dth_nbuckets >>> 1 ≤ s.hash.dth_nbuckets := by
    rw [Nat.shiftRight_eq_div_pow]
    exact Nat.div_le_self _ _
  have h2 : s.hash.dth_nbuckets < 2 ^ (s.hash.dth_nbuckets + 1) :=
    lt_trans (Nat.lt_two_pow _) (Nat.pow_lt_pow_right (by decide) (Nat.lt_succ_self _))
  calc s.hash.dth_nbuckets >>> 1 ≤ s.hash.dth_nbuckets := h1
    _ ≤ 2 ^ (s.hash.dth_nbuckets + 1) := Nat.le_of_lt h2
    _ = 1 * 2 ^ (s.hash.dth_nbuckets + 1) := (Nat.one_mul _).symm
    _ ≤ s.hash.dth_size * 2 ^ (s.hash.dth_nbuckets + 1) := Nat.mul_le_mul_right _ hsz

/-! ## Sequences of operations -/

theorem AddFrame.unlinked_other {s s1 : State} {r y : Nat} (h : AddFrame s r s1)
    (hy : Unlinked s y) (hyr : y ≠ r) : Unlinked s1 y := by
  refine ⟨?_, ?_, ?_⟩
  · rw [h.next_other y hyr]; exact hy.1
  · rw [h.prev_other y hy.2.2]; exact hy.2.1
  · rw [h.linked]
    rintro (e | e)
    · exact hyr e
    · exact hy.2.2 e

theorem unlinked_create (stroffs nextoffs prevoffs : Nat) (mem : Nat → dtrace_probe_t)
    (r : Nat) (hn : (mem r).next = none) (hp : (mem r).prev = none) :
    Unlinked { hash := dtrace_hash_create stroffs nextoffs prevoffs, mem := mem } r := by
  refine ⟨hn, hp, ?_⟩
  rintro ⟨b, hb, _⟩
  simp [all_buckets, dtrace_hash_create] at hb

/-- Distinct unlinked records can be inserted one after the other. -/
theorem reachable_add_all {rs : List Nat} :
    ∀ {s : State}, Reachable s → rs.Nodup → (∀ r ∈ rs, Unlinked s r) →
      ∃ s1, add_all s rs = .ok s1 ∧ Reachable s1 := by
  induction rs with
  | nil => intro s h _ _; exact ⟨s, rfl, h⟩
  | cons r rs ih =>
    intro s h hnd hun
    obtain ⟨s1, hadd, hpost⟩ := h.inv.add (hun r (List.mem_cons_self r rs))
    have hnd1 := List.nodup_cons.mp hnd
    obtain ⟨s2, hall, hreach⟩ := ih (Reachable.add h (hun r (List.mem_cons_self r rs)) hadd)
      hnd1.2 (fun y hy => hpost.frame.unlinked_other (hun y (List.mem_cons_of_mem r hy))
        (fun e => hnd1.1 (by rw [← e]; exact hy)))
    exact ⟨s2, by simp only [add_all, hadd, hall], hreach⟩

theorem reachable_of_add_all (rs : List Nat) {s s1 : State} (h : Reachable s)
    (hnd : rs.Nodup) (hun : ∀ r ∈ rs, Unlinked s r) (hall : add_all s rs = .ok s1) :
    Reachable s1 := by
  obtain ⟨s2, h2, hreach⟩ := reachable_add_all h hnd hun
  rw [hall] at h2
  cases h2
  exact hreach

/-- Distinct unlinked records inserted one after the other: what is linked
afterwards are these records and the ones linked before. -/
theorem add_all_spec (rs : List Nat) :
    ∀ (s : State), Inv s → rs.Nodup → (∀ r ∈ rs, Unlinked s r) →
      ∃ s1, add_all s rs = .ok s1 ∧ Inv s1 ∧
        (∀ x, (s1.mem x).str = (s.mem x).str) ∧
        (∀ x, Linked s1 x ↔ x ∈ rs ∨ Linked s x) ∧
        ∀ y, y ∉ rs → Unlinked s y → Unlinked s1 y := by
  induction rs with
  | nil =>
    intro s hs _ _
    exact ⟨s, rfl, hs, fun x => rfl, fun x => by simp, fun y _ hy => hy⟩
  | cons r rs ih =>
    intro s hs hnd hun
    obtain ⟨s1, hadd, hpost⟩ := hs.add (hun r (List.mem_cons_self r rs))
    have hnd1 := List.nodup_cons.mp hnd
    obtain ⟨s2, hall, hinv2, hstr2, hlinked2, hun2⟩ := ih s1 hpost.frame.inv hnd1.2
      (fun y hy => hpost.frame.unlinked_other (hun y (List.mem_cons_of_mem r hy))
        (fun e => hnd1.1 (by rw [← e]; exact hy)))
    refine ⟨s2, by simp only [add_all, hadd, hall], hinv2,
      fun x => by rw [hstr2, hpost.frame.str], ?_, ?_⟩
    · intro x
      rw [hlinked2, hpost.frame.linked, List.mem_cons]
      constructor
      · rintro (e | e | e)
        · exact Or.inl (Or.inr e)
        · exact Or.inl (Or.inl e)
        · exact Or.inr e
      · rintro ((e | e) | e)
        · exact Or.inr (Or.inl e)
        · exact Or.inl e
        · exact Or.inr (Or.inr e)
    · intro y hy huy
      exact hun2 y (fun e => hy (List.mem_cons_of_mem r e))
        (hpost.frame.unlinked_other huy (fun e => hy (by rw [e]; exact List.mem_cons_self r rs)))

/-! ## The claims -/

/-- C9: `dtrace_hash_create` returns a table with `dth_size == 1`, `dth_mask == 0`
and `dth_nbuckets == 0`, and in every state reachable from it by
`dtrace_hash_add`, `dtrace_hash_remove` and `dtrace_hash_resize`, `dth_size` is
a power of two that is at least 1 and `dth_mask == dth_size - 1`. -/
theorem C9_size_power_of_two (stroffs nextoffs prevoffs : Nat) (s : State)
    (h : Reachable s) :
    (dtrace_hash_create stroffs nextoffs prevoffs).dth_size = 1 ∧
    (dtrace_hash_create stroffs nextoffs prevoffs).dth_mask = 0 ∧
    (dtrace_hash_create stroffs nextoffs prevoffs).dth_nbuckets = 0 ∧
    (∃ k, s.hash.dth_size = 2 ^ k) ∧ 1 ≤ s.hash.dth_size ∧
    s.hash.dth_mask = s.hash.dth_size - 1 :=
  ⟨rfl, rfl, rfl, h.inv.size_pow, h.inv.size_pos, h.inv.mask_eq⟩

/-- Witness of C9: the table after the inserts of "a" ... "e", which has grown
to two slots. -/
theorem C9_size_power_of_two_witness :
    ∃ s, add_all ⟨dtrace_hash_create 0 8 16, abc_mem⟩ [0, 1, 2, 3, 4] = .ok s ∧
      Reachable s ∧
      ((dtrace_hash_create 0 8 16).dth_size = 1 ∧
       (dtrace_hash_create 0 8 16).dth_mask = 0 ∧
       (dtrace_hash_create 0 8 16).dth_nbuckets = 0 ∧
       (∃ k, s.hash.dth_size = 2 ^ k) ∧ 1 ≤ s.hash.dth_size ∧
       s.hash.dth_mask = s.hash.dth_size - 1) := by
  have hr : Reachable ⟨dtrace_hash_create 0 8 16, abc_mem⟩ := Reachable.create 0 8 16 abc_mem
  have hs := reachable_of_add_all [0, 1, 2, 3, 4] hr (by decide)
    (fun r _ => unlinked_create 0 8 16 abc_mem r rfl rfl) rfl
  exact ⟨_, rfl, hs, C9_size_power_of_two 0 8 16 _ hs⟩

theorem keys_of_buckets {s : State} (hs : Inv s) :
    ∃ keys : List (List Int), keys.Nodup ∧ keys.length = s.hash.dth_nbuckets ∧
      ∀ k, k ∈ keys ↔ ∃ x, Linked s x ∧ cstr (s.mem x).str = k := by
  have hmap : (all_buckets s).map (bucket_key s.mem) =
      ((all_buckets s).map (fun b => (bucket_key s.mem b).getD [])).map some := by
    rw [List.map_map]
    apply List.map_congr_left
    intro b hb
    obtain ⟨a, _, _, hk⟩ := hs.bucket_linked hb
    simp [hk]
  refine ⟨(all_buckets s).map (fun b => (bucket_key s.mem b).getD []), ?_, ?_, ?_⟩
  · have := hs.keys_nodup
    rw [hmap] at this
    exact this.of_map
  · rw [List.length_map, hs.nb_eq]
  · intro k
    rw [List.mem_map]
    constructor
    · rintro ⟨b, hb, hk⟩
      obtain ⟨a, _, hla, hka⟩ := hs.bucket_linked hb
      refine ⟨a, hla, ?_⟩
      rw [hka] at hk
      exact hk
    · rintro ⟨x, hx, hk⟩
      obtain ⟨b, hb, a, _, hkb⟩ := hs.linked_bucket hx
      exact ⟨b, hb, by rw [hkb]; exact hk⟩

/-- C10: in every reachable state `dth_nbuckets` equals the total number of
buckets on all slot chains, which is the number of distinct key values among
the linked records (there is a duplicate-free list of `dth_nbuckets` keys that
holds exactly the keys of the linked records); no two live buckets hold equal
keys, every live bucket has a non-null `dthb_chain`, and every bucket sits on
the chain of slot `hash(its key) & dth_mask`. -/
theorem C10_nbuckets_counts_distinct_keys (s : State) (h : Reachable s) :
    s.hash.dth_nbuckets = (s.hash.dth_tab.map List.length).sum ∧
    (∃ keys : List (List Int), keys.Nodup ∧ keys.length = s.hash.dth_nbuckets ∧
      ∀ k, k ∈ keys ↔ ∃ x, Linked s x ∧ cstr (s.mem x).str = k) ∧
    (s.hash.dth_tab.flatten.map (bucket_key s.mem)).Nodup ∧
    (∀ b ∈ s.hash.dth_tab.flatten, b.dthb_chain ≠ none) ∧
    (∀ (i : Nat) (chain : List dtrace_hashbucket_t), s.hash.dth_tab[i]? = some chain →
      ∀ b ∈ chain, ∀ a, b.dthb_chain = some a →
        DTRACE_HASHSTR (s.mem a) &&& s.hash.dth_mask = i) := by
  refine ⟨?_, keys_of_buckets h.inv, h.inv.keys_nodup, fun b hb => h.inv.chain_ne hb,
    h.inv.slot⟩
  rw [h.inv.nb_eq, all_buckets, List.length_flatten]

/-- Witness of C10: the table after the inserts of "a" ... "e". -/
theorem C10_nbuckets_counts_distinct_keys_witness :
    ∃ s, add_all ⟨dtrace_hash_create 0 8 16, abc_mem⟩ [0, 1, 2, 3, 4] = .ok s ∧
      Reachable s ∧
      (s.hash.dth_nbuckets = (s.hash.dth_tab.map List.length).sum ∧
      (∃ keys : List (List Int), keys.Nodup ∧ keys.length = s.hash.dth_nbuckets ∧
        ∀ k, k ∈ keys ↔ ∃ x, Linked s x ∧ cstr (s.mem x).str = k) ∧
      (s.hash.dth_tab.flatten.map (bucket_key s.mem)).Nodup ∧
      (∀ b ∈ s.hash.dth_tab.flatten, b.dthb_chain ≠ none) ∧
      (∀ (i : Nat) (chain : List dtrace_hashbucket_t), s.hash.dth_tab[i]? = some chain →
        ∀ b ∈ chain, ∀ a, b.dthb_chain = some a →
          DTRACE_HASHSTR (s.mem a) &&& s.hash.dth_mask = i)) := by
  have hr : Reachable ⟨dtrace_hash_create 0 8 16, abc_mem⟩ := Reachable.create 0 8 16 abc_mem
  have hs := reachable_of_add_all [0, 1, 2, 3, 4] hr (by decide)
    (fun r _ => unlinked_create 0 8 16 abc_mem r rfl rfl) rfl
  exact ⟨_, rfl, hs, C10_nbuckets_counts_distinct_keys _ hs⟩

/-- Two states with the same buckets and the same keys answer every lookup
alike. -/
theorem lookup_congr {s s1 : State} (hs : Inv s) (hs1 : Inv s1)
    (hstr : ∀ x, (s1.mem x).str = (s.mem x).str)
    (hperm : (all_buckets s1).Perm (all_buckets s)) (t : dtrace_probe_t) :
    dtrace_hash_lookup s1 t = dtrace_hash_lookup s t ∧
      dtrace_hash_collisions s1 t = dtrace_hash_collisions s t := by
  rw [hs1.lookup_eq hperm, hs1.collisions_eq hperm, hs.lookup_eq (List.Perm.refl _),
    hs.collisions_eq (List.Perm.refl _)]
  unfold lookup_in collisions_in
  rw [find_key_frame hstr]
  exact ⟨rfl, rfl⟩

/-- C8: on every reachable table `dtrace_hash_resize` returns; it doubles
`dth_size` (and the slot array, with the mask to match), leaves `dth_nbuckets`,
the probe memory (hence every record list) and the buckets with their
`dthb_chain` and `dthb_len` unchanged, places every bucket on the chain of slot
`hash(key) & new_mask`, and for every key `dtrace_hash_lookup` and
`dtrace_hash_collisions` return the same result after the resize as before. -/
theorem C8_resize_preserves_lookups (s : State) (h : Reachable s) :
    ∃ s1, dtrace_hash_resize s = .ok s1 ∧
      s1.hash.dth_size = 2 * s.hash.dth_size ∧
      s1.hash.dth_tab.length = 2 * s.hash.dth_size ∧
      s1.hash.dth_mask = 2 * s.hash.dth_size - 1 ∧
      s1.hash.dth_nbuckets = s.hash.dth_nbuckets ∧
      s1.mem = s.mem ∧
      s1.hash.dth_tab.flatten.Perm s.hash.dth_tab.flatten ∧
      (∀ (i : Nat) (chain : List dtrace_hashbucket_t), s1.hash.dth_tab[i]? = some chain →
        ∀ b ∈ chain, ∀ a, b.dthb_chain = some a →
          DTRACE_HASHSTR (s.mem a) &&& (2 * s.hash.dth_size - 1) = i) ∧
      ∀ t : dtrace_probe_t,
        dtrace_hash_lookup s1 t = dtrace_hash_lookup s t ∧
        dtrace_hash_collisions s1 t = dtrace_hash_collisions s t := by
  obtain ⟨s1, hres, hmem, hsize, hnb, hperm, hinv⟩ := h.inv.resize
  have hmask : s1.hash.dth_mask = 2 * s.hash.dth_size - 1 := by
    rw [hinv.mask_eq, hsize]
  refine ⟨s1, hres, hsize, ?_, hmask, hnb, hmem, hperm, ?_, ?_⟩
  · rw [hinv.tab_len, hsize]
  · have := hinv.slot
    rw [hmem, hmask] at this
    exact this
  · intro t
    exact lookup_congr h.inv hinv (fun x => by rw [hmem]) hperm t

/-- Witness of C8: the resize of the table that holds "a" ... "e". -/
theorem C8_resize_preserves_lookups_witness :
    ∃ s, add_all ⟨dtrace_hash_create 0 8 16, abc_mem⟩ [0, 1, 2, 3, 4] = .ok s ∧
      Reachable s ∧
      ∃ s1, dtrace_hash_resize s = .ok s1 ∧
        s1.hash.dth_size = 2 * s.hash.dth_size ∧
        s1.hash.dth_tab.length = 2 * s.hash.dth_size ∧
        s1.hash.dth_mask = 2 * s.hash.dth_size - 1 ∧
        s1.hash.dth_nbuckets = s.hash.dth_nbuckets ∧
        s1.mem = s.mem ∧
        s1.hash.dth_tab.flatten.Perm s.hash.dth_tab.flatten ∧
        (∀ (i : Nat) (chain : List dtrace_hashbucket_t), s1.hash.dth_tab[i]? = some chain →
          ∀ b ∈ chain, ∀ a, b.dthb_chain = some a →
            DTRACE_HASHSTR (s.mem a) &&& (2 * s.hash.dth_size - 1) = i) ∧
        ∀ t : dtrace_probe_t,
          dtrace_hash_lookup s1 t = dtrace_hash_lookup s t ∧
          dtrace_hash_collisions s1 t = dtrace_hash_collisions s t := by
  have hr : Reachable ⟨dtrace_hash_create 0 8 16, abc_mem⟩ := Reachable.create 0 8 16 abc_mem
  have hs := reachable_of_add_all [0, 1, 2, 3, 4] hr (by decide)
    (fun r _ => unlinked_create 0 8 16 abc_mem r rfl rfl) rfl
  exact ⟨_, rfl, hs, C8_resize_preserves_lookups _ hs⟩

/-- A record stays linked, with its key, through steps that do not remove it. -/
theorem steps_keep_linked {r : Nat} {s1 s2 : State} (hsteps : StepsKeeping r s1 s2) :
    Inv s1 → Linked s1 r →
      Inv s2 ∧ Linked s2 r ∧ ∀ x, (s2.mem x).str = (s1.mem x).str := by
  induction hsteps with
  | refl => intro hs hl; exact ⟨hs, hl, fun x => rfl⟩
  | add _ hx hadd ih =>
    intro hs hl
    obtain ⟨hinv, hlinked, hstr⟩ := ih hs hl
    obtain ⟨s3, h3, hpost⟩ := hinv.add hx
    rw [hadd] at h3
    cases h3
    exact ⟨hpost.frame.inv, (hpost.frame.linked r).mpr (Or.inr hlinked),
      fun y => by rw [hpost.frame.str, hstr]⟩
  | remove _ hx hxr hrem ih =>
    intro hs hl
    obtain ⟨hinv, hlinked, hstr⟩ := ih hs hl
    obtain ⟨s3, h3, hpost⟩ := hinv.remove hx
    rw [hrem] at h3
    cases h3
    exact ⟨hpost.inv, (hpost.linked r).mpr ⟨fun e => hxr e.symm, hlinked⟩,
      fun y => by rw [hpost.str, hstr]⟩
  | resize _ hres ih =>
    intro hs hl
    obtain ⟨hinv, hlinked, hstr⟩ := ih hs hl
    obtain ⟨s3, h3, hmem, _, _, hperm, hinv3⟩ := hinv.resize
    rw [hres] at h3
    cases h3
    exact ⟨hinv3, (linked_congr hmem hperm r).mpr hlinked, fun y => by rw [hmem, hstr]⟩

/-- In a table that satisfies the invariant the lookup of the key of a linked
record returns a record with that key. -/
theorem Inv.lookup_linked {s : State} (hs : Inv s) {r : Nat} (hr : Linked s r)
    (t : dtrace_probe_t) (ht : cstr t.str = cstr (s.mem r).str) :
    ∃ a, dtrace_hash_lookup s t = .ok (some a) ∧ cstr (s.mem a).str = cstr t.str := by
  obtain ⟨b, hb, a, ha, hk⟩ := hs.linked_bucket hr
  rw [← ht] at hk
  refine ⟨a, ?_, ?_⟩
  · rw [hs.lookup_found t hb hk, ha]
  · obtain ⟨a1, ha1, _, hk1⟩ := hs.bucket_linked hb
    rw [ha] at ha1
    cases ha1
    rw [hk] at hk1
    exact (Option.some.inj hk1).symm

/-- C1: for every reachable table and every unlinked record `r` with key `k`,
`dtrace_hash_add(r)` returns, and after any further sequence of inserts of
unlinked records, removes of linked records other than `r`, and resizes,
`dtrace_hash_lookup` with a template whose key compares equal to `k` returns a
non-null record whose key compares equal to that of the template. -/
theorem C1_lookup_after_add (s : State) (r : Nat) (h : Reachable s) (hr : Unlinked s r) :
    ∃ s1, dtrace_hash_add s r = .ok s1 ∧
      ∀ s2, StepsKeeping r s1 s2 → ∀ t : dtrace_probe_t, strcmp t.str (s.mem r).str = 0 →
        ∃ a, dtrace_hash_lookup s2 t = .ok (some a) ∧ strcmp (s2.mem a).str t.str = 0 := by
  obtain ⟨s1, hadd, hpost⟩ := h.inv.add hr
  refine ⟨s1, hadd, ?_⟩
  intro s2 hsteps t ht
  obtain ⟨hinv, hlinked, hstr⟩ :=
    steps_keep_linked hsteps hpost.frame.inv ((hpost.frame.linked r).mpr (Or.inl rfl))
  rw [strcmp_eq_zero_iff] at ht
  obtain ⟨a, hlook, hkey⟩ := hinv.lookup_linked hlinked t
    (by rw [hstr, hpost.frame.str]; exact ht)
  exact ⟨a, hlook, (strcmp_eq_zero_iff _ _).mpr hkey⟩

/-- Witness of C1: "a" is inserted into the empty table, then "b" is inserted
and removed again; the lookup of "a" still returns a record with key "a". -/
theorem C1_lookup_after_add_witness :
    ∃ s1 s2 s3, dtrace_hash_add ⟨dtrace_hash_create 0 8 16, abc_mem⟩ 0 = .ok s1 ∧
      dtrace_hash_add s1 1 = .ok s2 ∧ dtrace_hash_remove s2 1 = .ok s3 ∧
      ∃ a, dtrace_hash_lookup s3 ⟨[97], none, none⟩ = .ok (some a) ∧
        strcmp (s3.mem a).str [97] = 0 := by
  have hr : Reachable ⟨dtrace_hash_create 0 8 16, abc_mem⟩ := Reachable.create 0 8 16 abc_mem
  obtain ⟨s1, h1, hC1⟩ := C1_lookup_after_add _ 0 hr (unlinked_create 0 8 16 abc_mem 0 rfl rfl)
  obtain ⟨s1a, h1a, p1⟩ := hr.inv.add (unlinked_create 0 8 16 abc_mem 0 rfl rfl)
  rw [h1] at h1a
  cases h1a
  obtain ⟨s2, h2, p2⟩ := p1.frame.inv.add
    (p1.frame.unlinked_other (unlinked_create 0 8 16 abc_mem 1 rfl rfl) (by decide))
  obtain ⟨s3, h3, _⟩ := p2.frame.inv.remove ((p2.frame.linked 1).mpr (Or.inl rfl))
  have hsteps : StepsKeeping 0 s1 s3 :=
    StepsKeeping.remove
      (StepsKeeping.add (StepsKeeping.refl s1)
        (p1.frame.unlinked_other (unlinked_create 0 8 16 abc_mem 1 rfl rfl) (by decide)) h2)
      ((p2.frame.linked 1).mpr (Or.inl rfl)) (by decide) h3
  exact ⟨s1, s2, s3, h1, h2, h3, hC1 s3 hsteps ⟨[97], none, none⟩ rfl⟩

theorem collisions_in_cons (mem : Nat → dtrace_probe_t) (b : dtrace_hashbucket_t)
    (R : List dtrace_hashbucket_t) (k : List Int) :
    collisions_in mem (b :: R) k =
      if bucket_key mem b = some k then b.dthb_len else collisions_in mem R k := by
  unfold collisions_in
  rw [find_key_cons]
  by_cases h : bucket_key mem b = some k
  · rw [if_pos h, if_pos h]
  · rw [if_neg h, if_neg h]

theorem collisions_in_none {mem : Nat → dtrace_probe_t} {L : List dtrace_hashbucket_t}
    {k : List Int} (h : ∀ b ∈ L, bucket_key mem b ≠ some k) : collisions_in mem L k = 0 := by
  unfold collisions_in
  cases hf : find_key mem L k with
  | none => rfl
  | some b => exact absurd (find_key_some hf).2 (h b (find_key_some hf).1)

/-- An insert raises the collision count of the key of the record by one and
leaves the collision counts of the other keys alone. -/
theorem AddPost.collisions {s s1 : State} {r : Nat} (hpost : AddPost s r s1) (hs : Inv s)
    (t : dtrace_probe_t) (n : Nat) (hn : dtrace_hash_collisions s t = .ok n) :
    dtrace_hash_collisions s1 t =
      .ok (n + if DTRACE_HASHEQ (s.mem r) t = true then 1 else 0) := by
  have hkey : ∀ m : Nat, bucket_key s1.mem ⟨some r, m⟩ = some (cstr (s.mem r).str) := by
    intro m
    simp [bucket_key, hpost.frame.str]
  have hiff : (some (cstr (s.mem r).str) = some (cstr t.str)) ↔
      DTRACE_HASHEQ (s.mem r) t = true := by
    rw [hasheq_iff]
    exact ⟨Option.some.inj, fun e => by rw [e]⟩
  have hfr : ∀ R, collisions_in s1.mem R (cstr t.str) = collisions_in s.mem R (cstr t.str) := by
    intro R
    unfold collisions_in
    rw [find_key_frame hpost.frame.str]
  rcases hpost.buckets with ⟨b, R, hp, hk, hp1, _, _⟩ | ⟨hno, hp1, _, _⟩
  · rw [hs.collisions_eq hp, collisions_in_cons, hk] at hn
    rw [hpost.frame.inv.collisions_eq hp1, collisions_in_cons, hkey, hfr]
    by_cases hc : DTRACE_HASHEQ (s.mem r) t = true
    · rw [if_pos (hiff.mpr hc)] at hn ⊢
      rw [if_pos hc]
      cases hn
      rfl
    · rw [if_neg (fun e => hc (hiff.mp e))] at hn ⊢
      rw [if_neg hc]
      cases hn
      rfl
  · rw [hs.collisions_eq (List.Perm.refl _)] at hn
    rw [hpost.frame.inv.collisions_eq hp1, collisions_in_cons, hkey, hfr]
    by_cases hc : DTRACE_HASHEQ (s.mem r) t = true
    · rw [if_pos (hiff.mpr hc), if_pos hc]
      have hz : collisions_in s.mem (all_buckets s) (cstr t.str) = 0 := by
        apply collisions_in_none
        intro b hb
        rw [← Option.some.inj (hiff.mpr hc)]
        exact hno b hb
      rw [hz] at hn
      cases hn
      rfl
    · rw [if_neg (fun e => hc (hiff.mp e)), if_neg hc]
      cases hn
      rfl

theorem add_all_collisions (t : dtrace_probe_t) (rs : List Nat) :
    ∀ (s : State) (n : Nat), Inv s → rs.Nodup → (∀ r ∈ rs, Unlinked s r) →
      dtrace_hash_collisions s t = .ok n →
      ∃ s1, add_all s rs = .ok s1 ∧
        dtrace_hash_collisions s1 t =
          .ok (n + rs.countP (fun r => DTRACE_HASHEQ (s.mem r) t)) := by
  induction rs with
  | nil => intro s n _ _ _ hn; exact ⟨s, rfl, by simpa using hn⟩
  | cons r rs ih =>
    intro s n hs hnd hun hn
    obtain ⟨s1, hadd, hpost⟩ := hs.add (hun r (List.mem_cons_self r rs))
    have hnd1 := List.nodup_cons.mp hnd
    obtain ⟨s2, hall, hcoll⟩ := ih s1 _ hpost.frame.inv hnd1.2
      (fun y hy => hpost.frame.unlinked_other (hun y (List.mem_cons_of_mem r hy))
        (fun e => hnd1.1 (by rw [← e]; exact hy)))
      (hpost.collisions hs t n hn)
    refine ⟨s2, by simp only [add_all, hadd, hall], ?_⟩
    rw [hcoll]
    have hcongr : rs.countP (fun y => DTRACE_HASHEQ (s1.mem y) t) =
        rs.countP (fun y => DTRACE_HASHEQ (s.mem y) t) := by
      congr 1
      funext y
      simp only [DTRACE_HASHEQ, hpost.frame.str]
    rw [hcongr, List.countP_cons]
    congr 1
    omega

/-- C2: for every reachable table that holds no record with key `k`, after
distinct unlinked records have been inserted with `dtrace_hash_add` (with
records of other keys among them, and none removed), every insert returns and
`dtrace_hash_collisions` for key `k` returns exactly the number `N` of inserted
records whose key compares equal to `k`. -/
theorem C2_collisions_counts_inserts (s : State) (rs : List Nat) (t : dtrace_probe_t)
    (h : Reachable s) (hnd : rs.Nodup) (hun : ∀ r ∈ rs, Unlinked s r)
    (hk : ∀ x, Linked s x → DTRACE_HASHEQ (s.mem x) t = false) :
    ∃ s1, add_all s rs = .ok s1 ∧
      dtrace_hash_collisions s1 t =
        .ok (rs.countP (fun r => DTRACE_HASHEQ (s.mem r) t)) := by
  have h0 : dtrace_hash_collisions s t = .ok 0 := h.inv.collisions_none t (h.inv.no_bucket hk)
  obtain ⟨s1, hall, hcoll⟩ := add_all_collisions t rs s 0 h.inv hnd hun h0
  exact ⟨s1, hall, by rw [hcoll, Nat.zero_add]⟩

/-- Witness of C2: three records with key "x" inserted into the empty table. -/
theorem C2_collisions_counts_inserts_witness :
    Reachable ⟨dtrace_hash_create 0 8 16, xx_mem⟩ ∧ [0, 1, 2].Nodup ∧
    (∀ r ∈ [0, 1, 2], Unlinked ⟨dtrace_hash_create 0 8 16, xx_mem⟩ r) ∧
    (∀ x, Linked ⟨dtrace_hash_create 0 8 16, xx_mem⟩ x →
      DTRACE_HASHEQ (xx_mem x) ⟨[120], none, none⟩ = false) ∧
    ∃ s1, add_all ⟨dtrace_hash_create 0 8 16, xx_mem⟩ [0, 1, 2] = .ok s1 ∧
      dtrace_hash_collisions s1 ⟨[120], none, none⟩ =
        .ok ([0, 1, 2].countP (fun r => DTRACE_HASHEQ (xx_mem r) ⟨[120], none, none⟩)) :=
  have hl : ∀ x, Linked ⟨dtrace_hash_create 0 8 16, xx_mem⟩ x →
      DTRACE_HASHEQ (xx_mem x) ⟨[120], none, none⟩ = false := fun x hx =>
    absurd hx (unlinked_create 0 8 16 xx_mem x rfl rfl).2.2
  ⟨Reachable.create 0 8 16 xx_mem, by decide,
    fun r _ => unlinked_create 0 8 16 xx_mem r rfl rfl, hl,
    C2_collisions_counts_inserts _ [0, 1, 2] ⟨[120], none, none⟩
      (Reachable.create 0 8 16 xx_mem) (by decide)
      (fun r _ => unlinked_create 0 8 16 xx_mem r rfl rfl) hl⟩

/-- Distinct linked records can be removed one after the other, in any order;
what stays linked are the other records. -/
theorem remove_all_spec (rs : List Nat) :
    ∀ (s : State), Inv s → rs.Nodup → (∀ r ∈ rs, Linked s r) →
      ∃ s1, remove_all s rs = .ok s1 ∧ Inv s1 ∧
        (∀ x, (s1.mem x).str = (s.mem x).str) ∧
        ∀ x, Linked s1 x ↔ Linked s x ∧ x ∉ rs := by
  induction rs with
  | nil => intro s hs _ _; exact ⟨s, rfl, hs, fun x => rfl, fun x => by simp⟩
  | cons r rs ih =>
    intro s hs hnd hl
    obtain ⟨s1, hrem, hpost⟩ := hs.remove (hl r (List.mem_cons_self r rs))
    have hnd1 := List.nodup_cons.mp hnd
    obtain ⟨s2, hall, hinv2, hstr2, hlinked2⟩ := ih s1 hpost.inv hnd1.2
      (fun y hy => (hpost.linked y).mpr
        ⟨fun e => hnd1.1 (by rw [← e]; exact hy), hl y (List.mem_cons_of_mem r hy)⟩)
    refine ⟨s2, by simp only [remove_all, hrem, hall], hinv2,
      fun x => by rw [hstr2, hpost.str], ?_⟩
    intro x
    rw [hlinked2, hpost.linked, List.mem_cons]
    constructor
    · rintro ⟨⟨hxr, hx⟩, hxrs⟩
      exact ⟨hx, fun e => e.elim hxr hxrs⟩
    · rintro ⟨hx, hn⟩
      exact ⟨⟨fun e => hn (Or.inl e), hx⟩, fun e => hn (Or.inr e)⟩

/-- The remove of the only record of a key frees the bucket of that key. -/
theorem Inv.remove_last {s : State} (hs : Inv s) {r : Nat} (hr : Linked s r)
    (honly : ∀ x, Linked s x → DTRACE_HASHEQ (s.mem x) (s.mem r) = true → x = r) :
    ∃ s1, dtrace_hash_remove s r = .ok s1 ∧
      s1.hash.dth_nbuckets + 1 = s.hash.dth_nbuckets := by
  obtain ⟨s1, hrem, hpost⟩ := hs.remove hr
  refine ⟨s1, hrem, ?_⟩
  obtain ⟨b, R, l1, l2, hp, hl, hcase⟩ := hpost.buckets
  rcases hcase with ⟨_, _, hnb⟩ | ⟨hne, _⟩
  · exact hnb
  · exfalso
    obtain ⟨x, hx⟩ := List.exists_mem_of_ne_nil _ hne
    have hxl : x ∈ l1 ++ r :: l2 := by
      rcases List.mem_append.mp hx with e | e
      · exact List.mem_append_left _ e
      · exact List.mem_append_right _ (List.mem_cons_of_mem r e)
    have hrl : r ∈ l1 ++ r :: l2 := List.mem_append_right _ (List.mem_cons_self r l2)
    have hlx : Linked s x :=
      (hs.linked_iff x).mpr ⟨b, hp.mem_iff.mpr (List.mem_cons_self b R), _, hl, hxl⟩
    have hkx : cstr (s.mem x).str = cstr (s.mem r).str :=
      Option.some.inj ((hl.keys x hxl).trans (hl.keys r hrl).symm)
    have hxr : x = r := honly x hlx ((hasheq_iff _ _).mpr hkx)
    have hnd := hl.nodup
    rw [List.nodup_append] at hnd
    rw [hxr] at hx
    rcases List.mem_append.mp hx with e | e
    · exact hnd.2.2 e (List.mem_cons_self r l2)
    · exact (List.nodup_cons.mp hnd.2.1).1 e

/-- C5: for every reachable table and every key `k`: once every record linked
under `k` has been removed with `dtrace_hash_remove`, in any order (and
possibly with removes of other records), `dtrace_hash_collisions(k)` returns 0,
`dtrace_hash_lookup(k)` returns not-found and no bucket whose key equals `k`
remains on any slot chain; the removal of the last record of a key decrements
`dth_nbuckets` by exactly one; and insert-then-remove of a record whose key is
not in the table (as on an empty table) restores `dth_nbuckets`. -/
theorem C5_remove_every_record_of_key (s : State) (h : Reachable s) :
    (∀ (rs : List Nat) (t : dtrace_probe_t), rs.Nodup → (∀ r ∈ rs, Linked s r) →
      (∀ x, Linked s x → DTRACE_HASHEQ (s.mem x) t = true → x ∈ rs) →
      ∃ s1, remove_all s rs = .ok s1 ∧
        dtrace_hash_collisions s1 t = .ok 0 ∧
        dtrace_hash_lookup s1 t = .ok none ∧
        ∀ b ∈ s1.hash.dth_tab.flatten, ∀ a, b.dthb_chain = some a →
          DTRACE_HASHEQ (s1.mem a) t = false) ∧
    (∀ r, Linked s r →
      (∀ x, Linked s x → DTRACE_HASHEQ (s.mem x) (s.mem r) = true → x = r) →
      ∃ s1, dtrace_hash_remove s r = .ok s1 ∧
        s1.hash.dth_nbuckets + 1 = s.hash.dth_nbuckets) ∧
    (∀ r, Unlinked s r →
      (∀ x, Linked s x → DTRACE_HASHEQ (s.mem x) (s.mem r) = false) →
      ∃ s1 s2, dtrace_hash_add s r = .ok s1 ∧ dtrace_hash_remove s1 r = .ok s2 ∧
        s1.hash.dth_nbuckets = s.hash.dth_nbuckets + 1 ∧
        s2.hash.dth_nbuckets = s.hash.dth_nbuckets) := by
  refine ⟨?_, fun r hr honly => h.inv.remove_last hr honly, ?_⟩
  · intro rs t hnd hl hall
    obtain ⟨s1, hrem, hinv, hstr, hlinked⟩ := remove_all_spec rs s h.inv hnd hl
    have hnone : ∀ x, Linked s1 x → DTRACE_HASHEQ (s1.mem x) t = false := by
      intro x hx
      obtain ⟨hxs, hxrs⟩ := (hlinked x).mp hx
      cases hc : DTRACE_HASHEQ (s1.mem x) t with
      | false => rfl
      | true =>
        exfalso
        apply hxrs
        apply hall x hxs
        simp only [DTRACE_HASHEQ, hstr] at hc
        exact hc
    have hnb := hinv.no_bucket hnone
    refine ⟨s1, hrem, hinv.collisions_none t hnb, hinv.lookup_none t hnb, ?_⟩
    intro b hb a ha
    cases hc : DTRACE_HASHEQ (s1.mem a) t with
    | false => rfl
    | true => exact absurd ((bucket_key_eq_iff _ _ _).mpr ⟨a, ha, hc⟩) (hnb b hb)
  · intro r hr hnokey
    obtain ⟨s1, hadd, hpost⟩ := h.inv.add hr
    have hnb1 : s1.hash.dth_nbuckets = s.hash.dth_nbuckets + 1 := by
      rcases hpost.buckets with ⟨b, R, hp, hk, _⟩ | ⟨_, _, hnb, _⟩
      · exact absurd hk
          (h.inv.no_bucket hnokey b (hp.mem_iff.mpr (List.mem_cons_self b R)))
      · exact hnb
    have honly : ∀ x, Linked s1 x → DTRACE_HASHEQ (s1.mem x) (s1.mem r) = true → x = r := by
      intro x hx hc
      rcases (hpost.frame.linked x).mp hx with e | e
      · exact e
      · simp only [DTRACE_HASHEQ, hpost.frame.str] at hc
        have := hnokey x e
        simp only [DTRACE_HASHEQ] at this
        rw [this] at hc
        cases hc
    obtain ⟨s2, hrem, hnb2⟩ :=
      hpost.frame.inv.remove_last ((hpost.frame.linked r).mpr (Or.inl rfl)) honly
    exact ⟨s1, s2, hadd, hrem, hnb1, by omega⟩

theorem abc_hasheq (x y : Nat) :
    DTRACE_HASHEQ (abc_mem x) (abc_mem y) = true ↔ x = y := by
  simp [DTRACE_HASHEQ, abc_mem, strcmp]
  constructor
  · intro h
    by_contra hne
    have := h hne
    omega
  · intro h hne
    exact absurd h hne

/-- Witness of C5: from the table that holds "a" and "b", first both records
are removed; then (from the same table) "b" alone is removed; then "c" is
inserted and removed again. -/
theorem C5_remove_every_record_of_key_witness :
    ∃ s s1 s2 s3 s4, add_all ⟨dtrace_hash_create 0 8 16, abc_mem⟩ [0, 1] = .ok s ∧
      remove_all s [1, 0] = .ok s1 ∧
      dtrace_hash_collisions s1 ⟨[97], none, none⟩ = .ok 0 ∧
      dtrace_hash_lookup s1 ⟨[97], none, none⟩ = .ok none ∧
      dtrace_hash_remove s 1 = .ok s2 ∧
      s2.hash.dth_nbuckets + 1 = s.hash.dth_nbuckets ∧
      dtrace_hash_add s 2 = .ok s3 ∧ dtrace_hash_remove s3 2 = .ok s4 ∧
      s4.hash.dth_nbuckets = s.hash.dth_nbuckets := by
  have hr : Reachable ⟨dtrace_hash_create 0 8 16, abc_mem⟩ := Reachable.create 0 8 16 abc_mem
  have hun : ∀ r, Unlinked ⟨dtrace_hash_create 0 8 16, abc_mem⟩ r :=
    fun r => unlinked_create 0 8 16 abc_mem r rfl rfl
  obtain ⟨s, hs, _, hstr, hlinked, hkeep⟩ :=
    add_all_spec [0, 1] _ hr.inv (by decide) (fun r _ => hun r)
  have hreach : Reachable s := reachable_of_add_all [0, 1] hr (by decide) (fun r _ => hun r) hs
  have hl : ∀ x, Linked s x ↔ x = 0 ∨ x = 1 := by
    intro x
    rw [hlinked]
    constructor
    · rintro (e | e)
      · simpa using e
      · exact absurd e (hun x).2.2
    · intro e
      left
      simpa using e
  have hkey : ∀ x y, DTRACE_HASHEQ (s.mem x) (abc_mem y) = true ↔ x = y := by
    intro x y
    rw [← abc_hasheq x y]
    simp only [DTRACE_HASHEQ, hstr]
  obtain ⟨hA, hB, hC⟩ := C5_remove_every_record_of_key s hreach
  obtain ⟨s1, h1, hc1, hl1, _⟩ := hA [1, 0] ⟨[97], none, none⟩ (by decide)
    (fun r hr => (hl r).mpr (by simp at hr; omega))
    (fun x _ hx => by
      have : x = 0 := (hkey x 0).mp hx
      simp [this])
  obtain ⟨s2, h2, hn2⟩ := hB 1 ((hl 1).mpr (Or.inr rfl))
    (fun x _ hx => by
      have hx1 : DTRACE_HASHEQ (s.mem x) (abc_mem 1) = true := by
        simp only [DTRACE_HASHEQ, hstr] at hx ⊢
        exact hx
      exact (hkey x 1).mp hx1)
  obtain ⟨s3, s4, h3, h4, _, hn4⟩ := hC 2 (hkeep 2 (by decide) (hun 2))
    (fun x hx => by
      cases hc : DTRACE_HASHEQ (s.mem x) (s.mem 2) with
      | false => rfl
      | true =>
        have hx2 : DTRACE_HASHEQ (s.mem x) (abc_mem 2) = true := by
          simp only [DTRACE_HASHEQ, hstr] at hc ⊢
          exact hc
        have := (hkey x 2).mp hx2
        rcases (hl x).mp hx with e | e <;> omega)
  exact ⟨s, s1, s2, s3, s4, hs, h1, hc1, hl1, h2, hn2, h3, h4, hn4⟩

theorem not_hasBucket_iff (s : State) (p : dtrace_probe_t) :
    ¬ HasBucket s p ↔ ∀ b ∈ all_buckets s, bucket_key s.mem b ≠ some (cstr p.str) := by
  unfold HasBucket
  constructor
  · intro h b hb hk
    exact h ⟨b, hb, (bucket_key_eq_iff _ _ _).mp hk⟩
  · rintro h ⟨b, hb, hk⟩
    exact h b hb ((bucket_key_eq_iff _ _ _).mpr hk)

/-- The insert of a key that has no bucket: `dth_nbuckets` and `dth_size` move
by `grow_step`. -/
theorem AddPost.fresh {s s1 : State} {r : Nat} (hpost : AddPost s r s1)
    (hno : ¬ HasBucket s (s.mem r)) :
    (all_buckets s1).Perm (⟨some r, 1⟩ :: all_buckets s) ∧
      (s1.hash.dth_nbuckets, s1.hash.dth_size) =
        grow_step (s.hash.dth_nbuckets, s.hash.dth_size) := by
  rw [not_hasBucket_iff] at hno
  rcases hpost.buckets with ⟨b, R, hp, hk, _⟩ | ⟨_, hp, hnb, hsz⟩
  · exact absurd hk (hno b (hp.mem_iff.mpr (List.mem_cons_self b R)))
  · exact ⟨hp, by simp only [grow_step, hnb, hsz]⟩

theorem add_all_fresh (rs : List Nat) :
    ∀ (s : State), Inv s → rs.Nodup → (∀ r ∈ rs, Unlinked s r) →
      rs.Pairwise (fun x y => DTRACE_HASHEQ (s.mem x) (s.mem y) = false) →
      (∀ r ∈ rs, ¬ HasBucket s (s.mem r)) →
      ∃ s1, add_all s rs = .ok s1 ∧
        (s1.hash.dth_nbuckets, s1.hash.dth_size) =
          grow_step^[rs.length] (s.hash.dth_nbuckets, s.hash.dth_size) := by
  induction rs with
  | nil => intro s _ _ _ _ _; exact ⟨s, rfl, rfl⟩
  | cons r rs ih =>
    intro s hs hnd hun hpw hno
    obtain ⟨s1, hadd, hpost⟩ := hs.add (hun r (List.mem_cons_self r rs))
    have hnd1 := List.nodup_cons.mp hnd
    have hpw1 := List.pairwise_cons.mp hpw
    obtain ⟨hp, hgrow⟩ := hpost.fresh (hno r (List.mem_cons_self r rs))
    have heq : ∀ x y, DTRACE_HASHEQ (s1.mem x) (s1.mem y) = DTRACE_HASHEQ (s.mem x) (s.mem y) := by
      intro x y
      simp only [DTRACE_HASHEQ, hpost.frame.str]
    obtain ⟨s2, hall, hres⟩ := ih s1 hpost.frame.inv hnd1.2
      (fun y hy => hpost.frame.unlinked_other (hun y (List.mem_cons_of_mem r hy))
        (fun e => hnd1.1 (by rw [← e]; exact hy)))
      (hpw1.2.imp (fun {x y} hxy => by rw [heq]; exact hxy))
      (fun y hy => by
        rw [not_hasBucket_iff]
        intro b hb hk
        rw [bucket_key_frame hpost.frame.str, hpost.frame.str] at hk
        rcases List.mem_cons.mp (hp.mem_iff.mp hb) with e | e
        · rw [e] at hk
          have hry := hpw1.1 y hy
          have : DTRACE_HASHEQ (s.mem r) (s.mem y) = true :=
            (bucket_key_eq_iff s.mem ⟨some r, 1⟩ (s.mem y)).mp hk |>.elim
              (fun a ha => by
                have := ha.1
                cases this
                exact ha.2)
          rw [hry] at this
          cases this
        · exact (not_hasBucket_iff s (s.mem y)).mp (hno y (List.mem_cons_of_mem r hy)) b e hk)
    refine ⟨s2, by simp only [add_all, hadd, hall], ?_⟩
    rw [hres, hgrow, List.length_cons, Function.iterate_succ_apply]

/-- C6 (amended): whenever `dtrace_hash_add` is called on a reachable table with
an unlinked record whose key has no bucket and `dth_nbuckets >= 2 * dth_size + 2`
(which is the test `(dth_nbuckets >> 1) > dth_size` of the code), the insert
returns with `dth_size` and the slot array doubled and the record linked. -/
theorem C6_add_doubles_when_due (s : State) (r : Nat) (h : Reachable s)
    (hr : Unlinked s r) (hno : ¬ HasBucket s (s.mem r))
    (hsz : s.hash.dth_nbuckets ≥ 2 * s.hash.dth_size + 2) :
    (s.hash.dth_nbuckets >>> 1) > s.hash.dth_size ∧
    ∃ s1, dtrace_hash_add s r = .ok s1 ∧
      s1.hash.dth_size = 2 * s.hash.dth_size ∧
      s1.hash.dth_tab.length = 2 * s.hash.dth_size ∧
      Linked s1 r := by
  have hshift : (s.hash.dth_nbuckets >>> 1) > s.hash.dth_size := by
    rw [Nat.shiftRight_eq_div_pow]
    omega
  obtain ⟨s1, hadd, hpost⟩ := h.inv.add hr
  obtain ⟨_, hgrow⟩ := hpost.fresh hno
  have hsize : s1.hash.dth_size = 2 * s.hash.dth_size := by
    have := congrArg Prod.snd hgrow
    simp only [grow_step, if_pos hshift] at this
    exact this
  exact ⟨hshift, s1, hadd, hsize, by rw [hpost.frame.inv.tab_len, hsize],
    (hpost.frame.linked r).mpr (Or.inl rfl)⟩

/-- Counterexample to C6 as stated: with the keys "a", "b", "c" in a table of one
slot, `dth_nbuckets = 3 > 2 * dth_size`, the key "d" has no bucket, and the
insert of "d" leaves `dth_size` at 1. -/
theorem C6_counterexample :
    ∃ s s1, add_all ⟨dtrace_hash_create 0 8 16, abc_mem⟩ [0, 1, 2] = .ok s ∧
      s.hash.dth_nbuckets > 2 * s.hash.dth_size ∧
      dtrace_hash_lookup s (s.mem 3) = .ok none ∧
      dtrace_hash_add s 3 = .ok s1 ∧
      s1.hash.dth_size = s.hash.dth_size ∧ s1.hash.dth_size ≠ 2 * s.hash.dth_size :=
  ⟨_, _, rfl, by decide, rfl, rfl, rfl, by decide⟩

/-- Witness of C6 (amended): the table with the keys "a" ... "d" in one slot
(`dth_nbuckets = 4`), and the record with key "e". -/
theorem C6_add_doubles_when_due_witness :
    ∃ s, add_all ⟨dtrace_hash_create 0 8 16, abc_mem⟩ [0, 1, 2, 3] = .ok s ∧
      Reachable s ∧ Unlinked s 4 ∧ ¬ HasBucket s (s.mem 4) ∧
      s.hash.dth_nbuckets ≥ 2 * s.hash.dth_size + 2 ∧
      ((s.hash.dth_nbuckets >>> 1) > s.hash.dth_size ∧
      ∃ s1, dtrace_hash_add s 4 = .ok s1 ∧
        s1.hash.dth_size = 2 * s.hash.dth_size ∧
        s1.hash.dth_tab.length = 2 * s.hash.dth_size ∧
        Linked s1 4) := by
  have hr : Reachable ⟨dtrace_hash_create 0 8 16, abc_mem⟩ := Reachable.create 0 8 16 abc_mem
  have hun : ∀ r, Unlinked ⟨dtrace_hash_create 0 8 16, abc_mem⟩ r :=
    fun r => unlinked_create 0 8 16 abc_mem r rfl rfl
  obtain ⟨s, hs, hinv, hstr, hlinked, hkeep⟩ :=
    add_all_spec [0, 1, 2, 3] _ hr.inv (by decide) (fun r _ => hun r)
  have hreach : Reachable s :=
    reachable_of_add_all [0, 1, 2, 3] hr (by decide) (fun r _ => hun r) hs
  have hnum : (match add_all ⟨dtrace_hash_create 0 8 16, abc_mem⟩ [0, 1, 2, 3] with
      | .ok s => (s.hash.dth_nbuckets, s.hash.dth_size)
      | .error _ => (0, 0)) = (4, 1) := rfl
  rw [hs] at hnum
  have hnb : s.hash.dth_nbuckets = 4 := congrArg Prod.fst hnum
  have hsize : s.hash.dth_size = 1 := congrArg Prod.snd hnum
  have hu4 : Unlinked s 4 := hkeep 4 (by decide) (hun 4)
  have hno : ¬ HasBucket s (s.mem 4) := by
    rw [not_hasBucket_iff]
    intro b hb hk
    obtain ⟨a, _, hla, hka⟩ := hinv.bucket_linked hb
    rw [hka] at hk
    have hk1 : DTRACE_HASHEQ (abc_mem a) (abc_mem 4) = true := by
      rw [hasheq_iff, ← hstr a, ← hstr 4]
      exact Option.some.inj hk
    have ha4 : a = 4 := (abc_hasheq a 4).mp hk1
    rcases (hlinked a).mp hla with e | e
    · rw [ha4] at e
      simp at e
    · exact (hun a).2.2 e
  exact ⟨s, hs, hreach, hu4, hno, by rw [hnb, hsize],
    C6_add_doubles_when_due s 4 hreach hu4 hno (by rw [hnb, hsize])⟩

/-- C7 (amended): starting from a freshly created table (1 slot), inserts of
records with distinct keys trigger the first growth at the 5th distinct-key
insert: after the 3rd and after the 4th insert `dth_size` is still 1, after
the 5th it is 2. -/
theorem C7_first_growth_at_fifth_key (stroffs nextoffs prevoffs : Nat)
    (mem : Nat → dtrace_probe_t) (rs : List Nat) (hlen : rs.length = 5) (hnd : rs.Nodup)
    (hun : ∀ r ∈ rs, (mem r).next = none ∧ (mem r).prev = none)
    (hkeys : rs.Pairwise (fun x y => DTRACE_HASHEQ (mem x) (mem y) = false)) :
    ∃ s3 s4 s5,
      add_all ⟨dtrace_hash_create stroffs nextoffs prevoffs, mem⟩ (rs.take 3) = .ok s3 ∧
      s3.hash.dth_size = 1 ∧
      add_all ⟨dtrace_hash_create stroffs nextoffs prevoffs, mem⟩ (rs.take 4) = .ok s4 ∧
      s4.hash.dth_size = 1 ∧
      add_all ⟨dtrace_hash_create stroffs nextoffs prevoffs, mem⟩ rs = .ok s5 ∧
      s5.hash.dth_size = 2 := by
  have hinv := Inv.create stroffs nextoffs prevoffs mem
  have hfresh : ∀ n, ∃ s1,
      add_all ⟨dtrace_hash_create stroffs nextoffs prevoffs, mem⟩ (rs.take n) = .ok s1 ∧
      (s1.hash.dth_nbuckets, s1.hash.dth_size) = grow_step^[(rs.take n).length] (0, 1) := by
    intro n
    apply add_all_fresh (rs.take n) _ hinv
    · exact hnd.sublist (List.take_sublist n rs)
    · intro r hr
      have := hun r (List.mem_of_mem_take hr)
      exact unlinked_create _ _ _ mem r this.1 this.2
    · exact hkeys.sublist (List.take_sublist n rs)
    · intro r _
      rw [not_hasBucket_iff]
      intro b hb
      simp [all_buckets, dtrace_hash_create] at hb
  obtain ⟨s3, h3, hn3⟩ := hfresh 3
  obtain ⟨s4, h4, hn4⟩ := hfresh 4
  obtain ⟨s5, h5, hn5⟩ := hfresh 5
  rw [List.length_take, hlen] at hn3 hn4 hn5
  rw [List.take_of_length_le (by omega)] at h5
  refine ⟨s3, s4, s5, h3, ?_, h4, ?_, h5, ?_⟩
  · exact congrArg Prod.snd hn3
  · exact congrArg Prod.snd hn4
  · exact congrArg Prod.snd hn5

/-- Witness of C7 (amended): the keys "a", "b", "c", "d", "e". -/
theorem C7_first_growth_at_fifth_key_witness :
    [0, 1, 2, 3, 4].length = 5 ∧ [0, 1, 2, 3, 4].Nodup ∧
    (∀ r ∈ [0, 1, 2, 3, 4], (abc_mem r).next = none ∧ (abc_mem r).prev = none) ∧
    [0, 1, 2, 3, 4].Pairwise (fun x y => DTRACE_HASHEQ (abc_mem x) (abc_mem y) = false) ∧
    ∃ s3 s4 s5,
      add_all ⟨dtrace_hash_create 0 8 16, abc_mem⟩ ([0, 1, 2, 3, 4].take 3) = .ok s3 ∧
      s3.hash.dth_size = 1 ∧
      add_all ⟨dtrace_hash_create 0 8 16, abc_mem⟩ ([0, 1, 2, 3, 4].take 4) = .ok s4 ∧
      s4.hash.dth_size = 1 ∧
      add_all ⟨dtrace_hash_create 0 8 16, abc_mem⟩ [0, 1, 2, 3, 4] = .ok s5 ∧
      s5.hash.dth_size = 2 :=
  ⟨rfl, by decide, fun r _ => ⟨rfl, rfl⟩, by decide,
    C7_first_growth_at_fifth_key 0 8 16 abc_mem [0, 1, 2, 3, 4] rfl (by decide)
      (fun r _ => ⟨rfl, rfl⟩) (by decide)⟩

/-- Counterexample to C7 as stated: after the inserts of "a", "b", "c", and also
after the insert of a fourth key "d", `dth_size` is 1, not 2. -/
theorem C7_counterexample :
    ∃ s3 s4, add_all ⟨dtrace_hash_create 0 8 16, abc_mem⟩ [0, 1, 2] = .ok s3 ∧
      s3.hash.dth_size = 1 ∧ s3.hash.dth_size ≠ 2 ∧
      add_all s3 [3] = .ok s4 ∧
      s4.hash.dth_size = 1 ∧ s4.hash.dth_size ≠ 2 :=
  ⟨_, _, rfl, rfl, by decide, rfl, rfl, by decide⟩

/-- C3: the code at the scenario of the claim. After the inserts of R1 = 0 and
R2 = 1, both with key "x", `dtrace_hash_collisions("x")` is 2; after
`dtrace_hash_remove(R2)` the lookup returns R1 but `dtrace_hash_collisions("x")`
is still 2 (the claim says 1): the remove does not decrement `dthb_len`. -/
theorem C3_collisions_stale_after_remove :
    ∃ s2 s3, add_all ⟨dtrace_hash_create 0 8 16, xx_mem⟩ [0, 1] = .ok s2 ∧
      dtrace_hash_collisions s2 ⟨[120], none, none⟩ = .ok 2 ∧
      dtrace_hash_remove s2 1 = .ok s3 ∧
      dtrace_hash_lookup s3 ⟨[120], none, none⟩ = .ok (some 0) ∧
      dtrace_hash_collisions s3 ⟨[120], none, none⟩ = .ok 2 :=
  ⟨_, _, rfl, rfl, rfl, rfl, rfl⟩

/-- C4: the code at a failing input. After the inserts of records 0 and 1 with
key "x" and the remove of record 1, the only bucket has `dthb_len = 2` while
the walk from its `dthb_chain` through the `next` links visits the single
record 0: `dthb_len` is not the number of records of the bucket. -/
theorem C4_len_stale_after_remove :
    ∃ s2 s3, add_all ⟨dtrace_hash_create 0 8 16, xx_mem⟩ [0, 1] = .ok s2 ∧
      dtrace_hash_remove s2 1 = .ok s3 ∧
      s3.hash.dth_tab = [[⟨some 0, 2⟩]] ∧
      IsList s3.mem (some 0) [0] ∧ [0].length ≠ 2 :=
  ⟨_, _, rfl, rfl, rfl, ⟨rfl, rfl⟩, by decide⟩

/-! ## The string hash -/

theorem hash_step_eq_spec (h : Nat) (c : Int) :
    hash_step h c = spec_hash_round h (c % 2 ^ 32).toNat := by
  unfold hash_step spec_hash_round
  rw [Nat.mod_add_mod]

theorem hash_loop_eq_spec (p : List Int) :
    ∀ h, dtrace_hash_str_loop h p =
      ((cstr p).map (fun c => (c % 2 ^ 32).toNat)).foldl spec_hash_round h := by
  induction p with
  | nil => intro h; rfl
  | cons c p ih =>
    intro h
    by_cases hc : c = 0
    · simp [dtrace_hash_str_loop, cstr, hc]
    · simp only [dtrace_hash_str_loop, cstr, hc, if_false, List.map_cons, List.foldl_cons]
      rw [ih, hash_step_eq_spec]

theorem testBit_top_nibble (i : Nat) :
    (0xf0000000 : Nat).testBit i = (decide (28 ≤ i) && decide (i < 32)) := by
  have h : (0xf0000000 : Nat) = (2 ^ 4 - 1) <<< 28 := by decide
  rw [h, Nat.testBit_shiftLeft, Nat.testBit_two_pow_sub_one]
  by_cases h1 : 28 ≤ i
  · by_cases h2 : i < 32
    · have : i - 28 < 4 := by omega
      simp [h1, h2, this]
    · have : ¬ i - 28 < 4 := by omega
      simp [h1, h2, this]
  · simp [h1]

theorem testBit_all_ones (i : Nat) : (0xffffffff : Nat).testBit i = decide (i < 32) := by
  have h : (0xffffffff : Nat) = 2 ^ 32 - 1 := by decide
  rw [h, Nat.testBit_two_pow_sub_one]

/-- Clearing from `x` the top nibble of `h1`, with which `x` agrees from bit 28
on, leaves a number below 2^28. -/
theorem clear_top_nibble (h1 x : Nat) (hlt : h1 < 2 ^ 32)
    (hx : ∀ i, 28 ≤ i → x.testBit i = h1.testBit i) :
    x &&& (0xffffffff ^^^ (h1 &&& 0xf0000000)) < 2 ^ 28 := by
  apply Nat.lt_pow_two_of_testBit
  intro i hi
  rw [Nat.testBit_and, Nat.testBit_xor, Nat.testBit_and, testBit_top_nibble, testBit_all_ones,
    hx i hi]
  by_cases h32 : i < 32
  · have h28 : 28 ≤ i := hi
    simp [h32, h28]
  · have hfalse : h1.testBit i = false := by
      apply Nat.testBit_lt_two_pow
      exact lt_of_lt_of_le hlt (Nat.pow_le_pow_right (by decide) (by omega))
    simp [hfalse]

theorem hash_round_lt (h c : Nat) : spec_hash_round h c < 2 ^ 28 := by
  unfold spec_hash_round
  simp only
  apply clear_top_nibble
  · exact Nat.mod_lt _ (by decide)
  · intro i hi
    split
    · rw [Nat.testBit_xor, Nat.testBit_shiftRight, Nat.testBit_and, testBit_top_nibble]
      have : ¬ 24 + i < 32 := by omega
      simp [this]
    · rfl

theorem hash_loop_lt (p : List Int) :
    ∀ h, h < 2 ^ 28 → dtrace_hash_str_loop h p < 2 ^ 28 := by
  induction p with
  | nil => intro h hh; exact hh
  | cons c p ih =>
    intro h hh
    unfold dtrace_hash_str_loop
    split
    · exact hh
    · apply ih
      rw [hash_step_eq_spec]
      exact hash_round_lt _ _

/-- C14 (amended): for every key string `dtrace_hash_str` computes, starting from
0 and for each `char` `c` of the key in order, converted to a 32-bit unsigned
number as C converts it (a negative `char`, that is a byte from 0x80 on where
`char` is signed, becomes `c + 2^32`), over 32-bit unsigned arithmetic,
`h := (h << 4) + c`, `g := h & 0xf0000000`,
`if g != 0 then h := h ^ (g >> 24)`, `h := h & ~g`; for a key without a
negative `char` (every key of bytes below 0x80, and every key where `char` is
unsigned) `c` is the byte; the value returned has its top nibble clear (is
below 2^28), and the empty key hashes to 0. -/
theorem C14_hash_str_rounds_and_bound :
    (∀ p : List Int,
      dtrace_hash_str p = spec_hash ((cstr p).map (fun c => (c % 2 ^ 32).toNat))) ∧
    (∀ p : List Int, (∀ c ∈ cstr p, 0 ≤ c ∧ c < 256) →
      dtrace_hash_str p = spec_hash ((cstr p).map char_byte)) ∧
    (∀ p : List Int, dtrace_hash_str p < 2 ^ 28) ∧
    dtrace_hash_str [] = 0 := by
  refine ⟨fun p => hash_loop_eq_spec p 0, ?_, fun p => hash_loop_lt p 0 (by decide), rfl⟩
  intro p hp
  have e : dtrace_hash_str p = spec_hash ((cstr p).map (fun c => (c % 2 ^ 32).toNat)) :=
    hash_loop_eq_spec p 0
  rw [e]
  congr 1
  apply List.map_congr_left
  intro c hc
  obtain ⟨h0, h1⟩ := hp c hc
  unfold char_byte
  rw [Int.emod_eq_of_lt h0 (by omega), Int.emod_eq_of_lt h0 h1]

/-- Witness of C14 (amended): the key of the bytes 0x78 and 0x7a. -/
theorem C14_hash_str_rounds_and_bound_witness :
    (∀ c ∈ cstr [120, 122], 0 ≤ c ∧ c < 256) ∧
      dtrace_hash_str [120, 122] = spec_hash ((cstr [120, 122]).map char_byte) ∧
      dtrace_hash_str [120, 122] = 2042 :=
  ⟨by decide, C14_hash_str_rounds_and_bound.2.1 [120, 122] (by decide), by decide⟩

/-- Counterexample to C14 as stated: the key of the one byte 0xff, where `char`
is signed, is the `char` value -1. The rounds of the claim on the byte 255
give 255; the code adds the converted `char`, 0xffffffff, and returns
0x0fffff0f. -/
theorem C14_counterexample :
    char_byte (-1) = 255 ∧ spec_hash ((cstr [-1]).map char_byte) = 255 ∧
      dtrace_hash_str [-1] = 268435215 ∧
      dtrace_hash_str [-1] ≠ spec_hash ((cstr [-1]).map char_byte) := by
  decide

/-! ## Misuse: inserting a linked record, removing an unlinked one -/

/-- A linked record that shares its bucket with another record has a non-null
link. -/
theorem Inv.links_of_shared {s : State} (hs : Inv s) {r x : Nat} (hr : Linked s r)
    (hx : Linked s x) (hxr : x ≠ r) (hk : DTRACE_HASHEQ (s.mem x) (s.mem r) = true) :
    (s.mem r).next ≠ none ∨ (s.mem r).prev ≠ none := by
  obtain ⟨b, hb, l, hl, hrl⟩ := (hs.linked_iff r).mp hr
  obtain ⟨b2, hb2, l2, hl2, hxl2⟩ := (hs.linked_iff x).mp hx
  have hkk : bucket_key s.mem b2 = bucket_key s.mem b := by
    rw [hl2.key_some hxl2, hl.key_some hrl, (hasheq_iff _ _).mp hk]
  have hbb : b2 = b := hs.key_inj hb2 hb hkk
  subst hbb
  have hll : l2 = l := hl.unique_records hl2.dl.isList
  subst hll
  obtain ⟨l1, l3, hsplit⟩ := List.append_of_mem hrl
  subst hsplit
  have hsp := DList.split l1 hl.dl
  rcases List.mem_append.mp hxl2 with h1 | h3
  · right
    rw [hsp.1]
    cases l1 with
    | nil => simp at h1
    | cons c t =>
      obtain ⟨y, _, hlast⟩ := last_ptr_cons_mem t none c
      rw [hlast]
      exact Option.some_ne_none y
  · left
    rw [hsp.2]
    rcases List.mem_cons.mp h3 with e | e
    · exact absurd e hxr
    · cases l3 with
      | nil => simp at e
      | cons c t => exact Option.some_ne_none c

/-- C11 (amended): for every reachable table and every record linked in it that
shares its bucket with another record (such a record has a non-null `next` or
`prev`), calling `dtrace_hash_add` on that record again is a fatal fault: the
`BUG_ON` on the links of the new record fires. -/
theorem C11_add_linked_with_links_is_fatal (s : State) (r x : Nat) (h : Reachable s)
    (hr : Linked s r) (hx : Linked s x) (hxr : x ≠ r)
    (hk : DTRACE_HASHEQ (s.mem x) (s.mem r) = true) :
    ((s.mem r).next ≠ none ∨ (s.mem r).prev ≠ none) ∧
      dtrace_hash_add s r = .error .bug_on := by
  have hlinks := h.inv.links_of_shared hr hx hxr hk
  refine ⟨hlinks, ?_⟩
  obtain ⟨b, hb, a, _, hkb⟩ := h.inv.linked_bucket hr
  obtain ⟨chain, pre, post, hc, hf, _⟩ := h.inv.search_found (s.mem r) hb hkb
  unfold dtrace_hash_add
  simp only [dtrace_hash_add_aux, hc, hf]
  unfold hash_add_link
  rw [if_pos hlinks]

/-- Witness of C11 (amended): two records with key "x" are linked; the first is
inserted again. -/
theorem C11_add_linked_with_links_is_fatal_witness :
    ∃ s, add_all ⟨dtrace_hash_create 0 8 16, xx_mem⟩ [0, 1] = .ok s ∧
      Reachable s ∧ Linked s 0 ∧ Linked s 1 ∧
      DTRACE_HASHEQ (s.mem 1) (s.mem 0) = true ∧
      ((s.mem 0).next ≠ none ∨ (s.mem 0).prev ≠ none) ∧
      dtrace_hash_add s 0 = .error .bug_on := by
  have hr : Reachable ⟨dtrace_hash_create 0 8 16, xx_mem⟩ := Reachable.create 0 8 16 xx_mem
  have hun : ∀ r, Unlinked ⟨dtrace_hash_create 0 8 16, xx_mem⟩ r :=
    fun r => unlinked_create 0 8 16 xx_mem r rfl rfl
  obtain ⟨s, hs, _, hstr, hlinked, _⟩ :=
    add_all_spec [0, 1] _ hr.inv (by decide) (fun r _ => hun r)
  have hreach : Reachable s := reachable_of_add_all [0, 1] hr (by decide) (fun r _ => hun r) hs
  have h0 : Linked s 0 := (hlinked 0).mpr (Or.inl (by decide))
  have h1 : Linked s 1 := (hlinked 1).mpr (Or.inl (by decide))
  have hk : DTRACE_HASHEQ (s.mem 1) (s.mem 0) = true := by
    simp only [DTRACE_HASHEQ, hstr]
    rfl
  exact ⟨s, hs, hreach, h0, h1, hk,
    C11_add_linked_with_links_is_fatal s 0 1 hreach h0 h1 (by decide) hk⟩

/-- Counterexample to C11 as stated: a record that is alone in its bucket has
both links null, so a second `dtrace_hash_add` of it trips no `BUG_ON`; it
returns, with the record linked to itself. -/
theorem C11_counterexample :
    ∃ s1 s2, dtrace_hash_add ⟨dtrace_hash_create 0 8 16, xx_mem⟩ 0 = .ok s1 ∧
      s1.hash.dth_tab = [[⟨some 0, 1⟩]] ∧ IsList s1.mem (some 0) [0] ∧ Linked s1 0 ∧
      dtrace_hash_add s1 0 = .ok s2 ∧
      (s2.mem 0).next = some 0 ∧ (s2.mem 0).prev = some 0 := by
  refine ⟨_, _, rfl, rfl, ⟨rfl, rfl⟩, ?_, rfl, rfl, rfl⟩
  exact ⟨⟨some 0, 1⟩, List.mem_singleton.mpr rfl, [0], ⟨rfl, rfl⟩, List.mem_singleton.mpr rfl⟩

theorem add_aux_found_eq {s : State} (hs : Inv s) {r : Nat} (hr : Unlinked s r)
    {b : dtrace_hashbucket_t} (hb : b ∈ all_buckets s)
    (hk : bucket_key s.mem b = some (cstr (s.mem r).str)) (fuel : Nat) :
    ∃ pre post,
      s.hash.dth_tab[DTRACE_HASHSTR (s.mem r) &&& s.hash.dth_mask]? = some (pre ++ b :: post) ∧
      dtrace_hash_add_aux (fuel + 1) s r =
        .ok ⟨{ s.hash with
                dth_tab := (s.hash.dth_tab.set (DTRACE_HASHSTR (s.mem r) &&& s.hash.dth_mask)
                  (pre ++ ⟨some r, b.dthb_len + 1⟩ :: post)) },
          link_mem s.mem r b.dthb_chain⟩ := by
  obtain ⟨chain, pre, post, hc, hf, hch⟩ := hs.search_found (s.mem r) hb hk
  subst hch
  obtain ⟨l, hl⟩ := hs.ok b hb
  have hhead : ∀ c, b.dthb_chain = some c → (s.mem c).prev = none := by
    intro c hc1
    obtain ⟨a, t, hlt, ha⟩ := hl.head
    have hd := hl.dl
    rw [hlt] at hd
    rw [hc1] at ha
    cases ha
    exact hd.2.1
  refine ⟨pre, post, hc, ?_⟩
  simp only [dtrace_hash_add_aux, hc, hf]
  rw [hash_add_link_ok s _ pre post b r hr.1 hr.2.1 hhead]

theorem add_aux_fresh_eq {s : State} (hs : Inv s) {r : Nat} (hr : Unlinked s r)
    (hno : ∀ b ∈ all_buckets s, bucket_key s.mem b ≠ some (cstr (s.mem r).str))
    (hsz : ¬ (s.hash.dth_nbuckets >>> 1 > s.hash.dth_size)) (fuel : Nat) :
    ∃ chain,
      s.hash.dth_tab[DTRACE_HASHSTR (s.mem r) &&& s.hash.dth_mask]? = some chain ∧
      dtrace_hash_add_aux (fuel + 1) s r =
        .ok ⟨{ s.hash with
                dth_tab := (s.hash.dth_tab.set (DTRACE_HASHSTR (s.mem r) &&& s.hash.dth_mask)
                  (⟨some r, 0 + 1⟩ :: chain)),
                dth_nbuckets := s.hash.dth_nbuckets + 1 },
          link_mem s.mem r none⟩ := by
  obtain ⟨chain, hc, hf⟩ := hs.search_none (s.mem r) hno
  refine ⟨chain, hc, ?_⟩
  simp only [dtrace_hash_add_aux, hc, hf, if_neg hsz]
  refine (hash_add_link_ok _ _ [] chain ⟨none, 0⟩ r ?_ ?_ (fun c h => by cases h)).trans ?_
  · exact hr.1
  · exact hr.2.1
  · simp [List.set_set]

/-- The memory after an insert: the links written are those of `link_mem`, with
the head that `dtrace_hash_lookup` finds for the key of the record. -/
theorem Inv.add_mem {s : State} (hs : Inv s) {r : Nat} (hr : Unlinked s r) :
    ∃ s1 c, dtrace_hash_add s r = .ok s1 ∧ AddPost s r s1 ∧
      dtrace_hash_lookup s (s.mem r) = .ok c ∧ s1.mem = link_mem s.mem r c := by
  obtain ⟨s1, hadd, hpost⟩ := hs.add hr
  by_cases hex : ∃ b ∈ all_buckets s, bucket_key s.mem b = some (cstr (s.mem r).str)
  · obtain ⟨b, hb, hk⟩ := hex
    obtain ⟨pre, post, _, heq⟩ := add_aux_found_eq hs hr hb hk (s.hash.dth_nbuckets + 1)
    refine ⟨s1, b.dthb_chain, hadd, hpost, hs.lookup_found _ hb hk, ?_⟩
    unfold dtrace_hash_add at hadd
    rw [heq] at hadd
    cases hadd
    rfl
  · have hno : ∀ b ∈ all_buckets s, bucket_key s.mem b ≠ some (cstr (s.mem r).str) :=
      fun b hb hk => hex ⟨b, hb, hk⟩
    refine ⟨s1, none, hadd, hpost, hs.lookup_none _ hno, ?_⟩
    by_cases hsz : s.hash.dth_nbuckets >>> 1 > s.hash.dth_size
    · obtain ⟨chain, hc, hf⟩ := hs.search_none (s.mem r) hno
      obtain ⟨s2, hres, hmem, hsize, hnb, hperm, hinv2⟩ := hs.resize
      have hstep : dtrace_hash_add_aux (s.hash.dth_nbuckets + 1 + 1) s r =
          dtrace_hash_add_aux (s.hash.dth_nbuckets + 1) s2 r := by
        rw [dtrace_hash_add_aux]
        simp only [hc, hf, if_pos hsz, hres]
      have hr2 : Unlinked s2 r := by
        refine ⟨?_, ?_, ?_⟩
        · rw [hmem]; exact hr.1
        · rw [hmem]; exact hr.2.1
        · rw [linked_congr hmem hperm]; exact hr.2.2
      have hno2 : ∀ b ∈ all_buckets s2, bucket_key s2.mem b ≠ some (cstr (s2.mem r).str) := by
        intro b hb
        rw [hmem]
        exact hno b (hperm.mem_iff.mp hb)
      have hsz2 : ¬ (s2.hash.dth_nbuckets >>> 1 > s2.hash.dth_size) := by
        have h1 := hs.nb_le
        have h2 := hs.size_pos
        rw [hnb, hsize, Nat.shiftRight_eq_div_pow]
        omega
      obtain ⟨chain2, _, heq⟩ := add_aux_fresh_eq hinv2 hr2 hno2 hsz2 s.hash.dth_nbuckets
      unfold dtrace_hash_add at hadd
      rw [hstep, heq] at hadd
      cases hadd
      show link_mem s2.mem r none = link_mem s.mem r none
      rw [hmem]
    · obtain ⟨chain, _, heq⟩ := add_aux_fresh_eq hs hr hno hsz (s.hash.dth_nbuckets + 1)
      unfold dtrace_hash_add at hadd
      rw [heq] at hadd
      cases hadd
      rfl

theorem map_length_set {α : Type} {tab : List (List α)} {i : Nat} {c c1 : List α}
    (h : tab[i]? = some c) (hlen : c1.length = c.length) :
    (tab.set i c1).map List.length = tab.map List.length := by
  obtain ⟨A, B, hAB, hA⟩ := tab_split h
  subst hAB
  subst hA
  rw [set_split]
  simp [hlen]

theorem hasBucket_iff (s : State) (p : dtrace_probe_t) :
    HasBucket s p ↔ ∃ b ∈ all_buckets s, bucket_key s.mem b = some (cstr p.str) := by
  unfold HasBucket
  constructor
  · rintro ⟨b, hb, hk⟩
    exact ⟨b, hb, (bucket_key_eq_iff _ _ _).mpr hk⟩
  · rintro ⟨b, hb, hk⟩
    exact ⟨b, hb, (bucket_key_eq_iff _ _ _).mp hk⟩

/-- A key that has a bucket keeps having one through an insert. -/
theorem AddPost.hasBucket_mono {s s1 : State} {r : Nat} (hpost : AddPost s r s1)
    {p : dtrace_probe_t} (hp : HasBucket s p) : HasBucket s1 p := by
  rw [hasBucket_iff] at hp ⊢
  obtain ⟨b, hb, hk⟩ := hp
  rcases hpost.buckets with ⟨b0, R, hperm, hk0, hperm1, _, _⟩ | ⟨_, hperm1, _, _⟩
  · rcases List.mem_cons.mp (hperm.mem_iff.mp hb) with e | e
    · subst e
      refine ⟨⟨some r, b.dthb_len + 1⟩, hperm1.mem_iff.mpr (List.mem_cons_self _ R), ?_⟩
      rw [← hk, hk0]
      simp [bucket_key, hpost.frame.str]
    · exact ⟨b, hperm1.mem_iff.mpr (List.mem_cons_of_mem _ e),
        by rw [bucket_key_frame hpost.frame.str]; exact hk⟩
  · exact ⟨b, hperm1.mem_iff.mpr (List.mem_cons_of_mem _ hb),
      by rw [bucket_key_frame hpost.frame.str]; exact hk⟩

/-- The insert of a record whose key has a bucket: only that bucket changes, in
place. -/
theorem Inv.add_dup {s : State} (hs : Inv s) {r : Nat} (hr : Unlinked s r)
    (hb : HasBucket s (s.mem r)) :
    ∃ s1, dtrace_hash_add s r = .ok s1 ∧ AddPost s r s1 ∧
      s1.hash.dth_size = s.hash.dth_size ∧ s1.hash.dth_mask = s.hash.dth_mask ∧
      s1.hash.dth_nbuckets = s.hash.dth_nbuckets ∧
      (∃ (i : Nat) (pre : List dtrace_hashbucket_t) (b : dtrace_hashbucket_t)
          (post : List dtrace_hashbucket_t),
        s.hash.dth_tab[i]? = some (pre ++ b :: post) ∧
        (∃ a, b.dthb_chain = some a ∧ DTRACE_HASHEQ (s.mem a) (s.mem r) = true) ∧
        s1.hash.dth_tab = s.hash.dth_tab.set i (pre ++ ⟨some r, b.dthb_len + 1⟩ :: post)) ∧
      s1.hash.dth_tab.map List.length = s.hash.dth_tab.map List.length := by
  obtain ⟨b, hbm, hk⟩ := (hasBucket_iff _ _).mp hb
  obtain ⟨s1, hadd, hpost⟩ := hs.add hr
  obtain ⟨pre, post, hc, heq⟩ := add_aux_found_eq hs hr hbm hk (s.hash.dth_nbuckets + 1)
  unfold dtrace_hash_add at hadd
  have hadd2 := hadd
  rw [heq] at hadd2
  cases hadd2
  refine ⟨_, hadd, hpost, rfl, rfl, rfl,
    ⟨_, pre, b, post, hc, (bucket_key_eq_iff _ _ _).mp hk, rfl⟩, ?_⟩
  exact map_length_set hc (by simp)

theorem add_all_dup (rs : List Nat) :
    ∀ (s : State), Inv s → rs.Nodup → (∀ x ∈ rs, Unlinked s x) →
      (∀ x ∈ rs, HasBucket s (s.mem x)) →
      ∃ s1, add_all s rs = .ok s1 ∧
        s1.hash.dth_size = s.hash.dth_size ∧ s1.hash.dth_mask = s.hash.dth_mask ∧
        s1.hash.dth_nbuckets = s.hash.dth_nbuckets ∧
        s1.hash.dth_tab.map List.length = s.hash.dth_tab.map List.length := by
  induction rs with
  | nil => intro s _ _ _ _; exact ⟨s, rfl, rfl, rfl, rfl, rfl⟩
  | cons r rs ih =>
    intro s hs hnd hun hbs
    obtain ⟨s1, hadd, hpost, hsz, hmask, hnb, _, hshape⟩ :=
      hs.add_dup (hun r (List.mem_cons_self r rs)) (hbs r (List.mem_cons_self r rs))
    have hnd1 := List.nodup_cons.mp hnd
    obtain ⟨s2, hall, hsz2, hmask2, hnb2, hshape2⟩ := ih s1 hpost.frame.inv hnd1.2
      (fun y hy => hpost.frame.unlinked_other (hun y (List.mem_cons_of_mem r hy))
        (fun e => hnd1.1 (by rw [← e]; exact hy)))
      (fun y hy => by
        have := hpost.hasBucket_mono (hbs y (List.mem_cons_of_mem r hy))
        simp only [HasBucket, DTRACE_HASHEQ, hpost.frame.str] at this ⊢
        exact this)
    exact ⟨s2, by simp only [add_all, hadd, hall], hsz2.trans hsz, hmask2.trans hmask,
      hnb2.trans hnb, hshape2.trans hshape⟩

/-- C13: for every reachable table, `dtrace_hash_add` of an unlinked record whose
key already has a bucket returns and leaves `dth_size`, `dth_mask`,
`dth_nbuckets` and the sequence of buckets on every slot chain unchanged (the
bucket of the key, in its place, gets the record as head and `dthb_len + 1`),
whatever the value of `dth_nbuckets`; so any number of such duplicate-key
inserts leaves the size of the table and the shape of its chains alone. -/
theorem C13_duplicate_key_insert_keeps_table (s : State) (r : Nat) (rs : List Nat)
    (h : Reachable s) (hr : Unlinked s r) (hb : HasBucket s (s.mem r))
    (hnd : rs.Nodup) (hun : ∀ x ∈ rs, Unlinked s x)
    (hbs : ∀ x ∈ rs, HasBucket s (s.mem x)) :
    (∃ s1, dtrace_hash_add s r = .ok s1 ∧
      s1.hash.dth_size = s.hash.dth_size ∧ s1.hash.dth_mask = s.hash.dth_mask ∧
      s1.hash.dth_nbuckets = s.hash.dth_nbuckets ∧
      ∃ (i : Nat) (pre : List dtrace_hashbucket_t) (b : dtrace_hashbucket_t)
          (post : List dtrace_hashbucket_t),
        s.hash.dth_tab[i]? = some (pre ++ b :: post) ∧
        (∃ a, b.dthb_chain = some a ∧ DTRACE_HASHEQ (s.mem a) (s.mem r) = true) ∧
        s1.hash.dth_tab = s.hash.dth_tab.set i (pre ++ ⟨some r, b.dthb_len + 1⟩ :: post)) ∧
    (∃ s2, add_all s rs = .ok s2 ∧
      s2.hash.dth_size = s.hash.dth_size ∧ s2.hash.dth_mask = s.hash.dth_mask ∧
      s2.hash.dth_nbuckets = s.hash.dth_nbuckets ∧
      s2.hash.dth_tab.map List.length = s.hash.dth_tab.map List.length) := by
  obtain ⟨s1, hadd, _, hsz, hmask, hnb, htab, _⟩ := h.inv.add_dup hr hb
  exact ⟨⟨s1, hadd, hsz, hmask, hnb, htab⟩, add_all_dup rs s h.inv hnd hun hbs⟩

/-- Witness of C13: record 0 with key "x" is linked; record 1, and then the
records 1, 2, 3, 4, 5, all with key "x", are inserted. -/
theorem C13_duplicate_key_insert_keeps_table_witness :
    ∃ s, dtrace_hash_add ⟨dtrace_hash_create 0 8 16, xx_mem⟩ 0 = .ok s ∧
      (∃ s1, dtrace_hash_add s 1 = .ok s1 ∧
        s1.hash.dth_size = s.hash.dth_size ∧ s1.hash.dth_mask = s.hash.dth_mask ∧
        s1.hash.dth_nbuckets = s.hash.dth_nbuckets ∧
        ∃ (i : Nat) (pre : List dtrace_hashbucket_t) (b : dtrace_hashbucket_t)
            (post : List dtrace_hashbucket_t),
          s.hash.dth_tab[i]? = some (pre ++ b :: post) ∧
          (∃ a, b.dthb_chain = some a ∧ DTRACE_HASHEQ (s.mem a) (s.mem 1) = true) ∧
          s1.hash.dth_tab = s.hash.dth_tab.set i (pre ++ ⟨some 1, b.dthb_len + 1⟩ :: post)) ∧
      (∃ s2, add_all s [1, 2, 3, 4, 5] = .ok s2 ∧
        s2.hash.dth_size = s.hash.dth_size ∧ s2.hash.dth_mask = s.hash.dth_mask ∧
        s2.hash.dth_nbuckets = s.hash.dth_nbuckets ∧
        s2.hash.dth_tab.map List.length = s.hash.dth_tab.map List.length) := by
  have hr : Reachable ⟨dtrace_hash_create 0 8 16, xx_mem⟩ := Reachable.create 0 8 16 xx_mem
  have hun : ∀ r, Unlinked ⟨dtrace_hash_create 0 8 16, xx_mem⟩ r :=
    fun r => unlinked_create 0 8 16 xx_mem r rfl rfl
  obtain ⟨s, hadd, hpost⟩ := hr.inv.add (hun 0)
  have hreach : Reachable s := Reachable.add hr (hun 0) hadd
  have hun1 : ∀ x, x ≠ 0 → Unlinked s x := fun x hx => hpost.frame.unlinked_other (hun x) hx
  have hhas : ∀ x, HasBucket s (s.mem x) := by
    intro x
    obtain ⟨b, hb, a, ha, hk⟩ := hreach.inv.linked_bucket ((hpost.frame.linked 0).mpr (Or.inl rfl))
    rw [hasBucket_iff]
    refine ⟨b, hb, ?_⟩
    rw [hk, hpost.frame.str, hpost.frame.str]
    rfl
  exact ⟨s, hadd, C13_duplicate_key_insert_keeps_table s 1 [1, 2, 3, 4, 5] hreach
    (hun1 1 (by decide)) (hhas 1) (by decide)
    (fun x hx => hun1 x (by simp at hx; omega)) (fun x _ => hhas x)⟩

/-! ## Depth of the recursion of the insert, and absence of faults -/

theorem pred_scan_spec (post : List dtrace_hashbucket_t) (b : dtrace_hashbucket_t)
    (pre : List dtrace_hashbucket_t) :
    ∀ x, pred_scan ((x :: pre) ++ b :: post) (x :: pre).length = .ok pre.length := by
  induction pre with
  | nil => intro x; simp [pred_scan]
  | cons y pre ih =>
    intro x
    have h := ih y
    simp only [List.cons_append, List.length_cons] at h ⊢
    rw [pred_scan]
    simp only [Nat.add_one_ne_zero, Nat.add_eq_right, if_false, Nat.add_sub_cancel, h]

/-- The bucket that the walk of `dtrace_hash_remove` found is on the chain, so
the scan for the bucket before it ends there, and the unlinking leaves the
buckets before and after it. -/
theorem unlink_bucket_spec (pre post : List dtrace_hashbucket_t) (b : dtrace_hashbucket_t) :
    unlink_bucket (pre ++ b :: post) pre.length = .ok (pre ++ post) := by
  cases pre with
  | nil => simp [unlink_bucket]
  | cons x pre =>
    have h := pred_scan_spec post b pre x
    unfold unlink_bucket
    simp only [List.cons_append, List.length_cons, Nat.add_one_ne_zero, if_false] at h ⊢
    rw [h]
    simp

/-- The place that the bucket walk yields is a place on the chain it walked. -/
theorem bucket_search_chain (mem : Nat → dtrace_probe_t) (t : dtrace_probe_t) :
    ∀ (chain pre : List dtrace_hashbucket_t) (b : dtrace_hashbucket_t)
      (post : List dtrace_hashbucket_t),
      bucket_search mem t chain = .ok (some (pre, b, post)) → chain = pre ++ b :: post := by
  intro chain
  induction chain with
  | nil =>
    intro pre b post h
    simp [bucket_search] at h
  | cons x chain ih =>
    intro pre b post h
    rw [bucket_search] at h
    cases hx : x.dthb_chain with
    | none => simp [hx] at h
    | some c =>
      simp only [hx] at h
      by_cases heq : DTRACE_HASHEQ (mem c) t = true
      · simp only [heq, if_true] at h
        cases h
        rfl
      · simp only [heq] at h
        cases hrec : bucket_search mem t chain with
        | error e => simp [hrec] at h
        | ok o =>
          cases o with
          | none => simp [hrec] at h
          | some z =>
            obtain ⟨pre1, b1, post1⟩ := z
            simp only [hrec] at h
            have := ih pre1 b1 post1 hrec
            cases h
            rw [this]
            rfl

/-- The two renderings of `dtrace_hash_remove` agree: the call returns the state
that the statement-by-statement run ends in, and faults exactly when that run
faults, with the same fault. -/
theorem remove_run_eq (s : State) (probe : Nat) :
    dtrace_hash_remove s probe =
      match dtrace_hash_remove_run s probe with
      | (s1, none) => .ok s1
      | (_, some e) => .error e := by
  unfold dtrace_hash_remove dtrace_hash_remove_run
  simp only
  cases hc : s.hash.dth_tab[DTRACE_HASHSTR (s.mem probe) &&& s.hash.dth_mask]? with
  | none => rfl
  | some chain =>
    simp only
    cases hf : bucket_search s.mem (s.mem probe) chain with
    | error e => rfl
    | ok o =>
      cases o with
      | none => rfl
      | some z =>
        obtain ⟨pre, b, post⟩ := z
        have hch := bucket_search_chain s.mem (s.mem probe) chain pre b post hf
        subst hch
        simp only
        cases hp : (s.mem probe).prev with
        | some q => rfl
        | none =>
          cases hn : (s.mem probe).next with
          | some n => rfl
          | none =>
            simp only [unlink_bucket_spec]
            by_cases hb : b.dthb_chain = some probe
            · by_cases hnb : s.hash.dth_nbuckets ≤ 0
              · simp [hb, hnb]
              · simp [hb, hnb]
            · simp [hb]

/-- On a table that satisfies the invariant the statement-by-statement run of a
remove of a linked record ends without a fault, in the state that
`dtrace_hash_remove` returns. -/
theorem Inv.remove_run {s : State} (hs : Inv s) {r : Nat} (hr : Linked s r) :
    ∃ s1, dtrace_hash_remove s r = .ok s1 ∧ dtrace_hash_remove_run s r = (s1, none) ∧
      RemovePost s r s1 := by
  obtain ⟨s1, hrem, hpost⟩ := hs.remove hr
  refine ⟨s1, hrem, ?_, hpost⟩
  have h := remove_run_eq s r
  rw [hrem] at h
  rcases hrun : dtrace_hash_remove_run s r with ⟨s2, f⟩
  rw [hrun] at h
  cases f with
  | none =>
    simp only at h
    cases h
    rfl
  | some e =>
    simp only at h
    cases h

/-- An insert that does not grow the table is one call deep: its result does not
depend on the bound of the recursion. -/
theorem Inv.add_depth_one {s : State} (hs : Inv s) {r : Nat} (hr : Unlinked s r)
    (hng : HasBucket s (s.mem r) ∨ ¬ (s.hash.dth_nbuckets >>> 1 > s.hash.dth_size))
    (fuel : Nat) :
    dtrace_hash_add_aux (fuel + 1) s r = dtrace_hash_add_aux 1 s r := by
  by_cases hex : ∃ b ∈ all_buckets s, bucket_key s.mem b = some (cstr (s.mem r).str)
  · obtain ⟨b, hb, hk⟩ := hex
    obtain ⟨chain, pre1, post1, hc1, hf1, _⟩ := hs.search_found (s.mem r) hb hk
    simp only [dtrace_hash_add_aux, hc1, hf1]
  · have hno : ∀ b ∈ all_buckets s, bucket_key s.mem b ≠ some (cstr (s.mem r).str) :=
      fun b hb hk => hex ⟨b, hb, hk⟩
    have hsz : ¬ (s.hash.dth_nbuckets >>> 1 > s.hash.dth_size) := by
      rcases hng with h | h
      · exact absurd ((hasBucket_iff _ _).mp h) hex
      · exact h
    obtain ⟨chain, hc, heq⟩ := add_aux_fresh_eq hs hr hno hsz fuel
    obtain ⟨chain0, hc0, heq0⟩ := add_aux_fresh_eq hs hr hno hsz 0
    rw [hc] at hc0
    cases hc0
    rw [heq, heq0]

/-- C18: in every reachable state `dth_nbuckets <= 2 * dth_size + 2`, and
consequently a single call of `dtrace_hash_add` (of an unlinked record)
performs at most one resize: when the growth test holds, `dtrace_hash_resize`
doubles the table, the recursive retry finds `(dth_nbuckets >> 1) > dth_size`
false and completes without a further recursive call, with `dth_size` exactly
doubled; otherwise the call completes without any recursive call and
`dth_size` is unchanged. `dtrace_hash_add_aux n` is the insert limited to `n`
nested calls. -/
theorem C18_add_resizes_at_most_once (s : State) (r : Nat) (h : Reachable s)
    (hr : Unlinked s r) :
    s.hash.dth_nbuckets ≤ 2 * s.hash.dth_size + 2 ∧
    ∃ s1, dtrace_hash_add s r = .ok s1 ∧ dtrace_hash_add_aux 2 s r = .ok s1 ∧
      ((HasBucket s (s.mem r) ∨ ¬ (s.hash.dth_nbuckets >>> 1 > s.hash.dth_size)) →
        dtrace_hash_add_aux 1 s r = .ok s1 ∧ s1.hash.dth_size = s.hash.dth_size) ∧
      ((¬ HasBucket s (s.mem r) ∧ s.hash.dth_nbuckets >>> 1 > s.hash.dth_size) →
        ∃ s2, dtrace_hash_resize s = .ok s2 ∧
          s2.hash.dth_size = 2 * s.hash.dth_size ∧
          ¬ (s2.hash.dth_nbuckets >>> 1 > s2.hash.dth_size) ∧
          dtrace_hash_add_aux 1 s2 r = .ok s1 ∧
          s1.hash.dth_size = 2 * s.hash.dth_size) := by
  have hs := h.inv
  refine ⟨hs.nb_le, ?_⟩
  obtain ⟨s1, hadd, hpost⟩ := hs.add hr
  have hadd0 := hadd
  unfold dtrace_hash_add at hadd0
  by_cases hng : HasBucket s (s.mem r) ∨ ¬ (s.hash.dth_nbuckets >>> 1 > s.hash.dth_size)
  · have h1 : dtrace_hash_add_aux 1 s r = .ok s1 := by
      rw [← hs.add_depth_one hr hng (s.hash.dth_nbuckets + 1)]
      exact hadd0
    have h2 : dtrace_hash_add_aux 2 s r = .ok s1 := by
      rw [hs.add_depth_one hr hng 1]
      exact h1
    have hsize : s1.hash.dth_size = s.hash.dth_size := by
      rcases hpost.buckets with ⟨_, _, _, _, _, _, hsz⟩ | ⟨hno, _, _, hsz⟩
      · exact hsz
      · rcases hng with hb | hn
        · exact absurd hb ((not_hasBucket_iff _ _).mpr hno)
        · rw [hsz, if_neg hn]
    exact ⟨s1, hadd, h2, fun _ => ⟨h1, hsize⟩,
      fun hg => hng.elim (fun hb => absurd hb hg.1) (fun hn => absurd hg.2 hn)⟩
  · have hnb : ¬ HasBucket s (s.mem r) := fun hb => hng (Or.inl hb)
    have hsz : s.hash.dth_nbuckets >>> 1 > s.hash.dth_size := by
      by_contra hn
      exact hng (Or.inr hn)
    have hno := (not_hasBucket_iff _ _).mp hnb
    obtain ⟨chain, hc, hf⟩ := hs.search_none (s.mem r) hno
    obtain ⟨s2, hres, hmem, hsize2, hnb2, hperm, hinv2⟩ := hs.resize
    have hstep : ∀ fuel, dtrace_hash_add_aux (fuel + 1 + 1) s r =
        dtrace_hash_add_aux (fuel + 1) s2 r := by
      intro fuel
      rw [dtrace_hash_add_aux]
      simp only [hc, hf, if_pos hsz, hres]
    have hr2 : Unlinked s2 r := by
      refine ⟨?_, ?_, ?_⟩
      · rw [hmem]; exact hr.1
      · rw [hmem]; exact hr.2.1
      · rw [linked_congr hmem hperm]; exact hr.2.2
    have hsz2 : ¬ (s2.hash.dth_nbuckets >>> 1 > s2.hash.dth_size) := by
      have h1 := hs.nb_le
      have h2 := hs.size_pos
      rw [hnb2, hsize2, Nat.shiftRight_eq_div_pow]
      omega
    have hdepth := hinv2.add_depth_one hr2 (Or.inr hsz2)
    have h1 : dtrace_hash_add_aux 1 s2 r = .ok s1 := by
      rw [← hdepth s.hash.dth_nbuckets, ← hstep]
      exact hadd0
    have h2 : dtrace_hash_add_aux 2 s r = .ok s1 := by
      rw [hstep 0]
      exact h1
    have hsize : s1.hash.dth_size = 2 * s.hash.dth_size := by
      rcases hpost.buckets with ⟨b, R, hp, hk, _⟩ | ⟨_, _, _, hsz1⟩
      · exact absurd hk (hno b (hp.mem_iff.mpr (List.mem_cons_self b R)))
      · rw [hsz1, if_pos hsz]
    exact ⟨s1, hadd, h2, fun hh => absurd hh hng,
      fun _ => ⟨s2, hres, hsize2, hsz2, h1, hsize⟩⟩

/-- Witness of C18: the table with the keys "a" ... "d" in one slot, which is due
to grow, and the record with key "e". -/
theorem C18_add_resizes_at_most_once_witness :
    ∃ s, add_all ⟨dtrace_hash_create 0 8 16, abc_mem⟩ [0, 1, 2, 3] = .ok s ∧
      Reachable s ∧ Unlinked s 4 ∧
      (s.hash.dth_nbuckets ≤ 2 * s.hash.dth_size + 2 ∧
      ∃ s1, dtrace_hash_add s 4 = .ok s1 ∧ dtrace_hash_add_aux 2 s 4 = .ok s1 ∧
        ((HasBucket s (s.mem 4) ∨ ¬ (s.hash.dth_nbuckets >>> 1 > s.hash.dth_size)) →
          dtrace_hash_add_aux 1 s 4 = .ok s1 ∧ s1.hash.dth_size = s.hash.dth_size) ∧
        ((¬ HasBucket s (s.mem 4) ∧ s.hash.dth_nbuckets >>> 1 > s.hash.dth_size) →
          ∃ s2, dtrace_hash_resize s = .ok s2 ∧
            s2.hash.dth_size = 2 * s.hash.dth_size ∧
            ¬ (s2.hash.dth_nbuckets >>> 1 > s2.hash.dth_size) ∧
            dtrace_hash_add_aux 1 s2 4 = .ok s1 ∧
            s1.hash.dth_size = 2 * s.hash.dth_size)) := by
  have hr : Reachable ⟨dtrace_hash_create 0 8 16, abc_mem⟩ := Reachable.create 0 8 16 abc_mem
  have hun : ∀ r, Unlinked ⟨dtrace_hash_create 0 8 16, abc_mem⟩ r :=
    fun r => unlinked_create 0 8 16 abc_mem r rfl rfl
  obtain ⟨s, hs, _, _, _, hkeep⟩ :=
    add_all_spec [0, 1, 2, 3] _ hr.inv (by decide) (fun r _ => hun r)
  have hreach : Reachable s :=
    reachable_of_add_all [0, 1, 2, 3] hr (by decide) (fun r _ => hun r) hs
  have hu4 : Unlinked s 4 := hkeep 4 (by decide) (hun 4)
  exact ⟨s, hs, hreach, hu4, C18_add_resizes_at_most_once s 4 hreach hu4⟩

/-- C17: in every state reachable from `dtrace_hash_create` (the fresh table
included), `dtrace_hash_add` of any unlinked record returns without tripping a
`BUG_ON` or any other fault (the `BUG_ON`s of a `dtrace_hash_resize` it calls
included); `dtrace_hash_remove` of any linked record returns likewise, also
when run statement by statement with the scan
`while (b->dthb_next != bucket)`: its bucket walk finds, on the chain of the
slot, the bucket whose list contains the record, and the scan for the bucket
before that one stops at it without reaching null; `dtrace_hash_resize`
returns; and every computed slot index, before and after a resize, lies in
`[0, dth_size)`, which is the length of the slot array. The parts stand on
their own: none needs a record for another. -/
theorem C17_operations_do_not_fault (s : State) (h : Reachable s) :
    (∀ r, Unlinked s r → ∃ s1, dtrace_hash_add s r = .ok s1) ∧
    (∀ r, Linked s r →
      (∃ s1, dtrace_hash_remove s r = .ok s1 ∧ dtrace_hash_remove_run s r = (s1, none)) ∧
      ∃ (pre : List dtrace_hashbucket_t) (b : dtrace_hashbucket_t)
          (post : List dtrace_hashbucket_t) (l : List Nat),
        s.hash.dth_tab[DTRACE_HASHSTR (s.mem r) &&& s.hash.dth_mask]? =
          some (pre ++ b :: post) ∧
        bucket_search s.mem (s.mem r) (pre ++ b :: post) = .ok (some (pre, b, post)) ∧
        IsList s.mem b.dthb_chain l ∧ r ∈ l ∧
        (pre ≠ [] → pred_scan (pre ++ b :: post) pre.length = .ok (pre.length - 1)) ∧
        unlink_bucket (pre ++ b :: post) pre.length = .ok (pre ++ post)) ∧
    (∃ s1, dtrace_hash_resize s = .ok s1 ∧
      s1.hash.dth_tab.length = s1.hash.dth_size ∧
      ∀ p, DTRACE_HASHSTR p &&& s1.hash.dth_mask < s1.hash.dth_size) ∧
    s.hash.dth_tab.length = s.hash.dth_size ∧
    (∀ p, DTRACE_HASHSTR p &&& s.hash.dth_mask < s.hash.dth_size) := by
  have hs := h.inv
  have hidx : ∀ {s0 : State}, Inv s0 →
      ∀ p, DTRACE_HASHSTR p &&& s0.hash.dth_mask < s0.hash.dth_size := by
    intro s0 h0 p
    have := h0.index_lt (DTRACE_HASHSTR p)
    rw [h0.tab_len] at this
    exact this
  refine ⟨?_, ?_, ?_, hs.tab_len, hidx hs⟩
  · intro r hr
    obtain ⟨s1, hadd, _⟩ := hs.add hr
    exact ⟨s1, hadd⟩
  · intro r hr
    obtain ⟨s1, hrem, hrun, _⟩ := hs.remove_run hr
    refine ⟨⟨s1, hrem, hrun⟩, ?_⟩
    obtain ⟨b, hb, l, hl, hrl⟩ := (hs.linked_iff r).mp hr
    obtain ⟨chain, pre, post, hc, hf, hch⟩ := hs.search_found (s.mem r) hb (hl.key_some hrl)
    subst hch
    refine ⟨pre, b, post, l, hc, hf, hl.dl.isList, hrl, ?_, unlink_bucket_spec pre post b⟩
    intro hne
    cases pre with
    | nil => exact absurd rfl hne
    | cons x pre => exact pred_scan_spec post b pre x
  · obtain ⟨s1, hres, _, _, _, _, hinv1⟩ := hs.resize
    exact ⟨s1, hres, hinv1.tab_len, hidx hinv1⟩

/-- Witness of C17. On the fresh table: the first insert, the resize and the
slot index of the key "ab". On the table with the keys "a", "b", "c" in one
slot: the insert of "d" and the remove of "a", whose bucket is the last of the
chain. -/
theorem C17_operations_do_not_fault_witness :
    ((∃ s1, dtrace_hash_add ⟨dtrace_hash_create 0 8 16, abc_mem⟩ 0 = .ok s1) ∧
      (∃ s1, dtrace_hash_resize ⟨dtrace_hash_create 0 8 16, abc_mem⟩ = .ok s1 ∧
        s1.hash.dth_tab.length = s1.hash.dth_size ∧
        ∀ p, DTRACE_HASHSTR p &&& s1.hash.dth_mask < s1.hash.dth_size) ∧
      DTRACE_HASHSTR ⟨[97, 98], none, none⟩ &&& (dtrace_hash_create 0 8 16).dth_mask <
        (dtrace_hash_create 0 8 16).dth_size) ∧
    ∃ s, add_all ⟨dtrace_hash_create 0 8 16, abc_mem⟩ [0, 1, 2] = .ok s ∧
      Reachable s ∧ Unlinked s 3 ∧ Linked s 0 ∧
      s.hash.dth_tab = [[⟨some 2, 1⟩, ⟨some 1, 1⟩, ⟨some 0, 1⟩]] ∧
      pred_scan [⟨some 2, 1⟩, ⟨some 1, 1⟩, ⟨some 0, 1⟩] 2 = .ok 1 ∧
      (∃ s1, dtrace_hash_add s 3 = .ok s1) ∧
      (∃ s1, dtrace_hash_remove s 0 = .ok s1 ∧ dtrace_hash_remove_run s 0 = (s1, none)) ∧
      ∃ (pre : List dtrace_hashbucket_t) (b : dtrace_hashbucket_t)
          (post : List dtrace_hashbucket_t) (l : List Nat),
        s.hash.dth_tab[DTRACE_HASHSTR (s.mem 0) &&& s.hash.dth_mask]? =
          some (pre ++ b :: post) ∧
        bucket_search s.mem (s.mem 0) (pre ++ b :: post) = .ok (some (pre, b, post)) ∧
        IsList s.mem b.dthb_chain l ∧ 0 ∈ l ∧
        (pre ≠ [] → pred_scan (pre ++ b :: post) pre.length = .ok (pre.length - 1)) ∧
        unlink_bucket (pre ++ b :: post) pre.length = .ok (pre ++ post) := by
  have hr : Reachable ⟨dtrace_hash_create 0 8 16, abc_mem⟩ := Reachable.create 0 8 16 abc_mem
  have hun : ∀ r, Unlinked ⟨dtrace_hash_create 0 8 16, abc_mem⟩ r :=
    fun r => unlinked_create 0 8 16 abc_mem r rfl rfl
  have hfresh := C17_operations_do_not_fault ⟨dtrace_hash_create 0 8 16, abc_mem⟩ hr
  obtain ⟨s, hs, _, _, hlinked, hkeep⟩ :=
    add_all_spec [0, 1, 2] _ hr.inv (by decide) (fun r _ => hun r)
  have hreach : Reachable s :=
    reachable_of_add_all [0, 1, 2] hr (by decide) (fun r _ => hun r) hs
  have h3 : Unlinked s 3 := hkeep 3 (by decide) (hun 3)
  have h0 : Linked s 0 := (hlinked 0).mpr (Or.inl (by decide))
  have htab : (match add_all ⟨dtrace_hash_create 0 8 16, abc_mem⟩ [0, 1, 2] with
      | .ok s => s.hash.dth_tab
      | .error _ => []) = [[⟨some 2, 1⟩, ⟨some 1, 1⟩, ⟨some 0, 1⟩]] := rfl
  rw [hs] at htab
  have hfull := C17_operations_do_not_fault s hreach
  exact ⟨⟨hfresh.1 0 (hun 0), hfresh.2.2.1, hfresh.2.2.2.2 ⟨[97, 98], none, none⟩⟩,
    s, hs, hreach, h3, h0, htab, rfl, hfull.1 3 h3, (hfull.2.1 0 h0).1, (hfull.2.1 0 h0).2⟩

/-! ## Frame properties of remove and insert -/

/-- The neighbours of a record on its list: `prev` lies before it, `next` behind
it. -/
theorem BucketOK.neighbours {mem : Nat → dtrace_probe_t} {b : dtrace_hashbucket_t}
    {l1 l2 : List Nat} {r : Nat} (hl : BucketOK mem b (l1 ++ r :: l2)) :
    (∀ x, (mem r).prev = some x → x ∈ l1) ∧ (∀ x, (mem r).next = some x → x ∈ l2) := by
  have hsp := DList.split l1 hl.dl
  constructor
  · intro x hx
    rw [hsp.1] at hx
    cases l1 with
    | nil => cases hx
    | cons c t =>
      obtain ⟨y, hy, hlast⟩ := last_ptr_cons_mem t none c
      rw [hlast] at hx
      cases hx
      exact hy
  · intro x hx
    rw [hsp.2] at hx
    exact List.mem_of_mem_head? hx

theorem BucketOK.neighbours_ne {mem : Nat → dtrace_probe_t} {b : dtrace_hashbucket_t}
    {l1 l2 : List Nat} {r : Nat} (hl : BucketOK mem b (l1 ++ r :: l2)) :
    (mem r).prev ≠ some r ∧ (mem r).next ≠ some r := by
  have hnd := hl.nodup
  rw [List.nodup_append] at hnd
  constructor
  · intro e
    exact hnd.2.2 (hl.neighbours.1 r e) (List.mem_cons_self r l2)
  · intro e
    exact (List.nodup_cons.mp hnd.2.1).1 (hl.neighbours.2 r e)

/-- C19: for every reachable table and every record `r` linked in it,
`dtrace_hash_remove(r)` returns and leaves the `next` and `prev` fields of `r`
itself as they were; among the other records it writes at most the `next`
field of the predecessor of `r` (set to the `next` of `r`) and the `prev`
field of the successor of `r` (set to the `prev` of `r`); every other link
field and every key is unchanged. -/
theorem C19_remove_writes_only_neighbours (s : State) (r : Nat) (h : Reachable s)
    (hr : Linked s r) :
    ∃ s1, dtrace_hash_remove s r = .ok s1 ∧
      (s1.mem r).next = (s.mem r).next ∧ (s1.mem r).prev = (s.mem r).prev ∧
      (∀ x, (s1.mem x).str = (s.mem x).str) ∧
      (∀ x, (s.mem r).prev = some x → (s1.mem x).next = (s.mem r).next) ∧
      (∀ x, (s.mem r).next = some x → (s1.mem x).prev = (s.mem r).prev) ∧
      (∀ x, (s.mem r).prev ≠ some x → (s1.mem x).next = (s.mem x).next) ∧
      (∀ x, (s.mem r).next ≠ some x → (s1.mem x).prev = (s.mem x).prev) := by
  obtain ⟨s1, hrem, hpost⟩ := h.inv.remove hr
  obtain ⟨b, R, l1, l2, _, hl, _⟩ := hpost.buckets
  have hne := hl.neighbours_ne
  refine ⟨s1, hrem, ?_, ?_, hpost.str, ?_, ?_, ?_, ?_⟩
  · rw [hpost.mem_next, if_neg (fun e => hne.1 e.symm)]
  · rw [hpost.mem_prev, if_neg (fun e => hne.2 e.symm)]
  · intro x hx
    rw [hpost.mem_next, if_pos hx.symm]
  · intro x hx
    rw [hpost.mem_prev, if_pos hx.symm]
  · intro x hx
    rw [hpost.mem_next, if_neg (fun e => hx e.symm)]
  · intro x hx
    rw [hpost.mem_prev, if_neg (fun e => hx e.symm)]

/-- Witness of C19: records 0, 1, 2 with key "x" are linked; record 1, in the
middle of the list, is removed. -/
theorem C19_remove_writes_only_neighbours_witness :
    ∃ s, add_all ⟨dtrace_hash_create 0 8 16, xx_mem⟩ [0, 1, 2] = .ok s ∧
      Reachable s ∧ Linked s 1 ∧
      ∃ s1, dtrace_hash_remove s 1 = .ok s1 ∧
        (s1.mem 1).next = (s.mem 1).next ∧ (s1.mem 1).prev = (s.mem 1).prev ∧
        (∀ x, (s1.mem x).str = (s.mem x).str) ∧
        (∀ x, (s.mem 1).prev = some x → (s1.mem x).next = (s.mem 1).next) ∧
        (∀ x, (s.mem 1).next = some x → (s1.mem x).prev = (s.mem 1).prev) ∧
        (∀ x, (s.mem 1).prev ≠ some x → (s1.mem x).next = (s.mem x).next) ∧
        (∀ x, (s.mem 1).next ≠ some x → (s1.mem x).prev = (s.mem x).prev) := by
  have hr : Reachable ⟨dtrace_hash_create 0 8 16, xx_mem⟩ := Reachable.create 0 8 16 xx_mem
  have hun : ∀ r, Unlinked ⟨dtrace_hash_create 0 8 16, xx_mem⟩ r :=
    fun r => unlinked_create 0 8 16 xx_mem r rfl rfl
  obtain ⟨s, hs, _, _, hlinked, _⟩ :=
    add_all_spec [0, 1, 2] _ hr.inv (by decide) (fun r _ => hun r)
  have hreach : Reachable s :=
    reachable_of_add_all [0, 1, 2] hr (by decide) (fun r _ => hun r) hs
  have h1 : Linked s 1 := (hlinked 1).mpr (Or.inl (by decide))
  exact ⟨s, hs, hreach, h1, C19_remove_writes_only_neighbours s 1 hreach h1⟩

theorem lookup_in_cons (mem : Nat → dtrace_probe_t) (b : dtrace_hashbucket_t)
    (R : List dtrace_hashbucket_t) (k : List Int) :
    lookup_in mem (b :: R) k =
      if bucket_key mem b = some k then b.dthb_chain else lookup_in mem R k := by
  unfold lookup_in
  rw [find_key_cons]
  by_cases h : bucket_key mem b = some k
  · rw [if_pos h, if_pos h]
  · rw [if_neg h, if_neg h]

/-- An insert leaves the lookups and collision counts of the other keys alone. -/
theorem AddPost.other_key_add {s s1 : State} {r : Nat} (hpost : AddPost s r s1) (hs : Inv s)
    (t : dtrace_probe_t) (hne : DTRACE_HASHEQ (s.mem r) t = false) :
    dtrace_hash_lookup s1 t = dtrace_hash_lookup s t ∧
      dtrace_hash_collisions s1 t = dtrace_hash_collisions s t := by
  have hk : ∀ m : Nat, bucket_key s1.mem ⟨some r, m⟩ ≠ some (cstr t.str) := by
    intro m e
    have : DTRACE_HASHEQ (s.mem r) t = true := by
      rw [hasheq_iff]
      simpa [bucket_key, hpost.frame.str] using e
    rw [hne] at this
    cases this
  have hfr : ∀ R, find_key s1.mem R (cstr t.str) = find_key s.mem R (cstr t.str) :=
    fun R => find_key_frame hpost.frame.str R _
  rcases hpost.buckets with ⟨b, R, hp, hkb, hp1, _, _⟩ | ⟨_, hp1, _, _⟩
  · have hkb2 : bucket_key s.mem b ≠ some (cstr t.str) := by
      intro e
      apply hk 0
      rw [← e, hkb]
      simp [bucket_key, hpost.frame.str]
    rw [hpost.frame.inv.lookup_eq hp1, hpost.frame.inv.collisions_eq hp1, hs.lookup_eq hp,
      hs.collisions_eq hp, lookup_in_cons, lookup_in_cons, collisions_in_cons,
      collisions_in_cons, if_neg (hk _), if_neg hkb2, if_neg (hk _), if_neg hkb2]
    unfold lookup_in collisions_in
    rw [hfr]
    exact ⟨rfl, rfl⟩
  · rw [hpost.frame.inv.lookup_eq hp1, hpost.frame.inv.collisions_eq hp1,
      hs.lookup_eq (List.Perm.refl _), hs.collisions_eq (List.Perm.refl _), lookup_in_cons,
      collisions_in_cons, if_neg (hk _), if_neg (hk _)]
    unfold lookup_in collisions_in
    rw [hfr]
    exact ⟨rfl, rfl⟩

/-- A remove leaves the lookups and collision counts of the other keys alone. -/
theorem RemovePost.other_key_remove {s s1 : State} {r : Nat} (hpost : RemovePost s r s1)
    (hs : Inv s) (t : dtrace_probe_t) (hne : DTRACE_HASHEQ (s.mem r) t = false) :
    dtrace_hash_lookup s1 t = dtrace_hash_lookup s t ∧
      dtrace_hash_collisions s1 t = dtrace_hash_collisions s t := by
  have hfr : ∀ R, find_key s1.mem R (cstr t.str) = find_key s.mem R (cstr t.str) :=
    fun R => find_key_frame hpost.str R _
  obtain ⟨b, R, l1, l2, hp, hl, hcase⟩ := hpost.buckets
  have hrl : r ∈ l1 ++ r :: l2 := List.mem_append_right _ (List.mem_cons_self r l2)
  have hkb : bucket_key s.mem b ≠ some (cstr t.str) := by
    intro e
    rw [hl.key_some hrl] at e
    have : DTRACE_HASHEQ (s.mem r) t = true := (hasheq_iff _ _).mpr (Option.some.inj e)
    rw [hne] at this
    cases this
  rcases hcase with ⟨_, hp1, _⟩ | ⟨hnn, b1, _, hb1, hp1, _⟩
  · rw [hpost.inv.lookup_eq hp1, hpost.inv.collisions_eq hp1, hs.lookup_eq hp,
      hs.collisions_eq hp, lookup_in_cons, collisions_in_cons, if_neg hkb, if_neg hkb]
    unfold lookup_in collisions_in
    rw [hfr]
    exact ⟨rfl, rfl⟩
  · have hkb1 : bucket_key s1.mem b1 ≠ some (cstr t.str) := by
      obtain ⟨x, hx⟩ := List.exists_mem_of_ne_nil _ hnn
      have hxl : x ∈ l1 ++ r :: l2 := by
        rcases List.mem_append.mp hx with e | e
        · exact List.mem_append_left _ e
        · exact List.mem_append_right _ (List.mem_cons_of_mem r e)
      rw [hb1.key_some hx, hpost.str, ← hl.key_some hxl]
      exact hkb
    rw [hpost.inv.lookup_eq hp1, hpost.inv.collisions_eq hp1, hs.lookup_eq hp,
      hs.collisions_eq hp, lookup_in_cons, lookup_in_cons, collisions_in_cons,
      collisions_in_cons, if_neg hkb, if_neg hkb1, if_neg hkb, if_neg hkb1]
    unfold lookup_in collisions_in
    rw [hfr]
    exact ⟨rfl, rfl⟩

/-- C20: for every reachable table and every key `k'` (of the template `t`):
`dtrace_hash_add` of any unlinked record whose key does not compare equal to
`k'` (also when the insert triggers a resize) returns and leaves the results
of `dtrace_hash_lookup(k')` and `dtrace_hash_collisions(k')` unchanged, and so
does `dtrace_hash_remove` of any linked record whose key does not compare
equal to `k'`, whatever the hash values and slots of the two keys. The two
halves stand on their own: neither needs a record for the other. -/
theorem C20_other_keys_unaffected (s : State) (t : dtrace_probe_t) (h : Reachable s) :
    (∀ r, Unlinked s r → DTRACE_HASHEQ (s.mem r) t = false →
      ∃ s1, dtrace_hash_add s r = .ok s1 ∧
        dtrace_hash_lookup s1 t = dtrace_hash_lookup s t ∧
        dtrace_hash_collisions s1 t = dtrace_hash_collisions s t) ∧
    (∀ r, Linked s r → DTRACE_HASHEQ (s.mem r) t = false →
      ∃ s1, dtrace_hash_remove s r = .ok s1 ∧
        dtrace_hash_lookup s1 t = dtrace_hash_lookup s t ∧
        dtrace_hash_collisions s1 t = dtrace_hash_collisions s t) := by
  constructor
  · intro r hr hk
    obtain ⟨s1, hadd, hpost⟩ := h.inv.add hr
    exact ⟨s1, hadd, hpost.other_key_add h.inv t hk⟩
  · intro r hr hk
    obtain ⟨s1, hrem, hpost⟩ := h.inv.remove hr
    exact ⟨s1, hrem, hpost.other_key_remove h.inv t hk⟩

/-- Witness of C20, all in the one slot of a table of size 1. The table holds
only "a": "b" is inserted and "a" is looked up. The table holds "a" and "b":
"a" is removed and "b" is looked up. The table holds "a", "b", "c", "d": the
insert of "e" doubles the table, and "a" is looked up. -/
theorem C20_other_keys_unaffected_witness :
    (∃ s, dtrace_hash_add ⟨dtrace_hash_create 0 8 16, abc_mem⟩ 0 = .ok s ∧
      Unlinked s 1 ∧ DTRACE_HASHEQ (s.mem 1) ⟨[97], none, none⟩ = false ∧
      ∃ s1, dtrace_hash_add s 1 = .ok s1 ∧
        dtrace_hash_lookup s1 ⟨[97], none, none⟩ = dtrace_hash_lookup s ⟨[97], none, none⟩ ∧
        dtrace_hash_collisions s1 ⟨[97], none, none⟩ =
          dtrace_hash_collisions s ⟨[97], none, none⟩) ∧
    (∃ s, add_all ⟨dtrace_hash_create 0 8 16, abc_mem⟩ [0, 1] = .ok s ∧
      Linked s 0 ∧ DTRACE_HASHEQ (s.mem 0) ⟨[98], none, none⟩ = false ∧
      ∃ s1, dtrace_hash_remove s 0 = .ok s1 ∧
        dtrace_hash_lookup s1 ⟨[98], none, none⟩ = dtrace_hash_lookup s ⟨[98], none, none⟩ ∧
        dtrace_hash_collisions s1 ⟨[98], none, none⟩ =
          dtrace_hash_collisions s ⟨[98], none, none⟩) ∧
    (∃ s, add_all ⟨dtrace_hash_create 0 8 16, abc_mem⟩ [0, 1, 2, 3] = .ok s ∧
      Unlinked s 4 ∧ DTRACE_HASHEQ (s.mem 4) ⟨[97], none, none⟩ = false ∧
      ∃ s1, dtrace_hash_add s 4 = .ok s1 ∧ s1.hash.dth_size = 2 * s.hash.dth_size ∧
        dtrace_hash_lookup s1 ⟨[97], none, none⟩ = dtrace_hash_lookup s ⟨[97], none, none⟩ ∧
        dtrace_hash_collisions s1 ⟨[97], none, none⟩ =
          dtrace_hash_collisions s ⟨[97], none, none⟩) := by
  have hr : Reachable ⟨dtrace_hash_create 0 8 16, abc_mem⟩ := Reachable.create 0 8 16 abc_mem
  have hun : ∀ r, Unlinked ⟨dtrace_hash_create 0 8 16, abc_mem⟩ r :=
    fun r => unlinked_create 0 8 16 abc_mem r rfl rfl
  refine ⟨?_, ?_, ?_⟩
  · obtain ⟨s, hs, hpost⟩ := hr.inv.add (hun 0)
    have hreach : Reachable s := Reachable.add hr (hun 0) hs
    have h1 : Unlinked s 1 := hpost.frame.unlinked_other (hun 1) (by decide)
    have hk : DTRACE_HASHEQ (s.mem 1) ⟨[97], none, none⟩ = false := by
      simp only [DTRACE_HASHEQ, hpost.frame.str]
      rfl
    exact ⟨s, hs, h1, hk, (C20_other_keys_unaffected s ⟨[97], none, none⟩ hreach).1 1 h1 hk⟩
  · obtain ⟨s, hs, _, hstr, hlinked, _⟩ :=
      add_all_spec [0, 1] _ hr.inv (by decide) (fun r _ => hun r)
    have hreach : Reachable s :=
      reachable_of_add_all [0, 1] hr (by decide) (fun r _ => hun r) hs
    have h0 : Linked s 0 := (hlinked 0).mpr (Or.inl (by decide))
    have hk : DTRACE_HASHEQ (s.mem 0) ⟨[98], none, none⟩ = false := by
      simp only [DTRACE_HASHEQ, hstr]
      rfl
    exact ⟨s, hs, h0, hk, (C20_other_keys_unaffected s ⟨[98], none, none⟩ hreach).2 0 h0 hk⟩
  · obtain ⟨s, hs, _, hstr, _, hkeep⟩ :=
      add_all_spec [0, 1, 2, 3] _ hr.inv (by decide) (fun r _ => hun r)
    have hreach : Reachable s :=
      reachable_of_add_all [0, 1, 2, 3] hr (by decide) (fun r _ => hun r) hs
    have h4 : Unlinked s 4 := hkeep 4 (by decide) (hun 4)
    have hk : DTRACE_HASHEQ (s.mem 4) ⟨[97], none, none⟩ = false := by
      simp only [DTRACE_HASHEQ, hstr]
      rfl
    obtain ⟨s1, hadd, hl, hc⟩ :=
      (C20_other_keys_unaffected s ⟨[97], none, none⟩ hreach).1 4 h4 hk
    have hnum : (match add_all ⟨dtrace_hash_create 0 8 16, abc_mem⟩ [0, 1, 2, 3] with
        | .ok s =>
          (match dtrace_hash_add s 4 with
            | .ok s1 => (s.hash.dth_size, s1.hash.dth_size)
            | .error _ => (0, 0))
        | .error _ => (0, 0)) = (1, 2) := rfl
    rw [hs] at hnum
    have hnum2 : (match dtrace_hash_add s 4 with
        | .ok s1 => (s.hash.dth_size, s1.hash.dth_size)
        | .error _ => (0, 0)) = (1, 2) := hnum
    rw [hadd] at hnum2
    have hsz : s1.hash.dth_size = 2 * s.hash.dth_size := by
      rw [show s.hash.dth_size = 1 from congrArg Prod.fst hnum2,
        show s1.hash.dth_size = 2 from congrArg Prod.snd hnum2]
    exact ⟨s, hs, h4, hk, s1, hadd, hsz, hl, hc⟩

/-! ## Shape of the record lists -/

theorem DList.prev_ne_none {mem : Nat → dtrace_probe_t} {l : List Nat} :
    ∀ {q : Nat} {p : Option Nat}, DList mem (some q) p l → ∀ x ∈ l, (mem x).prev ≠ none := by
  induction l with
  | nil => intro q p _ x hx; simp at hx
  | cons a l ih =>
    intro q p h x hx
    rcases List.mem_cons.mp hx with e | e
    · rw [e, h.2.1]
      exact Option.some_ne_none q
    · exact ih h.2.2 x e

theorem DList.next_prev {mem : Nat → dtrace_probe_t} {l : List Nat} :
    ∀ {q p : Option Nat}, DList mem q p l → ∀ x ∈ l, ∀ n, (mem x).next = some n →
      n ∈ l ∧ (mem n).prev = some x := by
  induction l with
  | nil => intro q p _ x hx; simp at hx
  | cons a l ih =>
    intro q p h x hx n hn
    rcases List.mem_cons.mp hx with e | e
    · subst e
      have hd := h.2.2
      rw [hn] at hd
      cases l with
      | nil => cases (hd : some n = none)
      | cons c t =>
        have hc : some n = some c := hd.1
        cases hc
        exact ⟨List.mem_cons_of_mem _ (List.mem_cons_self _ _), hd.2.1⟩
    · obtain ⟨h1, h2⟩ := ih h.2.2 x e n hn
      exact ⟨List.mem_cons_of_mem a h1, h2⟩

/-- The head of the list of a bucket is its only record with a null `prev`. -/
theorem BucketOK.prev_none_iff {mem : Nat → dtrace_probe_t} {b : dtrace_hashbucket_t}
    {l : List Nat} (hl : BucketOK mem b l) {x : Nat} (hx : x ∈ l) :
    (mem x).prev = none ↔ b.dthb_chain = some x := by
  obtain ⟨a, t, hlt, ha⟩ := hl.head
  subst hlt
  have hd := hl.dl
  rcases List.mem_cons.mp hx with e | e
  · subst e
    exact ⟨fun _ => ha, fun _ => hd.2.1⟩
  · have hxa : x ≠ a := fun e1 => (List.nodup_cons.mp hl.nodup).1 (by rw [← e1]; exact e)
    constructor
    · intro h0
      exact absurd h0 (hd.2.2.prev_ne_none x e)
    · intro h0
      rw [ha] at h0
      exact absurd (Option.some.inj h0).symm hxa

/-- C16: in every reachable state the record list of each bucket is a
well-formed doubly linked list: the walk from `dthb_chain` through `next` ends
(the list is finite, non-empty and without repetition), the record referenced
by `dthb_chain` is the only record of the list with `prev == null`, for every
record of the list with `next == n != null` the record `n` is on the list and
`n.prev` is that record, every record of the list has a key equal to that of
the head, and every linked record is on the list of exactly one bucket. -/
theorem C16_record_lists_well_formed (s : State) (h : Reachable s) :
    (∀ b ∈ all_buckets s, ∃ l, IsList s.mem b.dthb_chain l ∧ l ≠ [] ∧ l.Nodup ∧
      (∀ x ∈ l, ((s.mem x).prev = none ↔ b.dthb_chain = some x)) ∧
      (∀ x ∈ l, ∀ n, (s.mem x).next = some n → n ∈ l ∧ (s.mem n).prev = some x) ∧
      (∀ x ∈ l, ∀ a, b.dthb_chain = some a → DTRACE_HASHEQ (s.mem x) (s.mem a) = true)) ∧
    (all_buckets s).Nodup ∧
    (∀ x, Linked s x → ∃ b ∈ all_buckets s,
      (∃ l, IsList s.mem b.dthb_chain l ∧ x ∈ l) ∧
      ∀ b2 ∈ all_buckets s, (∃ l2, IsList s.mem b2.dthb_chain l2 ∧ x ∈ l2) → b2 = b) := by
  have hs := h.inv
  refine ⟨?_, hs.keys_nodup.of_map, ?_⟩
  · intro b hb
    obtain ⟨l, hl⟩ := hs.ok b hb
    refine ⟨l, hl.dl.isList, hl.ne, hl.nodup, fun x hx => hl.prev_none_iff hx,
      fun x hx n hn => hl.dl.next_prev x hx n hn, ?_⟩
    intro x hx a ha
    rw [hasheq_iff]
    have hk := hl.keys x hx
    rw [bucket_key, ha] at hk
    exact Option.some.inj hk
  · intro x hx
    obtain ⟨b, hb, l, hl, hxl⟩ := (hs.linked_iff x).mp hx
    refine ⟨b, hb, ⟨l, hl.dl.isList, hxl⟩, ?_⟩
    rintro b2 hb2 ⟨l2, hl2, hxl2⟩
    obtain ⟨l3, hl3⟩ := hs.ok b2 hb2
    rw [hl3.unique_records hl2] at hxl2
    apply hs.key_inj hb2 hb
    rw [hl3.key_some hxl2, hl.key_some hxl]

/-- Witness of C16: the table after the inserts of three records with key "x"
and the remove of the middle one. -/
theorem C16_record_lists_well_formed_witness :
    ∃ s0 s, add_all ⟨dtrace_hash_create 0 8 16, xx_mem⟩ [0, 1, 2] = .ok s0 ∧
      dtrace_hash_remove s0 1 = .ok s ∧ Reachable s ∧
      ((∀ b ∈ all_buckets s, ∃ l, IsList s.mem b.dthb_chain l ∧ l ≠ [] ∧ l.Nodup ∧
        (∀ x ∈ l, ((s.mem x).prev = none ↔ b.dthb_chain = some x)) ∧
        (∀ x ∈ l, ∀ n, (s.mem x).next = some n → n ∈ l ∧ (s.mem n).prev = some x) ∧
        (∀ x ∈ l, ∀ a, b.dthb_chain = some a → DTRACE_HASHEQ (s.mem x) (s.mem a) = true)) ∧
      (all_buckets s).Nodup ∧
      (∀ x, Linked s x → ∃ b ∈ all_buckets s,
        (∃ l, IsList s.mem b.dthb_chain l ∧ x ∈ l) ∧
        ∀ b2 ∈ all_buckets s, (∃ l2, IsList s.mem b2.dthb_chain l2 ∧ x ∈ l2) → b2 = b)) := by
  have hr : Reachable ⟨dtrace_hash_create 0 8 16, xx_mem⟩ := Reachable.create 0 8 16 xx_mem
  have hun : ∀ r, Unlinked ⟨dtrace_hash_create 0 8 16, xx_mem⟩ r :=
    fun r => unlinked_create 0 8 16 xx_mem r rfl rfl
  obtain ⟨s0, hs0, hinv0, _, hlinked, _⟩ :=
    add_all_spec [0, 1, 2] _ hr.inv (by decide) (fun r _ => hun r)
  have hreach0 : Reachable s0 :=
    reachable_of_add_all [0, 1, 2] hr (by decide) (fun r _ => hun r) hs0
  have h1 : Linked s0 1 := (hlinked 1).mpr (Or.inl (by decide))
  obtain ⟨s, hrem, _⟩ := hinv0.remove h1
  have hreach : Reachable s := Reachable.remove hreach0 h1 hrem
  exact ⟨s0, s, hs0, hrem, hreach, C16_record_lists_well_formed s hreach⟩

/-! ## Which record a lookup returns -/

theorem IsList.frame_next {mem mem1 : Nat → dtrace_probe_t} {l : List Nat}
    (h : ∀ x ∈ l, (mem1 x).next = (mem x).next) :
    ∀ {p : Option Nat}, IsList mem p l → IsList mem1 p l := by
  induction l with
  | nil => intro p hp; exact hp
  | cons a l ih =>
    intro p hp
    refine ⟨hp.1, ?_⟩
    rw [h a (List.mem_cons_self a l)]
    exact ih (fun x hx => h x (List.mem_cons_of_mem a hx)) hp.2

theorem filter_erase_comm (p : Nat → Bool) (r : Nat) (l : List Nat) :
    (l.erase r).filter p = (l.filter p).erase r := by
  induction l with
  | nil => rfl
  | cons a l ih =>
    by_cases har : a = r
    · subst har
      rw [List.erase_cons_head]
      by_cases hp : p a = true
      · rw [List.filter_cons_of_pos hp, List.erase_cons_head]
      · rw [List.filter_cons_of_neg hp, List.erase_of_not_mem]
        intro hmem
        exact hp (List.of_mem_filter hmem)
    · rw [List.erase_cons_tail (by simpa using har)]
      by_cases hp : p a = true
      · rw [List.filter_cons_of_pos hp, List.filter_cons_of_pos hp,
          List.erase_cons_tail (by simpa using har), ih]
      · rw [List.filter_cons_of_neg hp, List.filter_cons_of_neg hp, ih]

theorem head_filter_eq_find (p : Nat → Bool) (l : List Nat) :
    (l.filter p).head? = l.find? p := by
  induction l with
  | nil => rfl
  | cons a l ih =>
    by_cases hp : p a = true
    · rw [List.filter_cons_of_pos hp, List.find?_cons_of_pos _ hp]
      rfl
    · rw [List.filter_cons_of_neg hp, List.find?_cons_of_neg _ hp, ih]

theorem erase_middle {l1 l2 : List Nat} {r : Nat} (h : (l1 ++ r :: l2).Nodup) :
    (l1 ++ r :: l2).erase r = l1 ++ l2 := by
  have hr : r ∉ l1 := by
    rw [List.nodup_append] at h
    exact fun e => h.2.2 e (List.mem_cons_self r l2)
  rw [List.erase_append_right _ hr, List.erase_cons_head]

/-- An insert puts the record in front of the list of its key and leaves the
lists of the other keys alone. -/
theorem keyList_add {s s1 : State} {r : Nat} (hs : Inv s) (hr : Unlinked s r)
    (hadd : dtrace_hash_add s r = .ok s1) (k : List Int) (l : List Nat)
    (hl : KeyList s k l) :
    KeyList s1 k (if cstr (s.mem r).str = k then r :: l else l) := by
  obtain ⟨s2, c, hadd2, hpost, hlook, hmem⟩ := hs.add_mem hr
  rw [hadd] at hadd2
  cases hadd2
  have hinv1 := hpost.frame.inv
  have hnext_r : (s1.mem r).next = c := by rw [hmem, link_mem_next, if_pos rfl]
  have hkey1 : ∀ m : Nat, bucket_key s1.mem ⟨some r, m⟩ = some (cstr (s.mem r).str) := by
    intro m
    simp [bucket_key, hpost.frame.str]
  have hnotin : ∀ b ∈ all_buckets s, ∀ l0, BucketOK s.mem b l0 → r ∉ l0 := by
    intro b hb l0 hl0 hrl
    exact hr.2.2 ((hs.linked_iff r).mpr ⟨b, hb, l0, hl0, hrl⟩)
  have hlist : ∀ b ∈ all_buckets s, ∀ l0, BucketOK s.mem b l0 →
      IsList s1.mem b.dthb_chain l0 := by
    intro b hb l0 hl0
    refine IsList.frame_next ?_ hl0.dl.isList
    intro x hx
    exact hpost.frame.next_other x (fun e => hnotin b hb l0 hl0 (by rw [← e]; exact hx))
  have hfr : ∀ b ∈ all_buckets s, ∀ l0, BucketOK s.mem b l0 → b ∈ all_buckets s1 →
      BucketOK s1.mem b l0 := by
    intro b hb l0 hl0 hb1
    obtain ⟨l1, hl1⟩ := hinv1.ok b hb1
    have := hl1.unique_records (hlist b hb l0 hl0)
    rw [this]
    exact hl1
  by_cases hk : cstr (s.mem r).str = k
  · rw [if_pos hk]
    right
    rcases hl with ⟨hnil, hno⟩ | ⟨b, hb, hkb, hbl⟩
    · subst hnil
      have hc : c = none := by
        have := hs.lookup_none (s.mem r) (by rw [hk]; exact hno)
        rw [hlook] at this
        cases this
        rfl
      rcases hpost.buckets with ⟨b0, R, hp, hk0, _⟩ | ⟨_, hp1, _, _⟩
      · exact absurd (hk0.trans (by rw [hk]))
          (hno b0 (hp.mem_iff.mpr (List.mem_cons_self b0 R)))
      · have hb1 : (⟨some r, 1⟩ : dtrace_hashbucket_t) ∈ all_buckets s1 :=
          hp1.mem_iff.mpr (List.mem_cons_self _ _)
        obtain ⟨l1, hl1⟩ := hinv1.ok _ hb1
        have hu : [r] = l1 := hl1.unique_records ⟨rfl, by rw [hnext_r, hc]; rfl⟩
        rw [← hu] at hl1
        exact ⟨_, hb1, by rw [hkey1, hk], hl1⟩
    · have hc : c = b.dthb_chain := by
        have := hs.lookup_found (s.mem r) hb (by rw [hk]; exact hkb)
        rw [hlook] at this
        cases this
        rfl
      rcases hpost.buckets with ⟨b0, R, hp, hk0, hp1, _, _⟩ | ⟨hno, _⟩
      · have hbb : b0 = b :=
          hs.key_inj (hp.mem_iff.mpr (List.mem_cons_self b0 R)) hb
            (hk0.trans (by rw [hk, hkb]))
        subst hbb
        have hb1 : (⟨some r, b0.dthb_len + 1⟩ : dtrace_hashbucket_t) ∈ all_buckets s1 :=
          hp1.mem_iff.mpr (List.mem_cons_self _ _)
        obtain ⟨l1, hl1⟩ := hinv1.ok _ hb1
        have hu : r :: l = l1 :=
          hl1.unique_records ⟨rfl, by rw [hnext_r, hc]; exact hlist b0 hb l hbl⟩
        rw [← hu] at hl1
        exact ⟨_, hb1, by rw [hkey1, hk], hl1⟩
      · exact absurd (by rw [hk]; exact hkb) (hno b hb)
  · rw [if_neg hk]
    rcases hl with ⟨hnil, hno⟩ | ⟨b, hb, hkb, hbl⟩
    · left
      refine ⟨hnil, ?_⟩
      intro b1 hb1 hk1
      rcases hpost.buckets with ⟨b0, R, hp, _, hp1, _, _⟩ | ⟨_, hp1, _, _⟩
      · rcases List.mem_cons.mp (hp1.mem_iff.mp hb1) with e | e
        · rw [e, hkey1] at hk1
          exact hk (Option.some.inj hk1)
        · rw [bucket_key_frame hpost.frame.str] at hk1
          exact hno b1 (hp.mem_iff.mpr (List.mem_cons_of_mem b0 e)) hk1
      · rcases List.mem_cons.mp (hp1.mem_iff.mp hb1) with e | e
        · rw [e, hkey1] at hk1
          exact hk (Option.some.inj hk1)
        · rw [bucket_key_frame hpost.frame.str] at hk1
          exact hno b1 e hk1
    · right
      have hb1 : b ∈ all_buckets s1 := by
        rcases hpost.buckets with ⟨b0, R, hp, hk0, hp1, _, _⟩ | ⟨_, hp1, _, _⟩
        · rcases List.mem_cons.mp (hp.mem_iff.mp hb) with e | e
          · rw [e] at hkb
            rw [hk0] at hkb
            exact absurd (Option.some.inj hkb) hk
          · exact hp1.mem_iff.mpr (List.mem_cons_of_mem _ e)
        · exact hp1.mem_iff.mpr (List.mem_cons_of_mem _ hb)
      exact ⟨b, hb1, by rw [bucket_key_frame hpost.frame.str]; exact hkb, hfr b hb l hbl hb1⟩

/-- A remove takes the record out of the list of its key and leaves the lists of
the other keys alone. -/
theorem keyList_remove {s s1 : State} {r : Nat} (hs : Inv s) (hr : Linked s r)
    (hrem : dtrace_hash_remove s r = .ok s1) (k : List Int) (l : List Nat)
    (hl : KeyList s k l) : KeyList s1 k (l.erase r) := by
  obtain ⟨s2, hrem2, hpost⟩ := hs.remove hr
  rw [hrem] at hrem2
  cases hrem2
  have hinv1 := hpost.inv
  obtain ⟨b, R, l1, l2, hp, hbl, hcase⟩ := hpost.buckets
  have hbm : b ∈ all_buckets s := hp.mem_iff.mpr (List.mem_cons_self b R)
  have hrl : r ∈ l1 ++ r :: l2 := List.mem_append_right _ (List.mem_cons_self r l2)
  have hndOld : ((b :: R).map (bucket_key s.mem)).Nodup :=
    ((hp.map _).nodup_iff).mp hs.keys_nodup
  have hRk : ∀ b2 ∈ R, bucket_key s.mem b2 ≠ bucket_key s.mem b := by
    intro b2 hb2 e
    rw [List.map_cons, List.nodup_cons] at hndOld
    apply hndOld.1
    rw [← e]
    exact List.mem_map_of_mem _ hb2
  have hR1 : ∀ b2 ∈ R, b2 ∈ all_buckets s1 := by
    intro b2 hb2
    rcases hcase with ⟨_, hp1, _⟩ | ⟨_, b1, _, _, hp1, _⟩
    · exact hp1.mem_iff.mpr hb2
    · exact hp1.mem_iff.mpr (List.mem_cons_of_mem _ hb2)
  have hfr : ∀ b2 ∈ R, ∀ l0, BucketOK s.mem b2 l0 → BucketOK s1.mem b2 l0 := by
    intro b2 hb2 l0 hl0
    obtain ⟨l3, hl3⟩ := hinv1.ok b2 (hR1 b2 hb2)
    have hlist : IsList s1.mem b2.dthb_chain l0 := by
      refine IsList.frame_next ?_ hl0.dl.isList
      intro x hx
      rw [hpost.mem_next, if_neg]
      intro e
      have hx1 : x ∈ l1 := hbl.neighbours.1 x e.symm
      exact hbl.not_mem_of_key_ne hl0 (hRk b2 hb2) hx (List.mem_append_left _ hx1)
    rw [← hl3.unique_records hlist] at hl3
    exact hl3
  rcases hl with ⟨hnil, hno⟩ | ⟨b0, hb0, hkb0, hbl0⟩
  · left
    subst hnil
    refine ⟨rfl, ?_⟩
    intro b2 hb2 hk2
    rcases hcase with ⟨_, hp1, _⟩ | ⟨hne, b1, _, hb1, hp1, _⟩
    · rw [bucket_key_frame hpost.str] at hk2
      exact hno b2 (hp.mem_iff.mpr (List.mem_cons_of_mem b (hp1.mem_iff.mp hb2))) hk2
    · rcases List.mem_cons.mp (hp1.mem_iff.mp hb2) with e | e
      · subst e
        obtain ⟨x, hx⟩ := List.exists_mem_of_ne_nil _ hne
        have hxl : x ∈ l1 ++ r :: l2 := by
          rcases List.mem_append.mp hx with e | e
          · exact List.mem_append_left _ e
          · exact List.mem_append_right _ (List.mem_cons_of_mem r e)
        rw [hb1.key_some hx, hpost.str, ← hbl.key_some hxl] at hk2
        exact hno b hbm hk2
      · rw [bucket_key_frame hpost.str] at hk2
        exact hno b2 (hp.mem_iff.mpr (List.mem_cons_of_mem b e)) hk2
  · rcases List.mem_cons.mp (hp.mem_iff.mp hb0) with e | e
    · subst e
      have hu : l = l1 ++ r :: l2 := hbl.unique_records hbl0.dl.isList
      subst hu
      rw [erase_middle hbl.nodup]
      rcases hcase with ⟨hnil, hp1, _⟩ | ⟨hne, b1, _, hb1, hp1, _⟩
      · left
        refine ⟨hnil, ?_⟩
        intro b2 hb2 hk2
        rw [bucket_key_frame hpost.str, ← hkb0] at hk2
        exact hRk b2 (hp1.mem_iff.mp hb2) hk2
      · right
        refine ⟨b1, hp1.mem_iff.mpr (List.mem_cons_self _ _), ?_, hb1⟩
        obtain ⟨x, hx⟩ := List.exists_mem_of_ne_nil _ hne
        have hxl : x ∈ l1 ++ r :: l2 := by
          rcases List.mem_append.mp hx with e | e
          · exact List.mem_append_left _ e
          · exact List.mem_append_right _ (List.mem_cons_of_mem r e)
        rw [hb1.key_some hx, hpost.str, ← hbl.key_some hxl]
        exact hkb0
    · right
      have hrn : r ∉ l := by
        intro hrl0
        exact hbl.not_mem_of_key_ne hbl0 (hRk b0 e) hrl0 hrl
      rw [List.erase_of_not_mem hrn]
      exact ⟨b0, hR1 b0 e, by rw [bucket_key_frame hpost.str]; exact hkb0, hfr b0 e l hbl0⟩

theorem keyList_resize {s s1 : State} (hmem : s1.mem = s.mem)
    (hperm : (all_buckets s1).Perm (all_buckets s)) (k : List Int) (l : List Nat)
    (hl : KeyList s k l) : KeyList s1 k l := by
  unfold KeyList at hl ⊢
  rw [hmem]
  rcases hl with ⟨hnil, hno⟩ | ⟨b, hb, hkb, hbl⟩
  · exact Or.inl ⟨hnil, fun b hb => hno b (hperm.mem_iff.mp hb)⟩
  · exact Or.inr ⟨b, hperm.mem_iff.mpr hb, hkb, hbl⟩

theorem History.reachable {s : State} {log : List Nat} (h : History s log) : Reachable s := by
  induction h with
  | create stroffs nextoffs prevoffs mem => exact Reachable.create _ _ _ _
  | add _ hr hadd ih => exact Reachable.add ih hr hadd
  | remove _ hr hrem ih => exact Reachable.remove ih hr hrem
  | resize _ hres ih => exact Reachable.resize ih hres

theorem Reachable.history {s : State} (h : Reachable s) : ∃ log, History s log := by
  induction h with
  | create stroffs nextoffs prevoffs mem => exact ⟨[], History.create _ _ _ _⟩
  | add _ hr hadd ih =>
    obtain ⟨log, hl⟩ := ih
    exact ⟨_, History.add hl hr hadd⟩
  | remove _ hr hrem ih =>
    obtain ⟨log, hl⟩ := ih
    exact ⟨_, History.remove hl hr hrem⟩
  | resize _ hres ih =>
    obtain ⟨log, hl⟩ := ih
    exact ⟨_, History.resize hl hres⟩

/-- The log of a history lists the linked records, each once, and the records
of a key, in the order of the log, are the record list of the bucket of that
key. -/
theorem History.spec {s : State} {log : List Nat} (h : History s log) :
    log.Nodup ∧ (∀ x, x ∈ log ↔ Linked s x) ∧
      ∀ k, KeyList s k (log.filter (fun x => decide (cstr (s.mem x).str = k))) := by
  induction h with
  | create stroffs nextoffs prevoffs mem =>
    refine ⟨List.nodup_nil, ?_, ?_⟩
    · intro x
      constructor
      · intro hx
        cases hx
      · rintro ⟨b, hb, _⟩
        simp [all_buckets, dtrace_hash_create] at hb
    · intro k
      left
      refine ⟨rfl, ?_⟩
      intro b hb
      simp [all_buckets, dtrace_hash_create] at hb
  | add hh hr hadd ih =>
    rename_i s0 s1 log0 r
    obtain ⟨hnd, hmemL, hkl⟩ := ih
    have hs := hh.reachable.inv
    obtain ⟨s2, hadd2, hpost⟩ := hs.add hr
    rw [hadd] at hadd2
    cases hadd2
    have hrn : r ∉ log0 := fun hx => hr.2.2 ((hmemL r).mp hx)
    refine ⟨List.nodup_cons.mpr ⟨hrn, hnd⟩, ?_, ?_⟩
    · intro x
      rw [hpost.frame.linked, List.mem_cons, hmemL]
    · intro k
      have hfun : (fun x => decide (cstr (s1.mem x).str = k)) =
          (fun x => decide (cstr (s0.mem x).str = k)) := by
        funext x
        rw [hpost.frame.str]
      rw [hfun]
      have := keyList_add hs hr hadd k _ (hkl k)
      by_cases hk : cstr (s0.mem r).str = k
      · rw [if_pos hk] at this
        rw [List.filter_cons_of_pos (by simpa using hk)]
        exact this
      · rw [if_neg hk] at this
        rw [List.filter_cons_of_neg (by simpa using hk)]
        exact this
  | remove hh hr hrem ih =>
    rename_i s0 s1 log0 r
    obtain ⟨hnd, hmemL, hkl⟩ := ih
    have hs := hh.reachable.inv
    obtain ⟨s2, hrem2, hpost⟩ := hs.remove hr
    rw [hrem] at hrem2
    cases hrem2
    refine ⟨hnd.erase r, ?_, ?_⟩
    · intro x
      rw [hnd.mem_erase_iff, hpost.linked, hmemL]
    · intro k
      have hfun : (fun x => decide (cstr (s1.mem x).str = k)) =
          (fun x => decide (cstr (s0.mem x).str = k)) := by
        funext x
        rw [hpost.str]
      rw [hfun, filter_erase_comm]
      exact keyList_remove hs hr hrem k _ (hkl k)
  | resize hh hres ih =>
    rename_i s0 s1 log0
    obtain ⟨hnd, hmemL, hkl⟩ := ih
    have hs := hh.reachable.inv
    obtain ⟨s2, hres2, hmem, _, _, hperm, _⟩ := hs.resize
    rw [hres] at hres2
    cases hres2
    refine ⟨hnd, ?_, ?_⟩
    · intro x
      rw [hmemL, linked_congr hmem hperm]
    · intro k
      have := keyList_resize hmem hperm k _ (hkl k)
      rw [hmem]
      exact this

/-- A lookup returns the first record of the log that has the key looked up. -/
theorem History.lookup {s : State} {log : List Nat} (h : History s log) (t : dtrace_probe_t) :
    dtrace_hash_lookup s t = .ok (log.find? (fun x => DTRACE_HASHEQ (s.mem x) t)) := by
  obtain ⟨_, _, hkl⟩ := h.spec
  have hs := h.reachable.inv
  have hfun : (fun x => DTRACE_HASHEQ (s.mem x) t) =
      (fun x => decide (cstr (s.mem x).str = cstr t.str)) := by
    funext x
    rw [Bool.eq_iff_iff, hasheq_iff, decide_eq_true_iff]
  rw [hfun, ← head_filter_eq_find]
  rcases hkl (cstr t.str) with ⟨hnil, hno⟩ | ⟨b, hb, hkb, hbl⟩
  · rw [hnil, hs.lookup_none t hno]
    rfl
  · rw [hs.lookup_found t hb hkb, hbl.dl.ptr_eq_head]

/-- C15: in every reachable state, with `log` the linked records in the order of
their inserts, the most recent first (an insert puts the record in front, a
remove takes it out, a resize keeps the log), `dtrace_hash_lookup` of a key
returns the first record of the log with that key, that is the most recently
inserted of the linked records with the key, and it returns not-found exactly
when no linked record has the key. Every reachable state has such a log. -/
theorem C15_lookup_returns_most_recent (s : State) (t : dtrace_probe_t) (hr : Reachable s) :
    (∃ log, History s log) ∧
      ∀ log, History s log →
        log.Nodup ∧ (∀ x, x ∈ log ↔ Linked s x) ∧
        dtrace_hash_lookup s t = .ok (log.find? (fun x => DTRACE_HASHEQ (s.mem x) t)) ∧
        (dtrace_hash_lookup s t = .ok none ↔
          ∀ x, Linked s x → DTRACE_HASHEQ (s.mem x) t = false) := by
  refine ⟨hr.history, ?_⟩
  intro log hh
  obtain ⟨hnd, hmemL, _⟩ := hh.spec
  refine ⟨hnd, hmemL, hh.lookup t, ?_⟩
  rw [hh.lookup t]
  constructor
  · intro h x hx
    have hnone : log.find? (fun x => DTRACE_HASHEQ (s.mem x) t) = none :=
      Except.ok.inj h
    have := List.find?_eq_none.mp hnone x ((hmemL x).mpr hx)
    simpa using this
  · intro h
    have hnone : log.find? (fun x => DTRACE_HASHEQ (s.mem x) t) = none := by
      rw [List.find?_eq_none]
      intro x hx
      rw [h x ((hmemL x).mp hx)]
      simp
    rw [hnone]

theorem C15_lookup_returns_most_recent_witness :
    ∃ s1 s2 s3 s4, dtrace_hash_add ⟨dtrace_hash_create 0 8 16, xx_mem⟩ 0 = .ok s1 ∧
      dtrace_hash_add s1 1 = .ok s2 ∧ dtrace_hash_remove s2 1 = .ok s3 ∧
      dtrace_hash_lookup s3 ⟨[120], none, none⟩ = .ok (some 0) ∧
      dtrace_hash_remove s3 0 = .ok s4 ∧
      dtrace_hash_lookup s4 ⟨[120], none, none⟩ = .ok none := by
  have h0 : History ⟨dtrace_hash_create 0 8 16, xx_mem⟩ [] := History.create 0 8 16 xx_mem
  have hu0 : Unlinked ⟨dtrace_hash_create 0 8 16, xx_mem⟩ 0 :=
    unlinked_create 0 8 16 xx_mem 0 rfl rfl
  obtain ⟨s1, a1, p1⟩ := h0.reachable.inv.add hu0
  have hu1 : Unlinked s1 1 :=
    p1.frame.unlinked_other (unlinked_create 0 8 16 xx_mem 1 rfl rfl) (by decide)
  obtain ⟨s2, a2, p2⟩ := p1.frame.inv.add hu1
  have hl1 : Linked s2 1 := (p2.frame.linked 1).mpr (Or.inl rfl)
  obtain ⟨s3, r3, p3⟩ := p2.frame.inv.remove hl1
  have hl0 : Linked s3 0 :=
    (p3.linked 0).mpr ⟨by decide, (p2.frame.linked 0).mpr
      (Or.inr ((p1.frame.linked 0).mpr (Or.inl rfl)))⟩
  obtain ⟨s4, r4, p4⟩ := p3.inv.remove hl0
  have h3 : History s3 [0] := History.remove (History.add (History.add h0 hu0 a1) hu1 a2) hl1 r3
  have h4 : History s4 [] := History.remove h3 hl0 r4
  have hstr3 : (s3.mem 0).str = [120] := by
    rw [p3.str, p2.frame.str, p1.frame.str]
    rfl
  have hq : DTRACE_HASHEQ (s3.mem 0) ⟨[120], none, none⟩ = true := by
    rw [hasheq_iff, hstr3]
  have e3 := ((C15_lookup_returns_most_recent s3 ⟨[120], none, none⟩ h3.reachable).2 [0] h3).2.2.1
  have e4 := ((C15_lookup_returns_most_recent s4 ⟨[120], none, none⟩ h4.reachable).2 [] h4).2.2.1
  refine ⟨s1, s2, s3, s4, a1, a2, r3, ?_, r4, e4⟩
  rw [e3]
  simp [List.find?, hq]

end DtraceHash
